import Mathlib

/-!
Verification of the context-free-grammar engine: grammar data model,
structural transforms, FIRST/FOLLOW, LL(1) table construction and the
predictive parser, embedded from `src/context_free/grammar.py` and
`src/context_free/parser.py`.

Conventions of the embedding:
* symbols are strings; a production is a `List Sym` (python tuples of
  symbols); the epsilon marker is the symbol `"&"`, the stack bottom `"$"`;
* an `OrderedSet` is a duplicate-free list in insertion order (`osetAdd`
  appends unless present, mirroring `oset.ordered_set.OrderedSet.add`);
* a python `dict` is an association list in insertion order: `dSet`
  overwrites in place or appends, `dGet` reads with a default;
* unbounded python loops (worklists, fixed-point passes) are embedded
  with explicit fuel, chosen large enough for the loop to reach its
  exit; sufficiency is proved where a theorem needs it.
-/

namespace Cfg

abbrev Sym := String

/-- `OrderedSet.add`: append the element unless it is already present. -/
def osetAdd {α : Type} [DecidableEq α] (l : List α) (x : α) : List α :=
  if x ∈ l then l else l ++ [x]

/-- `OrderedSet.update`: add every element of `xs` in order. -/
def osetUpdate {α : Type} [DecidableEq α] (l : List α) (xs : List α) : List α :=
  xs.foldl osetAdd l

/-- Dictionary read with default (python raises `KeyError`; every embedded
read is at a key the code has initialised). -/
def dGet {κ β : Type} [DecidableEq κ] (d : List (κ × β)) (k : κ) (dflt : β) : β :=
  match d.find? (fun e => e.1 = k) with
  | some e => e.2
  | none => dflt

/-- Dictionary write: overwrite in place, else append (python dict update). -/
def dSet {κ β : Type} [DecidableEq κ] (d : List (κ × β)) (k : κ) (v : β) :
    List (κ × β) :=
  if d.any (fun e => e.1 = k) then d.map (fun e => if e.1 = k then (k, v) else e)
  else d ++ [(k, v)]

/-- Dictionary delete (python `del`). -/
def dDel {κ β : Type} [DecidableEq κ] (d : List (κ × β)) (k : κ) : List (κ × β) :=
  d.filter (fun e => ¬ e.1 = k)

def dKeys {κ β : Type} (d : List (κ × β)) : List κ := d.map Prod.fst

/-- The grammar record: `variables`, `terminals`, the production map
`rules` and the `start` variable (`ContextFreeGrammar.__init__`'s state). -/
structure Grammar where
  vars : List Sym
  terminals : List Sym
  rules : List (Sym × List (List Sym))
  start : Sym
deriving DecidableEq, Repr

/-- `self.rules[v]` for a variable `v`. -/
def Grammar.prods (g : Grammar) (v : Sym) : List (List Sym) := dGet g.rules v []

/-- `has_e`: some variable other than the current start owns the epsilon
production `("&",)`. -/
def hasE (g : Grammar) : Bool :=
  g.vars.any (fun v => (g.prods v).any (fun p => v ≠ g.start ∧ p = ["&"]))

/-! ### The shared fixed-point pass

`remove_epsilon` (nullables) and `remove_unproductives` (productives) run
the same hopcroft-style loop: one pass walks every production of every
variable and adds the head once the whole body is already in the set;
the loop repeats while a pass added something. -/

/-- One pass of the fixed-point loop; additions are visible to later
checks of the same pass, as in python. -/
def closureStep (rules : List (Sym × List (List Sym))) (s : List Sym) : List Sym :=
  rules.foldl
    (fun s e =>
      e.2.foldl
        (fun s prod =>
          if (∀ p ∈ prod, p ∈ s) ∧ e.1 ∉ s then s ++ [e.1] else s)
        s)
    s

/-- The `while changed` loop, with fuel. A pass that adds nothing ends the
loop; `rules.length + 1` passes always suffice (`closureLoop_fixed`). -/
def closureLoop (rules : List (Sym × List (List Sym))) : Nat → List Sym → List Sym
  | 0, s => s
  | fuel + 1, s =>
      let s' := closureStep rules s
      if s'.length = s.length then s' else closureLoop rules fuel s'

/-! ### `remove_epsilon` -/

/-- `power_set`'s recursion: position `i` walks the production; at a
nullable position every current cut is duplicated with that position
struck out (replaced by the marker `"ε"`); at the end the markers are
dropped and empty cuts discarded.  The python recursion stops at
`i == len(cuts[0])`; the first cut is the original production, whose
length never changes, so the fuel `(cuts.headD []).length - i` counts the
remaining positions exactly. -/
def powerSetAux (nulls : List Sym) : Nat → List (List Sym) → Nat → List (List Sym)
  | 0, cuts, _ =>
      (cuts.map (fun c => c.filter (fun s => ¬ s = "ε"))).foldl
        (fun acc c => if c.length > 0 then osetAdd acc c else acc) []
  | fuel + 1, cuts, i =>
      if i < (cuts.headD []).length then
        let cuts' :=
          if (cuts.headD []).getD i "" ∈ nulls then
            osetUpdate cuts (cuts.map (fun s => s.set i "ε"))
          else cuts
        powerSetAux nulls fuel cuts' (i + 1)
      else
        (cuts.map (fun c => c.filter (fun s => ¬ s = "ε"))).foldl
          (fun acc c => if c.length > 0 then osetAdd acc c else acc) []

/-- `power_set(0, OrderedSet([prod]))`. -/
def powerSet (nulls : List Sym) (prod : List Sym) : List (List Sym) :=
  powerSetAux nulls prod.length [prod] 0

/-- The nullable set: starts at `{&}`, closes under "some production is
entirely nullable". -/
def nullablesOf (g : Grammar) : List Sym :=
  closureLoop g.rules (g.rules.length + 1) (osetAdd [] "&")

/-- The augmented-start name `"❬'{start}❭"`. -/
def augName (s : Sym) : Sym := "❬" ++ "'" ++ s ++ "❭"

/-- The body of `remove_epsilon`'s strike loop for one variable: union in
all cuts of all productions, then drop the exact epsilon production. -/
def reStrike (nulls : List Sym) (prods : List (List Sym)) : List (List Sym) :=
  let toAdd := prods.foldl (fun acc p => osetUpdate acc (powerSet nulls p)) []
  let updated := osetUpdate prods toAdd
  if ["&"] ∈ updated then updated.filter (fun p => ¬ p = ["&"]) else updated

/-- The rule dict after `remove_epsilon`'s strike loop. -/
def reRules (g : Grammar) (nulls : List Sym) : List (Sym × List (List Sym)) :=
  g.vars.foldl (fun rs v => dSet rs v (reStrike nulls (dGet rs v []))) g.rules

/-- `remove_epsilon`: strike nullable occurrences out of every production,
drop the epsilon production from every variable, and, when the start was
nullable, introduce the augmented start `❬'S❭ -> S | &`. -/
def removeEpsilon (g : Grammar) : Grammar :=
  if g.start ∈ nullablesOf g then
    { vars := osetAdd g.vars (augName g.start)
      terminals := g.terminals
      rules := dSet (reRules g (nullablesOf g)) (augName g.start) [[g.start], ["&"]]
      start := augName g.start }
  else
    { g with rules := reRules g (nullablesOf g) }

/-! ### The worklist search (`bfs` helpers)

Each analysis builds a fresh edge dictionary and explores it with the
`bfs` helper: a deque used as a stack (`append` right, `pop` right), and
a visited map.  The visited list is returned in marking order; only
membership is ever used. -/

/-- The `bfs` worklist: pop the most recent entry, mark-and-push every
unvisited successor.  Call with `vis = q = [source]` (python marks the
source before the loop).  Fuel `2 * |vertices| + 2` always reaches the
empty queue (`bfsVisited_closed`). -/
def bfsVisited (edges : List (Sym × List Sym)) :
    Nat → List Sym → List Sym → List Sym
  | 0, vis, _ => vis
  | fuel + 1, vis, q =>
    match q with
    | [] => vis
    | v :: rest =>
      let s := (dGet edges v []).foldl
        (fun vq u => if u ∈ vq.1 then vq else (vq.1 ++ [u], u :: vq.2))
        (vis, rest)
      bfsVisited edges fuel s.1 s.2

/-- `remove_unit`'s edge map: `A → B` iff `A` has the unit production `(B,)`
with `B` a variable. -/
def unitEdges (g : Grammar) : List (Sym × List Sym) :=
  let e0 := g.vars.foldl (fun d v => dSet d v []) []
  g.rules.foldl
    (fun d e =>
      e.2.foldl
        (fun d body =>
          if body.length = 1 ∧ body.headD "" ∈ g.vars then
            dSet d e.1 (osetAdd (dGet d e.1 []) (body.headD ""))
          else d)
        d)
    e0

/-- The non-unit productions pooled from all unit-reachable variables of
one source variable. -/
def ruPool (g : Grammar) (var : Sym) : List (List Sym) :=
  let vis := bfsVisited (unitEdges g) (2 * g.vars.length + 2) [var] [var]
  g.vars.foldl
    (fun acc contender =>
      if contender ∈ vis then
        (dGet g.rules contender []).foldl
          (fun acc p =>
            if p.length > 1 ∨ ¬ p.headD "" ∈ g.vars then osetAdd acc p else acc)
          acc
      else acc)
    []

/-- `remove_unit`: the new production set of `v` is the union, over every
variable `c` that `v` reaches along unit edges, of `c`'s non-unit
productions. -/
def removeUnit (g : Grammar) : Grammar :=
  { g with rules := g.vars.map (fun var => (var, ruPool g var)) }

/-! ### `remove_unproductives` -/

/-- The productive set: every terminal and `"&"` seed it; a variable joins
once one of its productions is entirely productive. -/
def productivesOf (g : Grammar) : List Sym :=
  closureLoop g.rules (g.rules.length + 1)
    (osetAdd (g.terminals.foldl osetAdd []) "&")

/-- The productive productions of one variable. -/
def rupKeep (productives : List Sym) (prods : List (List Sym)) : List (List Sym) :=
  prods.foldl
    (fun acc p => if ∀ s ∈ p, s ∈ productives then osetAdd acc p else acc) []

/-- `remove_unproductives`' filtered rule dict. -/
def rupNewRules (g : Grammar) : List (Sym × List (List Sym)) :=
  g.vars.foldl
    (fun nr v => dSet nr v (rupKeep (productivesOf g) (dGet g.rules v []))) []

/-- The variables `remove_unproductives` drops: those left without any
production. -/
def rupToRemove (g : Grammar) : List Sym :=
  g.vars.foldl
    (fun acc v => if (dGet (rupNewRules g) v []).length = 0 then osetAdd acc v else acc)
    []

/-- The rule dict after the empty variables were deleted. -/
def rupRules2 (g : Grammar) : List (Sym × List (List Sym)) :=
  (rupToRemove g).foldl dDel (rupNewRules g)

/-- `remove_unproductives`: keep only productions over productive symbols,
drop variables left without productions; if the start is dropped the
language is empty and the grammar becomes `start -> start` (python adds
`self.start` itself to the production set; as a sequence of symbols that
is the one-symbol production `[start]`). -/
def removeUnproductives (g : Grammar) : Grammar :=
  if ¬ (rupRules2 g).any (fun e => e.1 = g.start) then
    { vars := osetAdd [] g.start
      terminals := g.terminals
      rules := dSet [] g.start (osetAdd [] [g.start])
      start := g.start }
  else
    { g with vars := g.vars.filter (fun v => ¬ v ∈ rupToRemove g)
             rules := rupRules2 g }

/-! ### `remove_unreachables` -/

/-- Reachability edges: `head → symbol` for every variable symbol occurring
anywhere in a body of `head`. -/
def unreachEdges (g : Grammar) : List (Sym × List Sym) :=
  let e0 := g.vars.foldl (fun d v => dSet d v []) []
  g.rules.foldl
    (fun d e =>
      e.2.foldl
        (fun d body =>
          body.foldl
            (fun d s =>
              if s ∈ g.vars then dSet d e.1 (osetAdd (dGet d e.1 []) s) else d)
            d)
        d)
    e0

/-- The variables the start reaches. -/
def urVisited (g : Grammar) : List Sym :=
  bfsVisited (unreachEdges g) (2 * g.vars.length + 2) [g.start] [g.start]

/-- `remove_unreachables`: delete every variable the start does not reach,
together with its productions. -/
def removeUnreachables (g : Grammar) : Grammar :=
  { g with
      vars := g.vars.filter (fun v => v ∈ urVisited g)
      rules := (g.vars.filter (fun v => ¬ v ∈ urVisited g)).foldl dDel g.rules }

/-! ### `replace_terminals` -/

/-- The fresh-isolator name `"❬R{k}❭"`. -/
def rtName (k : Nat) : Sym := "❬R" ++ toString k ++ "❭"

/-- The mutable state of `replace_terminals`: the id counter, `to_add_var`,
`self.rules` (which `create_new_v` extends) and the `new_rules` dict. -/
structure RTSt where
  newVId : Nat
  toAddVar : List Sym
  selfRules : List (Sym × List (List Sym))
  newRules : List (Sym × List (List Sym))
deriving Repr

/-- `var_to_terminal`: a declared or freshly created variable whose sole
production is `(sym,)`, scanning declared variables first. -/
def varToTerminal (g0vars : List Sym) (st : RTSt) (sym : Sym) : Option Sym :=
  match g0vars.find? (fun v => dGet st.selfRules v [] = [[sym]]) with
  | some v => some v
  | none => st.toAddVar.find? (fun v => dGet st.selfRules v [] = [[sym]])

/-- `create_new_v`. -/
def rtCreate (st : RTSt) (sym : Sym) : RTSt × Sym :=
  let id := st.newVId + 1
  let nv := rtName id
  ({ newVId := id
     toAddVar := osetAdd st.toAddVar nv
     selfRules := dSet st.selfRules nv [[sym]]
     newRules := dSet st.newRules nv [[sym]] }, nv)

/-- One production of `replace_terminals`: in a body of length ≥ 2, each
terminal occurrence from position `i` on is replaced by its isolating
variable. -/
def rtProd (g0vars terminals : List Sym) (st : RTSt) (p : List Sym) :
    RTSt × List Sym :=
  if p.length ≥ 2 then
    (List.range p.length).foldl
      (fun sc i =>
        let symbol := sc.2.getD i ""
        if symbol ∈ terminals then
          let r := match varToTerminal g0vars sc.1 symbol with
            | some v => (sc.1, v)
            | none => rtCreate sc.1 symbol
          (r.1, sc.2.mapIdx (fun j c => if j ≥ i ∧ c = symbol then r.2 else c))
        else sc)
      (st, p)
  else (st, p)

/-- The state after `replace_terminals`' main loop. -/
def rtState (g : Grammar) : RTSt :=
  g.vars.foldl
    (fun st v =>
      let r := (dGet st.selfRules v []).foldl
        (fun sa p =>
          let r := rtProd g.vars g.terminals sa.1 p
          (r.1, osetAdd sa.2 r.2))
        (st, ([] : List (List Sym)))
      { r.1 with newRules := dSet r.1.newRules v r.2 })
    ⟨0, [], g.rules, []⟩

/-- `replace_terminals`. -/
def replaceTerminals (g : Grammar) : Grammar :=
  { g with rules := (rtState g).newRules
           vars := (rtState g).toAddVar.foldl osetAdd g.vars }

/-! ### `reduce_size` -/

/-- The fresh chain name `"❬C({v},{k})❭"`. -/
def cName (v k : Nat) : Sym := "❬C(" ++ toString v ++ "," ++ toString k ++ ")❭"

/-- The mutable state of `reduce_size`. -/
structure RSSt where
  newVId : Nat
  toAddVar : List Sym
  newRules : List (Sym × List (List Sym))
deriving Repr

/-- The descending chain loop `for i in range(lp-3, 0, -1)` of
`reduce_size`, starting from the chain variable covering the last two
symbols and returning the chain variable covering position 1. -/
def rsChain (numberV : Nat) (prod : List Sym) (st : RSSt) : RSSt × Sym :=
  let nv0 := cName numberV st.newVId
  let st := { st with
    toAddVar := osetAdd st.toAddVar nv0
    newVId := st.newVId + 1
    newRules := dSet st.newRules nv0
      [[prod.getD (prod.length - 2) "", prod.getD (prod.length - 1) ""]] }
  (List.range' 1 (prod.length - 3)).reverse.foldl
    (fun sn i =>
      let nv := cName numberV sn.1.newVId
      ({ sn.1 with
          toAddVar := osetAdd sn.1.toAddVar nv
          newRules := dSet sn.1.newRules nv [[prod.getD i "", sn.2]]
          newVId := sn.1.newVId + 1 }, nv))
    (st, nv0)

/-- The state after `reduce_size`'s main loop. -/
def rsState (g : Grammar) : RSSt :=
  g.vars.enum.foldl
    (fun (st : RSSt) ve =>
      let st := { st with newVId := 0, newRules := dSet st.newRules ve.2 [] }
      (dGet g.rules ve.2 []).foldl
        (fun st prod =>
          if prod.length > 2 then
            let r := rsChain ve.1 prod st
            let nr := dSet r.1.newRules ve.2
              (osetUpdate (dGet r.1.newRules ve.2 []) [[prod.getD 0 "", r.2]])
            { r.1 with newRules := nr }
          else
            let nr := dSet st.newRules ve.2 (osetAdd (dGet st.newRules ve.2 []) prod)
            { st with newRules := nr })
        st)
    ⟨0, [], []⟩

/-- `reduce_size`: rewrite every production longer than two symbols as a
right-associated chain of fresh binary variables. -/
def reduceSize (g : Grammar) : Grammar :=
  { g with rules := (rsState g).newRules
           vars := (rsState g).toAddVar.foldl osetAdd g.vars }

/-- `convert_to_cnf`: the six-stage pipeline in its fixed order. -/
def convertToCnf (g : Grammar) : Grammar :=
  reduceSize (replaceTerminals (removeUnreachables (removeUnproductives
    (removeUnit (removeEpsilon g)))))

/-! ### Left-recursion detection and removal -/

/-- `has_left_recursion`'s edge map: `v → first symbol of a body` when that
symbol is a variable. -/
def hlrEdges (g : Grammar) : List (Sym × List Sym) :=
  let e0 := g.vars.foldl (fun d v => dSet d v []) []
  g.vars.foldl
    (fun d v =>
      (g.prods v).foldl
        (fun d prod =>
          if prod.headD "" ∈ g.vars then
            dSet d v (osetAdd (dGet d v []) (prod.headD ""))
          else d)
        d)
    e0

/-- `has_left_recursion`'s bfs: explore from `s`, answering true as soon as
an edge leads back to `s`. -/
def hlrBfs (edges : List (Sym × List Sym)) (s : Sym) :
    Nat → List Sym → List Sym → Bool
  | 0, _, _ => false
  | fuel + 1, vis, q =>
    match q with
    | [] => false
    | v :: rest =>
      let r := (dGet edges v []).foldl
        (fun (r : Bool × List Sym × List Sym) u =>
          if r.1 then r
          else if u = s then (true, r.2)
          else if u ∈ r.2.1 then r
          else (false, r.2.1 ++ [u], u :: r.2.2))
        (false, vis, rest)
      if r.1 then true else hlrBfs edges s fuel r.2.1 r.2.2

/-- `has_left_recursion`: some variable has a walk of first-symbol edges
back to itself. -/
def hasLeftRecursion (g : Grammar) : Bool :=
  let edges := hlrEdges g
  g.vars.any (fun v => hlrBfs edges v (2 * g.vars.length + 2) [v] [v])

/-- `has_cycle`: the unit-production edges (same construction as
`remove_unit`'s) admit a walk from some variable to a variable that
produces it back. -/
def hasCycle (g : Grammar) : Bool :=
  let edges := unitEdges g
  g.vars.any (fun var =>
    let vis := bfsVisited edges (2 * g.vars.length + 2) [var] [var]
    g.vars.any (fun contender =>
      contender ∈ vis ∧ (g.prods contender).any (fun p => p = [var])))

/-- The inner substitution step of `remove_left_recursion`: every
production of `vi` beginning with `vj` is replaced by `beta ++ rest` for
each production `beta` of `vj`. -/
def rlrSubstitute (g : Grammar) (vi vj : Sym) : Grammar :=
  let prods := g.prods vi
  let toRemove := prods.foldl
    (fun acc p => if p.headD "" = vj then acc ++ [p] else acc) []
  let additions := prods.foldl
    (fun acc p =>
      if p.headD "" = vj then acc ++ (g.prods vj).map (fun beta => beta ++ p.tail)
      else acc)
    []
  let newProds := (osetUpdate prods additions).filter (fun p => ¬ p ∈ toRemove)
  { g with rules := dSet g.rules vi newProds }

/-- The direct-recursion split of `remove_left_recursion`: when `vi` has a
production beginning with itself, a primed variable `❬vi'❭` is created
(overwriting an existing variable of that name) and the standard
left-to-right recursion rewrite is applied. -/
def rlrDirect (g : Grammar) (vi : Sym) : Grammar :=
  let prods := g.prods vi
  let direct := prods.any (fun p => p.headD "" = vi)
  if direct then
    let nv := "❬" ++ vi ++ "'❭"
    let g1 := { g with vars := osetAdd g.vars nv, rules := dSet g.rules nv [] }
    let r := prods.foldl
      (fun (r : List (List Sym) × List (List Sym)) p =>
        if p.headD "" = vi then (osetAdd r.1 (p.tail ++ [nv]), r.2)
        else (r.1, osetAdd r.2 (p ++ [nv])))
      ([], [])
    { g1 with rules := dSet (dSet g1.rules vi r.2) nv (osetAdd r.1 ["&"]) }
  else g

/-- The loop body of `remove_left_recursion`, over the indices of the
original variable list (`range(len(self.variables))` is evaluated once,
before any primed variable is appended). -/
def rlrCore (g : Grammar) : Grammar :=
  (List.range g.vars.length).foldl
    (fun g i =>
      let g := (List.range i).foldl
        (fun g j => rlrSubstitute g (g.vars.getD i "") (g.vars.getD j "")) g
      rlrDirect g (g.vars.getD i ""))
    g

/-- `remove_left_recursion`, with its two `RuntimeError` preconditions. -/
def removeLeftRecursion (g : Grammar) : Except String Grammar :=
  if hasE g then
    .error "A grammar must be &-free in order to remove left recursions."
  else if hasCycle g then
    .error "A grammar must be cycle-free in order to remove left recursions."
  else .ok (rlrCore g)

/-! ### FIRST, FOLLOW, the LL(1) table and the parsers -/

abbrev SMap := List (Sym × List Sym)

/-- `first_var`: dynamic programming on `self.first`, returning a partial
set for a variable whose computation is in progress.  The inner loop
unions `first(p)` into `first[v]` symbol by symbol and stops (discarding
`"&"`) at the first symbol whose FIRST lacks `"&"`. -/
def firstVar (g : Grammar) : Nat → SMap → Sym → SMap × List Sym
  | 0, fm, v => (fm, dGet fm v [])
  | fuel + 1, fm, v =>
    if (dGet fm v []).length ≠ 0 then (fm, dGet fm v [])
    else
      let fm := (g.prods v).foldl
        (fun fm prod =>
          (prod.foldl
            (fun (fb : SMap × Bool) p =>
              if fb.2 then fb
              else
                let r := firstVar g fuel fb.1 p
                let cur := osetUpdate (dGet r.1 v []) r.2
                if "&" ∈ r.2 then (dSet r.1 v cur, false)
                else (dSet r.1 v (cur.filter (fun s => ¬ s = "&")), true))
            (fm, false)).1)
        fm
      (fm, dGet fm v [])

/-- Recursion depth for `first_var` (enough because, absent left recursion,
re-entry only happens through acyclic first-symbol chains). -/
def firstsFuel (g : Grammar) : Nat := g.vars.length + 2

/-- `firsts`: refuses a left-recursive grammar (python prints a message and
returns `False` with no set computed — embedded as `none`); otherwise
seeds `&` and the terminals and runs `first_var` over every variable. -/
def computeFirsts (g : Grammar) : Option SMap :=
  if hasLeftRecursion g then none
  else
    let fm := dSet [] "&" (osetAdd [] "&")
    let fm := g.terminals.foldl (fun fm t => dSet fm t (osetAdd [] t)) fm
    let fm := g.vars.foldl (fun fm v => dSet fm v []) fm
    some (g.vars.foldl (fun fm v => (firstVar g (firstsFuel g) fm v).1) fm)

/-- `first_body`: FIRST of a symbol sequence. -/
def firstBody (fm : SMap) (body : List Sym) : List Sym :=
  (body.foldl
    (fun (tb : List Sym × Bool) b =>
      if tb.2 then tb
      else
        let toAdd := dGet fm b []
        let total := osetUpdate tb.1 toAdd
        if "&" ∈ toAdd then (total, false)
        else (total.filter (fun s => ¬ s = "&"), true))
    ([], false)).1

/-- One body of one head inside a `follows` pass: positions before the end
receive `FIRST(suffix) - {&}`; then `FOLLOW(head) - {&}` propagates right
to left through the trailing nullable variables.  The state is the follow
map with the pass's `add` flag. -/
def followsBody (g : Grammar) (fm : SMap) (head : Sym) (body : List Sym)
    (st : SMap × Bool) : SMap × Bool :=
  let lb := body.length
  let st := (List.range (lb - 1)).foldl
    (fun (st : SMap × Bool) i =>
      let bi := body.getD i ""
      if bi ∈ g.vars then
        let toAdd := (firstBody fm (body.drop (i + 1))).filter (fun s => ¬ s = "&")
        if ¬ (∀ x ∈ toAdd, x ∈ dGet st.1 bi []) then
          (dSet st.1 bi (osetUpdate (dGet st.1 bi []) toAdd), true)
        else st
      else st)
    st
  let toAdd := (dGet st.1 head []).filter (fun s => ¬ s = "&")
  let fl := dSet st.1 head toAdd
  let r := ((List.range lb).reverse).foldl
    (fun (r : (SMap × Bool) × Bool) i =>
      if r.2 then r
      else
        let bi := body.getD i ""
        if bi ∈ g.vars then
          let cur := dGet r.1.1 bi []
          let r1 := if ¬ (∀ x ∈ toAdd, x ∈ cur) then
              (dSet r.1.1 bi (osetUpdate cur toAdd), true)
            else r.1
          if "&" ∈ dGet fm bi [] then (r1, false) else (r1, true)
        else (r.1, true))
    ((fl, st.2), false)
  r.1

/-- One `while` pass of `follows`. -/
def followsPass (g : Grammar) (fm : SMap) (fl : SMap) : SMap × Bool :=
  g.rules.foldl
    (fun st e => e.2.foldl (fun st body => followsBody g fm e.1 body st) st)
    (fl, false)

/-- The `while add` loop of `follows`, with fuel (`none` = fuel ran out
before the fixed point; the fuel below always suffices because every
non-final pass grows some follow set). -/
def followsLoop (g : Grammar) (fm : SMap) : Nat → SMap → Option SMap
  | 0, _ => none
  | fuel + 1, fl =>
    let r := followsPass g fm fl
    if r.2 then followsLoop g fm fuel r.1 else some r.1

def followsFuel (g : Grammar) : Nat :=
  g.vars.length * (g.terminals.length + 2) + 2

/-- `follows`: seed `FOLLOW(start) = {$}` and iterate to the fixed point. -/
def computeFollows (g : Grammar) (fm : SMap) : Option SMap :=
  let fl := g.vars.foldl (fun fl v => dSet fl v []) []
  let fl := dSet fl g.start (osetAdd (dGet fl g.start []) "$")
  followsLoop g fm (followsFuel g) fl

/-- The result of `make_table`: the production ids, the table, and whether
a conflict message was printed (the python code prints NOT LEFT-FACTORED
and then overwrites the occupied cell). -/
structure TableRes where
  prodToId : List ((Sym × List Sym) × Int)
  idToProd : List (Int × (Sym × List Sym))
  table : List ((Sym × Sym) × Int)
  conflict : Bool
deriving DecidableEq, Repr

/-- `make_table`: number the productions, initialise every
`(variable, terminal-or-$)` cell to `-1`, then write each production
under its FIRST symbols, and under FOLLOW of its head when `&` is in its
FIRST.  A write to a cell holding other than `-1` sets the conflict flag
and overwrites. -/
def makeTable (g : Grammar) (fm fl : SMap) : TableRes :=
  let pids := g.rules.foldl
    (fun (st : Int × List ((Sym × List Sym) × Int) × List (Int × (Sym × List Sym))) e =>
      e.2.foldl
        (fun st body =>
          let id := st.1 + 1
          (id, dSet st.2.1 (e.1, body) id, dSet st.2.2 id (e.1, body)))
        st)
    (0, [], [])
  let t0 := g.vars.foldl
    (fun t v => g.terminals.foldl (fun t tm => dSet t (v, tm) (-1)) t) []
  let t0 := g.vars.foldl (fun t v => dSet t (v, "$") (-1)) t0
  let tc := g.vars.foldl
    (fun tc v =>
      (g.prods v).foldl
        (fun (tc : List ((Sym × Sym) × Int) × Bool) alpha =>
          let first := firstBody fm alpha
          let tc := first.foldl
            (fun (tc : List ((Sym × Sym) × Int) × Bool) f =>
              if ¬ f = "&" then
                let confl := tc.2 ∨ ¬ dGet tc.1 (v, f) (-1) = -1
                (dSet tc.1 (v, f) (dGet pids.2.1 (v, alpha) 0), confl)
              else tc)
            tc
          if "&" ∈ first then
            (dGet fl v []).foldl
              (fun (tc : List ((Sym × Sym) × Int) × Bool) f =>
                let confl := tc.2 ∨ ¬ dGet tc.1 (v, f) (-1) = -1
                (dSet tc.1 (v, f) (dGet pids.2.1 (v, alpha) 0), confl))
              tc
          else tc)
        tc)
    (t0, false)
  ⟨pids.2.1, pids.2.2, tc.1, tc.2⟩

/-- The `word` loop: the stack is kept top-first, the input is the
remaining symbols of `w + "$"`.  Fuel exhaustion is `none` (the loop is
`while True` and need not terminate). -/
def wordRun (g : Grammar) (table : List ((Sym × Sym) × Int))
    (idToProd : List (Int × (Sym × List Sym))) :
    Nat → List Sym → List Sym → Option Bool
  | 0, _, _ => none
  | fuel + 1, stack, input =>
    match stack, input with
    | top :: stail, c :: rest =>
      if top ∈ g.terminals ∨ top = "$" then
        if top = c then
          if c = "$" then some true
          else wordRun g table idToProd fuel stail rest
        else some false
      else
        let id := dGet table (top, c) (-1)
        if ¬ id = -1 then
          let vp := dGet idToProd id ("", [])
          if vp.2 = ["&"] then wordRun g table idToProd fuel stail (c :: rest)
          else wordRun g table idToProd fuel (vp.2 ++ stail) (c :: rest)
        else some false
    | _, _ => none

/-- A python string as a list of one-character symbols. -/
def symsOf (w : String) : List Sym := w.toList.map (fun c => String.mk [c])

/-- `word(w)`: run the table-driven parse from stack `["$", start]` on
`w + "$"`. -/
def word (g : Grammar) (table : List ((Sym × Sym) × Int))
    (idToProd : List (Int × (Sym × List Sym))) (w : String) (fuel : Nat) :
    Option Bool :=
  wordRun g table idToProd fuel [g.start, "$"] (symsOf w ++ ["$"])

/-- Outcome of `PredictiveParser.parse`: accept, reject, or a python
failure that is neither (`AssertionError`, `IndexError`, or the loop
falling through to an implicit `None`). -/
inductive PRes where
  | acc
  | rej
  | err
deriving DecidableEq, Repr

/-- `PredictiveParser.variables`: the first components of the table's keys,
deduplicated in insertion order. -/
def parseVars (table : List ((Sym × Sym) × List Sym)) : List Sym :=
  table.foldl (fun acc e => osetAdd acc e.1.1) []

/-- The `parse` loop of `PredictiveParser` (stack top-first; the input is
what remains of `string + "$"`). -/
def parseRun (table : List ((Sym × Sym) × List Sym)) :
    Nat → List Sym → List Sym → Option PRes
  | 0, _, _ => none
  | fuel + 1, stack, input =>
    match input with
    | [] => some .err
    | s :: rest =>
      match stack with
      | [] => some .err
      | top :: stail =>
        if top = s then
          if s = "$" then (if stail.isEmpty then some .acc else some .err)
          else parseRun table fuel stail rest
        else
          match table.find? (fun e => e.1 = (top, s)) with
          | none => some .rej
          | some e =>
            if e.2 = ["&"] then parseRun table fuel stail (s :: rest)
            else parseRun table fuel (e.2 ++ stail) (s :: rest)

/-- `parse(string)`: stack `["$", table's first variable]`, input
`string + "$"`. -/
def parse (table : List ((Sym × Sym) × List Sym)) (w : List Sym) (fuel : Nat) :
    Option PRes :=
  parseRun table fuel [(parseVars table).headD "", "$"] (w ++ ["$"])

/-- The weight, under a ranking function `rank`, of the part of a stack the
parser can reach without consuming input: the symbols of the longest prefix
lying in the nullable set `N` all count, and the first symbol behind that
prefix counts once when it is a table variable (`V`).  This is the
termination measure of an expansion step of `parse` (the input being
fixed). -/
def nweight (rank : Sym → Nat) (N V : List Sym) : List Sym → Nat
  | [] => 0
  | x :: xs =>
    if x ∈ N then rank x + nweight rank N V xs
    else if x ∈ V then rank x else 0

/-! ### Concrete grammars used by the claims -/

/-- Scenario D: `S -> aA | b; A -> aA | &`. -/
def gD : Grammar :=
  ⟨["S", "A"], ["a", "b"],
    [("S", [["a", "A"], ["b"]]), ("A", [["a", "A"], ["&"]])], "S"⟩

/-- A grammar that is not LL(1): `S -> aB | aC; B -> b; C -> c` (both
productions of `S` have FIRST `{a}`). -/
def gC : Grammar :=
  ⟨["S", "B", "C"], ["a", "b", "c"],
    [("S", [["a", "B"], ["a", "C"]]), ("B", [["b"]]), ("C", [["c"]])], "S"⟩

/-- Scenario C: `S -> AbA; A -> a | &`. -/
def gScenC : Grammar :=
  ⟨["S", "A"], ["a", "b"], [("S", [["A", "b", "A"]]), ("A", [["a"], ["&"]])], "S"⟩

/-- A left-recursive grammar: `S -> Sa | b`. -/
def gLR : Grammar := ⟨["S"], ["a", "b"], [("S", [["S", "a"], ["b"]])], "S"⟩

/-- An epsilon-free, cycle-free grammar that already declares the variable
`❬X'❭` which `remove_left_recursion` will mint for `X`:
`❬X'❭ -> c; X -> X❬X'❭a | b`. -/
def gClash : Grammar :=
  ⟨["❬X'❭", "X"], ["c", "a", "b"],
    [("❬X'❭", [["c"]]), ("X", [["X", "❬X'❭", "a"], ["b"]])], "❬X'❭"⟩

/-- A grammar whose start derives nothing: `S -> aS` (empty language). -/
def gVoid : Grammar := ⟨["S"], ["a"], [("S", [["a", "S"]])], "S"⟩

/-- A grammar with a nullable start: `S -> a | &`. -/
def gNulS : Grammar := ⟨["S"], ["a"], [("S", [["a"], ["&"]])], "S"⟩

/-- `A -> BA; B -> &`: passes `has_left_recursion` and builds a
conflict-free table, yet `A` derives itself leftmost through the nullable
`B`. -/
def gBA : Grammar := ⟨["A", "B"], [], [("A", [["B", "A"]]), ("B", [["&"]])], "A"⟩

/-- The table `make_table` builds for `gBA`, in `PredictiveParser` form. -/
def tBA : List ((Sym × Sym) × List Sym) :=
  [(("A", "$"), ["B", "A"]), (("B", "$"), ["&"])]

/-- The LL(1) table of `S -> AS | b; A -> a`: a terminating parser whose
`(S, a)` cell pushes `A S`, so no measure over an all-variable stack prefix
can certify it — the non-nullable `A` always consumes input first. -/
def tAS : List ((Sym × Sym) × List Sym) :=
  [(("S", "a"), ["A", "S"]), (("S", "b"), ["b"]), (("A", "a"), ["a"])]

/-- A ranking for `tAS`: `S` above `A`. -/
def rkAS : Sym → Nat := fun s => if s = "S" then 2 else 1

/-- The parse on this table never returns: the claim's "terminates for
every finite input" fails at `w`. -/
def neverHalts (table : List ((Sym × Sym) × List Sym)) (w : List Sym) : Prop :=
  ∀ fuel, parse table w fuel = none

/-- The CNF shape the spec claims of `convert_to_cnf`'s output: length 1
with a terminal, or length 2 with two variables, or the start's epsilon
production. -/
def cnfShaped (g : Grammar) : Prop :=
  ∀ v ∈ g.vars, ∀ p ∈ g.prods v,
    (p.length = 1 ∧ p.headD "" ∈ g.terminals) ∨
    (p.length = 2 ∧ ∀ s ∈ p, s ∈ g.vars) ∨
    (v = g.start ∧ p = ["&"])

instance (g : Grammar) : Decidable (cnfShaped g) := by
  unfold cnfShaped; infer_instance

/-- The structural invariants `CHECK_GRAMMAR` enforces and the data model
assumes: the rule dict is keyed exactly by the (duplicate-free) variable
list, the start is declared, the markers `&`, `ε` and `$` are no grammar
symbols, and every production is the epsilon production or a non-empty
sequence of declared symbols. -/
def wfG (g : Grammar) : Prop :=
  dKeys g.rules = g.vars
  ∧ g.vars.Nodup
  ∧ g.start ∈ g.vars
  ∧ ¬ "&" ∈ g.vars ∧ ¬ "&" ∈ g.terminals
  ∧ ¬ "ε" ∈ g.vars ∧ ¬ "ε" ∈ g.terminals
  ∧ ¬ "$" ∈ g.vars ∧ ¬ "$" ∈ g.terminals
  ∧ ∀ e ∈ g.rules, ∀ p ∈ e.2,
      p = ["&"] ∨ (¬ p = [] ∧ ∀ s ∈ p, s ∈ g.vars ∨ s ∈ g.terminals)

instance (g : Grammar) : Decidable (wfG g) := by
  unfold wfG; infer_instance

/-! ### Basic lemmas: ordered sets and dictionaries -/

section Helpers

variable {α : Type} [DecidableEq α] {κ β : Type} [DecidableEq κ]

theorem mem_osetAdd_iff {l : List α} {x a : α} :
    a ∈ osetAdd l x ↔ a ∈ l ∨ a = x := by
  unfold osetAdd; split
  · constructor
    · exact Or.inl
    · rintro (h | rfl) <;> assumption
  · simp

theorem subset_osetAdd (l : List α) (x : α) : l ⊆ osetAdd l x := by
  intro a ha; exact mem_osetAdd_iff.2 (Or.inl ha)

theorem mem_osetUpdate_iff {l xs : List α} {a : α} :
    a ∈ osetUpdate l xs ↔ a ∈ l ∨ a ∈ xs := by
  unfold osetUpdate
  induction xs generalizing l with
  | nil => simp
  | cons x xs ih =>
    simp only [List.foldl_cons, ih, mem_osetAdd_iff, List.mem_cons]
    tauto

theorem subset_osetUpdate (l xs : List α) : l ⊆ osetUpdate l xs := by
  intro a ha; exact mem_osetUpdate_iff.2 (Or.inl ha)

theorem osetAdd_of_mem {l : List α} {x : α} (h : x ∈ l) : osetAdd l x = l := by
  unfold osetAdd; simp [h]

theorem osetUpdate_of_subset {l xs : List α} (h : ∀ x ∈ xs, x ∈ l) :
    osetUpdate l xs = l := by
  unfold osetUpdate
  induction xs generalizing l with
  | nil => rfl
  | cons x xs ih =>
    simp only [List.foldl_cons]
    rw [osetAdd_of_mem (h x (by simp))]
    exact ih fun y hy => h y (by simp [hy])

theorem mem_dDel {d : List (κ × β)} {k : κ} {e : κ × β} :
    e ∈ dDel d k ↔ e ∈ d ∧ ¬ e.1 = k := by
  unfold dDel; simp

theorem mem_foldl_dDel {ks : List κ} {d : List (κ × β)} {e : κ × β} :
    e ∈ ks.foldl dDel d ↔ e ∈ d ∧ ¬ e.1 ∈ ks := by
  induction ks generalizing d with
  | nil => simp
  | cons k ks ih =>
    simp only [List.foldl_cons, ih, mem_dDel, List.mem_cons]
    tauto

theorem dGet_dSet_self {d : List (κ × β)} {k : κ} {v : β} {dflt : β} :
    dGet (dSet d k v) k dflt = v := by
  unfold dSet
  by_cases h : d.any (fun e => e.1 = k) = true
  · rw [if_pos h]
    induction d with
    | nil => simp at h
    | cons e d ih =>
      by_cases he : e.1 = k
      · unfold dGet
        rw [List.map_cons, if_pos he, List.find?_cons_of_pos _ (by simp)]
      · simp only [List.any_cons, Bool.or_eq_true, decide_eq_true_eq] at h
        unfold dGet
        rw [List.map_cons, if_neg he,
          List.find?_cons_of_neg _ (by simpa using he)]
        exact ih (h.resolve_left he)
  · rw [if_neg h]
    unfold dGet
    rw [List.find?_append]
    have hnone : List.find? (fun e => decide (e.1 = k)) d = none := by
      rw [List.find?_eq_none]
      intro x hx
      simp only [decide_eq_true_eq]
      intro hk
      exact h (List.any_eq_true.2 ⟨x, hx, by simpa using hk⟩)
    rw [hnone]
    simp [List.find?]

theorem find?_map_overwrite {d : List (κ × β)} {k k' : κ} {v : β}
    (h : ¬ k' = k) :
    List.find? (fun e => decide (e.1 = k'))
        (d.map (fun e => if e.1 = k then (k, v) else e))
      = List.find? (fun e => decide (e.1 = k')) d := by
  induction d with
  | nil => rfl
  | cons e d ih =>
    by_cases hek : e.1 = k
    · have h1 : ¬ ((k, v).1 = k') := fun hh => h hh.symm
      have h2 : ¬ (e.1 = k') := by rw [hek]; exact fun hh => h hh.symm
      rw [List.map_cons, if_pos hek,
        List.find?_cons_of_neg _ (by simpa using h1),
        List.find?_cons_of_neg _ (by simpa using h2)]
      exact ih
    · by_cases he : e.1 = k'
      · rw [List.map_cons, if_neg hek, List.find?_cons_of_pos _ (by simpa using he),
          List.find?_cons_of_pos _ (by simpa using he)]
      · rw [List.map_cons, if_neg hek, List.find?_cons_of_neg _ (by simpa using he),
          List.find?_cons_of_neg _ (by simpa using he)]
        exact ih

theorem dGet_dSet_ne {d : List (κ × β)} {k k' : κ} {v : β} {dflt : β}
    (h : ¬ k' = k) : dGet (dSet d k v) k' dflt = dGet d k' dflt := by
  unfold dSet
  split
  · unfold dGet
    rw [find?_map_overwrite h]
  · unfold dGet
    rw [List.find?_append]
    have hlast : List.find? (fun e => decide (e.1 = k')) [(k, v)] = none := by
      refine List.find?_eq_none.2 ?_
      intro x hx
      simp only [List.mem_singleton] at hx
      subst hx
      simp only [decide_eq_true_eq]
      exact fun hh => h hh.symm
    rw [hlast]
    cases List.find? (fun e => decide (e.1 = k')) d <;> rfl

/-- After folding `dSet v (F v)` over a list, the value at any processed
key is `F` of it (every occurrence writes the same value). -/
theorem dGet_foldl_dSet {l : List κ} {init : List (κ × β)} (F : κ → β)
    {k : κ} {dflt : β}
    (h : dGet init k dflt = F k ∨ k ∈ l) :
    dGet (l.foldl (fun d v => dSet d v (F v)) init) k dflt = F k := by
  induction l generalizing init with
  | nil => simpa using h.resolve_right (by simp)
  | cons x l ih =>
    simp only [List.foldl_cons]
    by_cases hx : k = x
    · subst hx
      by_cases hk : k ∈ l
      · exact ih (Or.inr hk)
      · exact ih (Or.inl dGet_dSet_self)
    · refine ih ?_
      rcases h with h | h
      · exact Or.inl (by rw [dGet_dSet_ne hx]; exact h)
      · rcases List.mem_cons.1 h with h | h
        · exact absurd h hx
        · exact Or.inr h

/-- Membership in a conditional `osetAdd` fold. -/
theorem mem_foldl_osetAdd_cond {C : α → Prop} [DecidablePred C]
    {l : List α} {init : List α}
    {a : α} (ha : a ∈ init ∨ (a ∈ l ∧ C a)) :
    a ∈ l.foldl (fun acc v => if C v then osetAdd acc v else acc) init := by
  induction l generalizing init with
  | nil => simpa using ha.resolve_right (by simp)
  | cons x l ih =>
    simp only [List.foldl_cons]
    rcases ha with ha | ⟨hmem, hC⟩
    · refine ih (Or.inl ?_)
      split
      · exact subset_osetAdd _ _ ha
      · exact ha
    · rcases List.mem_cons.1 hmem with rfl | hmem
      · refine ih (Or.inl ?_)
        rw [if_pos hC]
        exact mem_osetAdd_iff.2 (Or.inr rfl)
      · exact ih (Or.inr ⟨hmem, hC⟩)

/-- A conditional `osetAdd` fold whose condition always fails is the
identity. -/
theorem foldl_cond_add_id {C : α → Prop} [DecidablePred C]
    {l : List α} {init : List α} (h : ∀ x ∈ l, ¬ C x) :
    l.foldl (fun acc x => if C x then osetAdd acc x else acc) init = init := by
  induction l generalizing init with
  | nil => rfl
  | cons x l ih =>
    simp only [List.foldl_cons, if_neg (h x (by simp))]
    exact ih fun y hy => h y (by simp [hy])

omit [DecidableEq α] in
/-- A fold whose every step fixes the accumulator is the identity. -/
theorem foldl_id {γ : Type} {f : List α → γ → List α} {l : List γ}
    {init : List α} (h : ∀ x ∈ l, f init x = init) :
    l.foldl f init = init := by
  induction l with
  | nil => rfl
  | cons x l ih =>
    simp only [List.foldl_cons, h x (by simp)]
    exact ih fun y hy => h y (by simp [hy])

theorem any_key_iff {d : List (κ × β)} {k : κ} :
    (d.any fun e => e.1 = k) = true ↔ k ∈ dKeys d := by
  rw [List.any_eq_true]
  unfold dKeys
  constructor
  · rintro ⟨e, he, hp⟩
    simp only [decide_eq_true_eq] at hp
    exact List.mem_map.2 ⟨e, he, hp⟩
  · intro hk
    rcases List.mem_map.1 hk with ⟨e, he, hp⟩
    exact ⟨e, he, by simpa using hp⟩

/-- Membership in a `dSet`: an untouched entry of another key, or the
written pair. -/
theorem mem_dSet {d : List (κ × β)} {k : κ} {v : β} {e : κ × β}
    (h : e ∈ dSet d k v) :
    (e ∈ d ∧ ¬ e.1 = k) ∨ e = (k, v) := by
  unfold dSet at h
  split at h
  case isTrue hany =>
    rcases List.mem_map.1 h with ⟨e0, he0, heq⟩
    by_cases h0 : e0.1 = k
    · right
      rw [if_pos h0] at heq
      exact heq.symm
    · left
      rw [if_neg h0] at heq
      subst heq
      exact ⟨he0, h0⟩
  case isFalse hany =>
    rcases List.mem_append.1 h with h | h
    · left
      refine ⟨h, fun hk => ?_⟩
      exact hany (List.any_eq_true.2 ⟨e, h, by simpa using hk⟩)
    · right
      simpa using h

theorem dKeys_dSet_of_mem {d : List (κ × β)} {k : κ} (h : k ∈ dKeys d) (v : β) :
    dKeys (dSet d k v) = dKeys d := by
  unfold dSet
  rw [if_pos (any_key_iff.2 h)]
  unfold dKeys
  rw [List.map_map]
  refine List.map_congr_left ?_
  intro e _
  by_cases he : e.1 = k
  · simp [he]
  · simp [he]

/-- Overwriting a present key with the value it already holds (first
occurrence) is the identity when the keys are duplicate-free. -/
theorem map_overwrite_id {d : List (κ × β)} (hnd : (dKeys d).Nodup) {k : κ}
    {v dflt : β} (hv : dGet d k dflt = v) (hk : k ∈ dKeys d) :
    d.map (fun e => if e.1 = k then (k, v) else e) = d := by
  induction d with
  | nil => simp [dKeys] at hk
  | cons e d ih =>
    have hnd2 : (e.1 :: dKeys d).Nodup := hnd
    have hnd' : (dKeys d).Nodup ∧ ¬ e.1 ∈ dKeys d := by
      have := List.nodup_cons.1 hnd2
      exact ⟨this.2, this.1⟩
    by_cases he : e.1 = k
    · have hval : e.2 = v := by
        rw [← hv]
        unfold dGet
        rw [List.find?_cons_of_pos _ (by simpa using he)]
      have hknotin : ¬ k ∈ dKeys d := he ▸ hnd'.2
      simp only [List.map_cons, if_pos he]
      have hhead : (k, v) = e := by
        rw [← he, ← hval]
      rw [hhead]
      congr 1
      refine List.map_congr_left ?_ |>.trans (List.map_id d)
      intro e0 he0
      have : ¬ e0.1 = k := fun hh => hknotin (hh ▸ List.mem_map.2 ⟨e0, he0, rfl⟩)
      simp [this]
    · have hget : dGet d k dflt = v := by
        rw [← hv]
        unfold dGet
        rw [List.find?_cons_of_neg _ (by simpa using he)]
      have hk2 : k ∈ e.1 :: dKeys d := hk
      have hk' : k ∈ dKeys d := by
        rcases List.mem_cons.1 hk2 with h | h
        · exact absurd h.symm he
        · exact h
      simp only [List.map_cons, if_neg he]
      rw [ih hnd'.1 hget hk']

/-- `dSet` with the value already held at a present key changes nothing. -/
theorem dSet_val_id {d : List (κ × β)} (hnd : (dKeys d).Nodup) {k : κ}
    {dflt : β} (hk : k ∈ dKeys d) :
    dSet d k (dGet d k dflt) = d := by
  unfold dSet
  rw [if_pos (any_key_iff.2 hk)]
  exact map_overwrite_id hnd rfl hk

/-- Reading an unprocessed key through a fold of keyed `dSet`s. -/
theorem dGet_foldl_dSetT_not_mem {l : List κ} {init : List (κ × β)}
    (T : κ → β → β) {dflt : β} {k : κ} (hk : ¬ k ∈ l) :
    dGet (l.foldl (fun rs v => dSet rs v (T v (dGet rs v dflt))) init) k dflt
      = dGet init k dflt := by
  induction l generalizing init with
  | nil => rfl
  | cons x l ih =>
    simp only [List.foldl_cons]
    rw [ih (fun h => hk (by simp [h]))]
    exact dGet_dSet_ne (fun h => hk (by simp [h]))

/-- An entry of a fold of keyed `dSet`s over duplicate-free keys: either a
processed key carrying the transformed original value, or an original
entry of an unprocessed key. -/
theorem mem_foldl_dSetT_entry {l : List κ} (hnd : l.Nodup) (T : κ → β → β)
    {dflt : β} {init : List (κ × β)} {e : κ × β}
    (he : e ∈ l.foldl (fun rs v => dSet rs v (T v (dGet rs v dflt))) init) :
    (e.1 ∈ l ∧ e.2 = T e.1 (dGet init e.1 dflt)) ∨ (e ∈ init ∧ ¬ e.1 ∈ l) := by
  induction l generalizing init with
  | nil => exact Or.inr ⟨he, by simp⟩
  | cons x l ih =>
    have hnd' := List.nodup_cons.1 hnd
    simp only [List.foldl_cons] at he
    rcases ih hnd'.2 he with ⟨hmem, hval⟩ | ⟨hmem, hni⟩
    · left
      have hne : ¬ e.1 = x := fun h => hnd'.1 (h ▸ hmem)
      rw [dGet_dSet_ne hne] at hval
      exact ⟨List.mem_cons_of_mem _ hmem, hval⟩
    · rcases mem_dSet hmem with ⟨hin, hne⟩ | heq
      · right
        refine ⟨hin, fun h => ?_⟩
        rcases List.mem_cons.1 h with h | h
        · exact hne h
        · exact hni h
      · left
        rw [heq]
        exact ⟨by simp, rfl⟩

/-- Keys are unchanged by a fold of `dSet`s at already-present keys. -/
theorem dKeys_foldl_dSetT {l : List κ} {init : List (κ × β)} (T : κ → β → β)
    {dflt : β} (h : ∀ v ∈ l, v ∈ dKeys init) :
    dKeys (l.foldl (fun rs v => dSet rs v (T v (dGet rs v dflt))) init)
      = dKeys init := by
  induction l generalizing init with
  | nil => rfl
  | cons x l ih =>
    simp only [List.foldl_cons]
    have hkeys := dKeys_dSet_of_mem (h x (by simp)) (T x (dGet init x dflt))
    rw [ih ?_, hkeys]
    intro v hv
    rw [hkeys]
    exact h v (by simp [hv])

/-- Reading a dictionary: the default, or the value of a held entry. -/
theorem dGet_cases (d : List (κ × β)) (k : κ) (dflt : β) :
    dGet d k dflt = dflt ∨ ∃ e ∈ d, e.1 = k ∧ dGet d k dflt = e.2 := by
  unfold dGet
  cases hfind : List.find? (fun e => decide (e.1 = k)) d with
  | none => exact Or.inl rfl
  | some e =>
    refine Or.inr ⟨e, List.mem_of_find?_eq_some hfind, ?_, rfl⟩
    simpa using List.find?_some hfind

/-- The converse of `mem_foldl_osetAdd_cond`. -/
theorem mem_foldl_osetAdd_cond_inv {C : α → Prop} [DecidablePred C]
    {l : List α} {init : List α} {a : α}
    (ha : a ∈ l.foldl (fun acc v => if C v then osetAdd acc v else acc) init) :
    a ∈ init ∨ (a ∈ l ∧ C a) := by
  induction l generalizing init with
  | nil => exact Or.inl ha
  | cons x l ih =>
    simp only [List.foldl_cons] at ha
    rcases ih ha with h | ⟨hm, hC⟩
    · split at h
      case isTrue hc =>
        rcases mem_osetAdd_iff.1 h with h | rfl
        · exact Or.inl h
        · exact Or.inr ⟨by simp, hc⟩
      case isFalse hc => exact Or.inl h
    · exact Or.inr ⟨by simp [hm], hC⟩

/-- Membership in a fold of `osetUpdate`s. -/
theorem mem_foldl_osetUpdate {γ : Type} {l : List γ} (F : γ → List α)
    {init : List α} {a : α} :
    a ∈ l.foldl (fun acc p => osetUpdate acc (F p)) init
      ↔ a ∈ init ∨ ∃ p ∈ l, a ∈ F p := by
  induction l generalizing init with
  | nil => simp
  | cons x l ih =>
    simp only [List.foldl_cons, ih, mem_osetUpdate_iff, List.mem_cons]
    constructor
    · rintro ((h | h) | ⟨p, hp, hm⟩)
      · exact Or.inl h
      · exact Or.inr ⟨x, Or.inl rfl, h⟩
      · exact Or.inr ⟨p, Or.inr hp, hm⟩
    · rintro (h | ⟨p, hp | hp, hm⟩)
      · exact Or.inl (Or.inl h)
      · exact Or.inl (Or.inr (hp ▸ hm))
      · exact Or.inr ⟨p, hp, hm⟩

end Helpers

/-! ### The fixed-point loop: saturation and closure -/

section Closure

/-- Filter-length monotonicity under pointwise implication on the list. -/
theorem filter_length_mono {κ : Type} {l : List κ} {p q : κ → Bool}
    (himp : ∀ x ∈ l, p x = true → q x = true) :
    (l.filter p).length ≤ (l.filter q).length := by
  induction l with
  | nil => simp
  | cons x l ih =>
    have himp' : ∀ y ∈ l, p y = true → q y = true :=
      fun y hy => himp y (by simp [hy])
    have hrec := ih himp'
    by_cases hpx : p x = true
    · have hqx := himp x (by simp) hpx
      simp [List.filter_cons, hpx, hqx]
      omega
    · simp only [Bool.not_eq_true] at hpx
      simp [List.filter_cons, hpx]
      split
      · simp; omega
      · exact hrec

/-- A strict-filter counting lemma: if `p` implies `q` on `l` and some
element of `l` satisfies `q` but not `p`, the `p`-filter is shorter. -/
theorem filter_length_lt {κ : Type} {l : List κ} {p q : κ → Bool}
    (himp : ∀ x ∈ l, p x = true → q x = true) {a : κ} (hal : a ∈ l)
    (hq : q a = true) (hp : p a = false) :
    (l.filter p).length < (l.filter q).length := by
  induction l with
  | nil => simp at hal
  | cons x l ih =>
    have himp' : ∀ y ∈ l, p y = true → q y = true :=
      fun y hy => himp y (by simp [hy])
    rcases List.mem_cons.1 hal with rfl | hal
    · have hle := filter_length_mono himp'
      simp [List.filter_cons, hp, hq]
      omega
    · have hrec := ih himp' hal
      by_cases hpx : p x = true
      · have hqx := himp x (by simp) hpx
        simp [List.filter_cons, hpx, hqx]
        omega
      · simp only [Bool.not_eq_true] at hpx
        simp [List.filter_cons, hpx]
        split
        · simp; omega
        · exact hrec

/-- One pass of the fixed-point loop appends exactly some keys that were
missing from the set. -/
theorem closureStep_eq_append (rules : List (Sym × List (List Sym))) (s : List Sym) :
    ∃ t, closureStep rules s = s ++ t ∧ ∀ a ∈ t, a ∈ dKeys rules ∧ ¬ a ∈ s := by
  have inner : ∀ (prods : List (List Sym)) (k : Sym) (s0 : List Sym),
      ∃ t, prods.foldl
          (fun s prod => if (∀ p ∈ prod, p ∈ s) ∧ k ∉ s then s ++ [k] else s) s0
        = s0 ++ t ∧ ∀ a ∈ t, a = k ∧ ¬ a ∈ s0 := by
    intro prods k
    induction prods with
    | nil => intro s0; exact ⟨[], by simp⟩
    | cons p prods ih =>
      intro s0
      simp only [List.foldl_cons]
      split
      case isTrue h =>
        rcases ih (s0 ++ [k]) with ⟨t, ht, hmem⟩
        refine ⟨[k] ++ t, by simpa using ht, ?_⟩
        intro a ha
        rcases List.mem_append.1 ha with ha | ha
        · simp only [List.mem_singleton] at ha
          exact ⟨ha, by rw [ha]; exact h.2⟩
        · have := hmem a ha
          exact ⟨this.1, fun hs => this.2 (List.mem_append.2 (Or.inl hs))⟩
      case isFalse h =>
        exact ih s0
  unfold closureStep
  induction rules generalizing s with
  | nil => exact ⟨[], by simp⟩
  | cons e rules ih =>
    simp only [List.foldl_cons]
    rcases inner e.2 e.1 s with ⟨t1, ht1, hm1⟩
    rw [ht1]
    rcases ih (s ++ t1) with ⟨t2, ht2, hm2⟩
    refine ⟨t1 ++ t2, by rw [ht2, List.append_assoc], ?_⟩
    intro a ha
    rcases List.mem_append.1 ha with ha | ha
    · have := hm1 a ha
      exact ⟨by simp [dKeys, this.1], this.2⟩
    · have := hm2 a ha
      refine ⟨?_, fun hs => this.2 (List.mem_append.2 (Or.inl hs))⟩
      have := this.1
      simp only [dKeys, List.map_cons, List.mem_cons]
      exact Or.inr (by simpa [dKeys] using this)

theorem closureStep_subset (rules : List (Sym × List (List Sym))) (s : List Sym) :
    s ⊆ closureStep rules s := by
  rcases closureStep_eq_append rules s with ⟨t, ht, _⟩
  rw [ht]; exact fun a ha => List.mem_append.2 (Or.inl ha)

/-- A pass that changed the set strictly shrinks the missing keys. -/
theorem closureStep_missing_lt (rules : List (Sym × List (List Sym))) (s : List Sym)
    (h : ¬ (closureStep rules s).length = s.length) :
    ((dKeys rules).filter (fun k => ¬ k ∈ closureStep rules s)).length <
      ((dKeys rules).filter (fun k => ¬ k ∈ s)).length := by
  rcases closureStep_eq_append rules s with ⟨t, ht, hmem⟩
  rcases t with _ | ⟨a, t⟩
  · rw [ht] at h; simp at h
  · have ha : a ∈ dKeys rules ∧ ¬ a ∈ s := hmem a (by simp)
    refine filter_length_lt ?_ ha.1 (by simpa using ha.2) ?_
    · intro x _ hx
      simp only [decide_eq_true_eq] at hx ⊢
      intro hxs
      exact hx (closureStep_subset rules s hxs)
    · simp only [decide_eq_false_iff_not, Decidable.not_not]
      rw [ht]
      exact List.mem_append.2 (Or.inr (by simp))

/-- The loop's result, with enough fuel, is a fixed point of the pass. -/
theorem closureLoop_fixed (rules : List (Sym × List (List Sym))) :
    ∀ (fuel : Nat) (s : List Sym),
      ((dKeys rules).filter (fun k => ¬ k ∈ s)).length < fuel →
      closureStep rules (closureLoop rules fuel s) = closureLoop rules fuel s := by
  intro fuel
  induction fuel with
  | zero => intro s h; omega
  | succ fuel ih =>
    intro s h
    have hunf : closureLoop rules (fuel + 1) s =
        if (closureStep rules s).length = s.length then closureStep rules s
        else closureLoop rules fuel (closureStep rules s) := rfl
    rw [hunf]
    split
    case isTrue heq =>
      rcases closureStep_eq_append rules s with ⟨t, ht, _⟩
      have hnil : t = [] := by
        rw [ht] at heq
        simp only [List.length_append] at heq
        have : t.length = 0 := by omega
        exact List.length_eq_zero.1 this
      rw [hnil, List.append_nil] at ht
      rw [ht, ht]
    case isFalse hne =>
      exact ih (closureStep rules s) (by
        have := closureStep_missing_lt rules s hne
        omega)

theorem closureLoop_subset (rules : List (Sym × List (List Sym))) :
    ∀ (fuel : Nat) (s : List Sym), s ⊆ closureLoop rules fuel s := by
  intro fuel
  induction fuel with
  | zero => intro s; exact fun a ha => ha
  | succ fuel ih =>
    intro s
    have hunf : closureLoop rules (fuel + 1) s =
        if (closureStep rules s).length = s.length then closureStep rules s
        else closureLoop rules fuel (closureStep rules s) := rfl
    rw [hunf]
    split
    · exact closureStep_subset rules s
    · exact fun a ha => ih (closureStep rules s) (closureStep_subset rules s ha)

/-- If a whole production already sits inside the set, the pass adds its
head. -/
theorem closureStep_mem_of (rules : List (Sym × List (List Sym))) (s : List Sym)
    {e : Sym × List (List Sym)} {p : List Sym}
    (he : e ∈ rules) (hp : p ∈ e.2) (hall : ∀ x ∈ p, x ∈ s) :
    e.1 ∈ closureStep rules s := by
  have inner : ∀ (prods : List (List Sym)) (k : Sym) (s0 : List Sym),
      (p ∈ prods ∧ (∀ x ∈ p, x ∈ s0) ∧ k = e.1) ∨ e.1 ∈ s0 →
      e.1 ∈ prods.foldl
        (fun s prod => if (∀ p ∈ prod, p ∈ s) ∧ k ∉ s then s ++ [k] else s) s0 := by
    intro prods k
    induction prods with
    | nil =>
      intro s0 h
      rcases h with ⟨h, _⟩ | h
      · simp at h
      · exact h
    | cons q prods ih =>
      intro s0 h
      simp only [List.foldl_cons]
      rcases h with ⟨hq, hall0, rfl⟩ | h
      · rcases List.mem_cons.1 hq with rfl | hq
        · split
          case isTrue hcond => exact ih _ (Or.inr (by simp))
          case isFalse hcond =>
            have : e.1 ∈ s0 := by
              by_contra hni
              exact hcond ⟨hall0, hni⟩
            exact ih _ (Or.inr this)
        · split
          case isTrue hcond =>
            refine ih _ (Or.inl ⟨hq, ?_, rfl⟩)
            intro x hx
            exact List.mem_append.2 (Or.inl (hall0 x hx))
          case isFalse hcond => exact ih _ (Or.inl ⟨hq, hall0, rfl⟩)
      · split
        case isTrue hcond => exact ih _ (Or.inr (by simp [h]))
        case isFalse hcond => exact ih _ (Or.inr h)
  have outer : ∀ (rs : List (Sym × List (List Sym))) (s0 : List Sym),
      (e ∈ rs ∧ ∀ x ∈ p, x ∈ s0) ∨ e.1 ∈ s0 →
      e.1 ∈ rs.foldl
        (fun s e => e.2.foldl
          (fun s prod => if (∀ p ∈ prod, p ∈ s) ∧ e.1 ∉ s then s ++ [e.1] else s) s)
        s0 := by
    intro rs
    induction rs with
    | nil =>
      intro s0 h
      rcases h with ⟨h, _⟩ | h
      · simp at h
      · exact h
    | cons f rs ih =>
      intro s0 h
      simp only [List.foldl_cons]
      rcases h with ⟨hf, hall0⟩ | h
      · rcases List.mem_cons.1 hf with rfl | hf
        · exact ih _ (Or.inr (inner e.2 e.1 s0 (Or.inl ⟨hp, hall0, rfl⟩)))
        · refine ih _ (Or.inl ⟨hf, ?_⟩)
          intro x hx
          rcases closureStep_eq_append [f] s0 with ⟨t, ht, _⟩
          have : closureStep [f] s0 = f.2.foldl
              (fun s prod => if (∀ p ∈ prod, p ∈ s) ∧ f.1 ∉ s then s ++ [f.1] else s)
              s0 := by
            unfold closureStep; simp
          rw [this] at ht
          rw [ht]
          exact List.mem_append.2 (Or.inl (hall0 x hx))
      · refine ih _ (Or.inr ?_)
        rcases closureStep_eq_append [f] s0 with ⟨t, ht, _⟩
        have heq : closureStep [f] s0 = f.2.foldl
            (fun s prod => if (∀ p ∈ prod, p ∈ s) ∧ f.1 ∉ s then s ++ [f.1] else s)
            s0 := by
          unfold closureStep; simp
        rw [heq] at ht
        rw [ht]
        exact List.mem_append.2 (Or.inl h)
  exact outer rules s (Or.inl ⟨he, hall⟩)

/-- Closedness of the saturated loop: a production lying inside the result
puts its head inside the result. -/
theorem closureLoop_closed (rules : List (Sym × List (List Sym)))
    {e : Sym × List (List Sym)} {p : List Sym}
    (he : e ∈ rules) (hp : p ∈ e.2)
    (hall : ∀ x ∈ p, x ∈ closureLoop rules (rules.length + 1) s) :
    e.1 ∈ closureLoop rules (rules.length + 1) s := by
  have hfix := closureLoop_fixed rules (rules.length + 1) s (by
    have : ((dKeys rules).filter (fun k => ¬ k ∈ s)).length ≤ (dKeys rules).length :=
      List.length_filter_le _ _
    have : (dKeys rules).length = rules.length := List.length_map _ _
    omega)
  rw [← hfix]
  exact closureStep_mem_of rules _ he hp hall

/-- A closed set is a fixed point of the pass. -/
theorem closureStep_eq_self_of_closed {rules : List (Sym × List (List Sym))}
    {s : List Sym}
    (h : ∀ e ∈ rules, ∀ p ∈ e.2, (∀ x ∈ p, x ∈ s) → e.1 ∈ s) :
    closureStep rules s = s := by
  unfold closureStep
  refine foldl_id ?_
  intro e he
  refine foldl_id ?_
  intro p hp
  by_cases hall : ∀ x ∈ p, x ∈ s
  · exact if_neg (fun hc => hc.2 (h e he p hp hall))
  · exact if_neg (fun hc => hall hc.1)

/-- When no production can sit entirely inside `{&}`, the nullable set
stays `{&}`. -/
theorem nullables_trivial {rules : List (Sym × List (List Sym))}
    (h : ∀ e ∈ rules, ∀ p ∈ e.2, ¬ ∀ x ∈ p, x ∈ (["&"] : List Sym)) :
    closureLoop rules (rules.length + 1) ["&"] = ["&"] := by
  have hstep : closureStep rules ["&"] = ["&"] :=
    closureStep_eq_self_of_closed (fun e he p hp hall => absurd hall (h e he p hp))
  have hunf : closureLoop rules (rules.length + 1) ["&"] =
      if (closureStep rules ["&"]).length = (["&"] : List Sym).length then
        closureStep rules ["&"]
      else closureLoop rules rules.length (closureStep rules ["&"]) := rfl
  rw [hunf, hstep]
  simp

end Closure

/-! ### `power_set` and `reStrike`: cut membership -/

section EpsilonLemmas

/-- The closing computation of `power_set`: markers stripped, empty cuts
dropped. -/
theorem powerSet_final_mem {S : List Sym} {L : Nat} (cuts : List (List Sym))
    (hc : ∀ c ∈ cuts, ∀ s ∈ c, s = "ε" ∨ s ∈ S)
    (hL : ∀ c ∈ cuts, c.length = L)
    {q : List Sym}
    (hq : q ∈ (cuts.map (fun c => c.filter (fun s => ¬ s = "ε"))).foldl
        (fun acc c => if c.length > 0 then osetAdd acc c else acc) []) :
    ¬ q = [] ∧ q.length ≤ L ∧ ∀ s ∈ q, ¬ s = "ε" ∧ s ∈ S := by
  rcases mem_foldl_osetAdd_cond_inv (C := fun c : List Sym => c.length > 0) hq
    with h | ⟨hm, hlen⟩
  · simp at h
  · rcases List.mem_map.1 hm with ⟨c, hcm, rfl⟩
    refine ⟨?_, ?_, ?_⟩
    · intro h
      rw [h] at hlen
      simp at hlen
    · rw [← hL c hcm]
      exact List.length_filter_le _ _
    · intro s hs
      rcases List.mem_filter.1 hs with ⟨hsc, hseps⟩
      refine ⟨by simpa using hseps, ?_⟩
      rcases hc c hcm s hsc with h | h
      · exact absurd h (by simpa using hseps)
      · exact h

/-- Cuts are non-empty, marker-free, and use only symbols of the cuts they
came from. -/
theorem powerSetAux_mem {nulls S : List Sym} {L : Nat} :
    ∀ (fuel : Nat) (cuts : List (List Sym)) (i : Nat),
      (∀ c ∈ cuts, ∀ s ∈ c, s = "ε" ∨ s ∈ S) →
      (∀ c ∈ cuts, c.length = L) →
      ∀ q ∈ powerSetAux nulls fuel cuts i,
        ¬ q = [] ∧ q.length ≤ L ∧ ∀ s ∈ q, ¬ s = "ε" ∧ s ∈ S := by
  intro fuel
  induction fuel with
  | zero =>
    intro cuts i hc hL q hq
    exact powerSet_final_mem cuts hc hL hq
  | succ fuel ih =>
    intro cuts i hc hL q hq
    have hunf : powerSetAux nulls (fuel + 1) cuts i =
        if i < (cuts.headD []).length then
          powerSetAux nulls fuel
            (if (cuts.headD []).getD i "" ∈ nulls then
              osetUpdate cuts (cuts.map (fun s => s.set i "ε"))
            else cuts) (i + 1)
        else
          (cuts.map (fun c => c.filter (fun s => ¬ s = "ε"))).foldl
            (fun acc c => if c.length > 0 then osetAdd acc c else acc) [] := rfl
    rw [hunf] at hq
    split at hq
    · refine ih _ (i + 1) ?_ ?_ q hq
      · split
        · intro c hcm s hs
          rcases mem_osetUpdate_iff.1 hcm with hcm | hcm
          · exact hc c hcm s hs
          · rcases List.mem_map.1 hcm with ⟨c0, hc0, rfl⟩
            rcases List.mem_or_eq_of_mem_set hs with hs | rfl
            · exact hc c0 hc0 s hs
            · exact Or.inl rfl
        · exact hc
      · split
        · intro c hcm
          rcases mem_osetUpdate_iff.1 hcm with hcm | hcm
          · exact hL c hcm
          · rcases List.mem_map.1 hcm with ⟨c0, hc0, rfl⟩
            rw [List.length_set]
            exact hL c0 hc0
        · exact hL
    · exact powerSet_final_mem cuts hc hL hq

/-- The cuts of one production. -/
theorem powerSet_mem {nulls p q : List Sym} (hq : q ∈ powerSet nulls p) :
    ¬ q = [] ∧ q.length ≤ p.length ∧ ∀ s ∈ q, ¬ s = "ε" ∧ s ∈ p := by
  refine powerSetAux_mem p.length [p] 0 ?_ ?_ q hq
  · intro c hc s hs
    simp only [List.mem_singleton] at hc
    subst hc
    exact Or.inr hs
  · intro c hc
    simp only [List.mem_singleton] at hc
    rw [hc]

/-- A production without nullable symbols or markers has itself as its
only cut. -/
theorem powerSet_singleton {nulls p : List Sym}
    (hnul : ∀ s ∈ p, ¬ s ∈ nulls) (heps : ∀ s ∈ p, ¬ s = "ε")
    (hne : ¬ p = []) :
    powerSet nulls p = [p] := by
  have hfilter : p.filter (fun s => ¬ s = "ε") = p :=
    List.filter_eq_self.2 (fun a ha => by simpa using heps a ha)
  have hfin : (([p].map (fun c => c.filter (fun s => ¬ s = "ε"))).foldl
      (fun acc c => if c.length > 0 then osetAdd acc c else acc) []) = [p] := by
    simp only [List.map_cons, List.map_nil, hfilter, List.foldl_cons, List.foldl_nil]
    rw [if_pos (by cases p with | nil => exact absurd rfl hne | cons a l => simp)]
    simp [osetAdd]
  have haux : ∀ (fuel : Nat) (i : Nat), powerSetAux nulls fuel [p] i = [p] := by
    intro fuel
    induction fuel with
    | zero => intro i; exact hfin
    | succ fuel ih =>
      intro i
      have hunf : powerSetAux nulls (fuel + 1) [p] i =
          if i < (([p] : List (List Sym)).headD []).length then
            powerSetAux nulls fuel
              (if (([p] : List (List Sym)).headD []).getD i "" ∈ nulls then
                osetUpdate [p] ([p].map (fun s => s.set i "ε"))
              else [p]) (i + 1)
          else
            (([p] : List (List Sym)).map (fun c => c.filter (fun s => ¬ s = "ε"))).foldl
              (fun acc c => if c.length > 0 then osetAdd acc c else acc) [] := rfl
      rw [hunf]
      split
      case isTrue hlt =>
        have hhead : (([p] : List (List Sym)).headD []) = p := rfl
        rw [hhead] at hlt
        have hgm : p.getD i "" ∈ p := by
          rw [List.getD_eq_getElem p "" hlt]
          exact List.getElem_mem hlt
        rw [if_neg ?_]
        · exact ih (i + 1)
        · show ¬ (([p] : List (List Sym)).headD []).getD i "" ∈ nulls
          rw [hhead]
          exact hnul _ hgm
      case isFalse => exact hfin
  exact haux p.length 0

/-- What `reStrike` leaves for one variable: never the epsilon production,
and only original productions or their cuts. -/
theorem mem_reStrike {nulls : List Sym} {prods : List (List Sym)} {q : List Sym}
    (hq : q ∈ reStrike nulls prods) :
    ¬ q = ["&"] ∧ (q ∈ prods ∨ ∃ p ∈ prods, q ∈ powerSet nulls p) := by
  have hupd : ∀ r ∈ osetUpdate prods
      (prods.foldl (fun acc p => osetUpdate acc (powerSet nulls p)) []),
      r ∈ prods ∨ ∃ p ∈ prods, r ∈ powerSet nulls p := by
    intro r hr
    rcases mem_osetUpdate_iff.1 hr with hr | hr
    · exact Or.inl hr
    · rcases (mem_foldl_osetUpdate (fun p => powerSet nulls p)).1 hr with hr | hr
      · simp at hr
      · exact Or.inr hr
  have hq2 : q ∈ (if ["&"] ∈ osetUpdate prods
        (prods.foldl (fun acc p => osetUpdate acc (powerSet nulls p)) []) then
      (osetUpdate prods
        (prods.foldl (fun acc p => osetUpdate acc (powerSet nulls p)) [])).filter
        (fun p => ¬ p = ["&"])
    else osetUpdate prods
        (prods.foldl (fun acc p => osetUpdate acc (powerSet nulls p)) [])) := hq
  split at hq2
  case isTrue h =>
    rcases List.mem_filter.1 hq2 with ⟨hmem, hne⟩
    exact ⟨by simpa using hne, hupd q hmem⟩
  case isFalse h =>
    refine ⟨fun heq => h (heq ▸ hq2), hupd q hq2⟩

/-- `reStrike` fixes a clean production set: nothing nullable to strike,
no marker, no empty production, no epsilon production. -/
theorem reStrike_id {nulls : List Sym} {prods : List (List Sym)}
    (hamp : ¬ ["&"] ∈ prods)
    (hp : ∀ p ∈ prods, (∀ s ∈ p, ¬ s ∈ nulls) ∧ (∀ s ∈ p, ¬ s = "ε") ∧ ¬ p = []) :
    reStrike nulls prods = prods := by
  have htoAdd : ∀ q ∈ prods.foldl (fun acc p => osetUpdate acc (powerSet nulls p)) [],
      q ∈ prods := by
    intro q hq
    rcases (mem_foldl_osetUpdate (fun p => powerSet nulls p)).1 hq with h | ⟨p, hpm, hmem⟩
    · simp at h
    · rcases hp p hpm with ⟨h1, h2, h3⟩
      rw [powerSet_singleton h1 h2 h3] at hmem
      simp only [List.mem_singleton] at hmem
      exact hmem ▸ hpm
  show (if ["&"] ∈ osetUpdate prods
        (prods.foldl (fun acc p => osetUpdate acc (powerSet nulls p)) []) then
      (osetUpdate prods
        (prods.foldl (fun acc p => osetUpdate acc (powerSet nulls p)) [])).filter
        (fun p => ¬ p = ["&"])
    else osetUpdate prods
        (prods.foldl (fun acc p => osetUpdate acc (powerSet nulls p)) [])) = prods
  rw [osetUpdate_of_subset htoAdd, if_neg hamp]

end EpsilonLemmas

/-! ### Claim theorems on concrete inputs -/

/-- The table `make_table` computes for Scenario D's grammar, with its
production numbering; cells never written hold `-1`. -/
def mtD : TableRes :=
  ⟨[(("S", ["a", "A"]), 1), (("S", ["b"]), 2), (("A", ["a", "A"]), 3), (("A", ["&"]), 4)],
   [(1, ("S", ["a", "A"])), (2, ("S", ["b"])), (3, ("A", ["a", "A"])), (4, ("A", ["&"]))],
   [(("S", "a"), 1), (("S", "b"), 2), (("A", "a"), 3), (("A", "b"), -1),
    (("S", "$"), -1), (("A", "$"), 4)],
   false⟩

/-- C2: for `S -> aA | b; A -> aA | &`, FIRST/FOLLOW and `make_table`
produce exactly `mtD` (no conflict); the table-driven parse `word` accepts
"aaa" and "b" and rejects "ab" and "" — the latter two because the cells
`(A, b)` and `(S, $)` hold no production (`-1`). -/
theorem scenario_d_parse_results :
    ((computeFirsts gD).bind fun fm => (computeFollows gD fm).map fun fl =>
        makeTable gD fm fl) = some mtD
    ∧ word gD mtD.table mtD.idToProd "aaa" 50 = some true
    ∧ word gD mtD.table mtD.idToProd "b" 50 = some true
    ∧ word gD mtD.table mtD.idToProd "ab" 50 = some false
    ∧ word gD mtD.table mtD.idToProd "" 50 = some false
    ∧ dGet mtD.table ("A", "b") 0 = -1
    ∧ dGet mtD.table ("S", "$") 0 = -1 := by
  refine ⟨by decide, by decide, by decide, by decide, by decide, by decide, by decide⟩

/-- C1: on `S -> aB | aC; B -> b; C -> c` the cell `(S, a)` is claimed
twice. `make_table` prints its message (the conflict flag) and then
overwrites the cell with the second production's id 2 (`S -> aC`),
returning the full table instead of failing. -/
theorem make_table_conflict_overwrites :
    ((computeFirsts gC).bind fun fm => (computeFollows gC fm).map fun fl =>
        let mt := makeTable gC fm fl
        (mt.conflict, dGet mt.table ("S", "a") 0, dGet mt.prodToId ("S", ["a", "C"]) 0))
      = some (true, 2, 2) := by
  decide

/-- C6: `remove_epsilon` on `S -> AbA; A -> a | &` yields exactly
`A -> a` and `S -> AbA | bA | Ab | b`, with the start unchanged and no
augmented start. -/
theorem scenario_c_remove_epsilon :
    removeEpsilon gScenC =
      ⟨["S", "A"], ["a", "b"],
        [("S", [["A", "b", "A"], ["b", "A"], ["A", "b"], ["b"]]), ("A", [["a"]])],
        "S"⟩ := by
  decide

/-- C7: on the left-recursive `S -> Sa | b`, `firsts` detects the
recursion and returns the normal value `False` (embedded `none`), with no
FIRST set computed — it does not raise. -/
theorem firsts_left_recursive_returns_none :
    hasLeftRecursion gLR = true ∧ computeFirsts gLR = none := by
  refine ⟨by decide, by decide⟩

/-- What `remove_left_recursion` leaves of `gClash`: the pre-existing
variable `❬X'❭` was overwritten by the split of `X` and now holds the
left-recursive production `❬X'❭ -> ❬X'❭a❬X'❭`. -/
def gClashRes : Grammar :=
  ⟨["❬X'❭", "X"], ["c", "a", "b"],
    [("❬X'❭", [["❬X'❭", "a", "❬X'❭"], ["&"]]), ("X", [["b", "❬X'❭"]])], "❬X'❭"⟩

/-- C4: `gClash` is epsilon-free and cycle-free, so both preconditions
pass, yet after `remove_left_recursion` the grammar has a first-symbol
self-loop and `has_left_recursion` answers true: the minted primed name
collided with the declared variable `❬X'❭`. -/
theorem remove_left_recursion_name_clash :
    hasE gClash = false ∧ hasCycle gClash = false
    ∧ removeLeftRecursion gClash = .ok gClashRes
    ∧ hasLeftRecursion gClashRes = true := by
  refine ⟨by decide, by decide, by rfl, by decide⟩

/-- C3's counterexample input: `convert_to_cnf` on the empty-language
grammar `S -> aS` returns the placeholder `S -> S`, whose sole production
is a single variable — not CNF shape. -/
theorem convert_to_cnf_empty_language_not_cnf :
    convertToCnf gVoid = ⟨["S"], ["a"], [("S", [["S"]])], "S"⟩
    ∧ ¬ cnfShaped (convertToCnf gVoid) := by
  refine ⟨by decide, by decide⟩

/-- C5's counterexample input: on `S -> a | &` the first `remove_epsilon`
introduces the augmented start `❬'S❭ -> S | &`; the second strips that
start's epsilon production and augments again, so the repetition is not a
no-op. -/
theorem remove_epsilon_not_idempotent :
    (removeEpsilon gNulS).start = augName "S"
    ∧ (removeEpsilon (removeEpsilon gNulS)).start = augName (augName "S")
    ∧ ¬ removeEpsilon (removeEpsilon gNulS) = removeEpsilon gNulS := by
  refine ⟨by decide, by decide, by decide⟩

/-- The two-state cycle of the parse on `tBA`: expanding `A` pushes `B A`,
expanding `B` by epsilon pops it back. -/
theorem parseRun_tBA_cycle (n : Nat) :
    parseRun tBA n ["A", "$"] ["$"] = none
    ∧ parseRun tBA n ["B", "A", "$"] ["$"] = none := by
  induction n with
  | zero => exact ⟨rfl, rfl⟩
  | succ n ih => exact ⟨ih.2, ih.1⟩

/-- `parse("")` on the table of `gBA` runs forever. -/
theorem parse_tBA_diverges : neverHalts tBA [] := by
  intro fuel
  exact (parseRun_tBA_cycle fuel).1

/-- C9's counterexample: the grammar `A -> BA; B -> &` passes
`has_left_recursion`, its table is built without conflict and equals
`tBA`, yet `parse("")` driven by that table reaches neither accept nor
reject for any number of steps. -/
theorem parse_divergence_on_conflict_free_table :
    hasLeftRecursion gBA = false
    ∧ ((computeFirsts gBA).bind fun fm => (computeFollows gBA fm).map fun fl =>
        let mt := makeTable gBA fm fl
        (mt.conflict, mt.table, mt.idToProd))
      = some (false, [(("A", "$"), 1), (("B", "$"), 2)],
          [(1, ("A", ["B", "A"])), (2, ("B", ["&"]))])
    ∧ neverHalts tBA [] := by
  refine ⟨by decide, by rfl, parse_tBA_diverges⟩

/-! ### C10: `has_e` exempts the start variable -/

/-- C10: `has_e` answers true exactly when a variable other than the
current start owns the epsilon production; a grammar whose only epsilon
production sits on its start is therefore reported epsilon-free by the
precondition check of `remove_left_recursion`. -/
theorem has_e_iff (g : Grammar) :
    hasE g = true ↔ ∃ v ∈ g.vars, v ≠ g.start ∧ ["&"] ∈ g.prods v := by
  unfold hasE
  rw [List.any_eq_true]
  constructor
  · rintro ⟨v, hv, hany⟩
    rw [List.any_eq_true] at hany
    rcases hany with ⟨p, hp, hcond⟩
    simp only [decide_eq_true_eq] at hcond
    exact ⟨v, hv, hcond.1, hcond.2 ▸ hp⟩
  · rintro ⟨v, hv, hne, hmem⟩
    refine ⟨v, hv, List.any_eq_true.2 ⟨["&"], hmem, ?_⟩⟩
    simp [hne]

/-! ### C8: the empty-language fallback of `remove_unproductives` -/

/-- C8: when the start variable is outside the productive fixed point, the
whole grammar collapses to the placeholder: the variable list is exactly
`[start]` and the production map gives the start exactly the
self-production `start -> start` (terminals are kept). -/
theorem remove_unproductives_empty_language (g : Grammar)
    (hstart : g.start ∈ g.vars) (hprod : ¬ g.start ∈ productivesOf g) :
    removeUnproductives g =
      ⟨[g.start], g.terminals, [(g.start, [[g.start]])], g.start⟩ := by
  have hkeep : rupKeep (productivesOf g) (dGet g.rules g.start []) = [] := by
    unfold rupKeep
    refine foldl_cond_add_id (C := fun p => ∀ s ∈ p, s ∈ productivesOf g) ?_
    intro p hp hall
    apply hprod
    cases hfind : List.find? (fun e => e.1 = g.start) g.rules with
    | none =>
      unfold dGet at hp
      rw [hfind] at hp
      simp at hp
    | some e =>
      have hmem := List.mem_of_find?_eq_some hfind
      have hkey : e.1 = g.start := by
        have := List.find?_some hfind
        simpa using this
      unfold dGet at hp
      rw [hfind] at hp
      unfold productivesOf at hall ⊢
      rw [← hkey]
      exact closureLoop_closed g.rules hmem hp hall
  have hget : dGet (rupNewRules g) g.start [] = [] := by
    unfold rupNewRules
    rw [dGet_foldl_dSet (fun v => rupKeep (productivesOf g) (dGet g.rules v []))
      (Or.inr hstart)]
    exact hkeep
  have hrem : g.start ∈ rupToRemove g := by
    unfold rupToRemove
    refine mem_foldl_osetAdd_cond
      (C := fun v => (dGet (rupNewRules g) v []).length = 0) (Or.inr ⟨hstart, ?_⟩)
    show (dGet (rupNewRules g) g.start []).length = 0
    rw [hget]
    rfl
  have hany : (rupRules2 g).any (fun e => e.1 = g.start) = false := by
    rw [Bool.eq_false_iff]
    intro hc
    rw [List.any_eq_true] at hc
    rcases hc with ⟨e, he, hkey⟩
    unfold rupRules2 at he
    have hni := (mem_foldl_dDel.1 he).2
    simp only [decide_eq_true_eq] at hkey
    exact hni (hkey ▸ hrem)
  unfold removeUnproductives
  rw [if_pos (by rw [hany]; simp)]
  simp [osetAdd, dSet]

/-- The witness of C8: the grammar `S -> aS` has an unproductive start and
collapses to `S -> S`. -/
theorem remove_unproductives_empty_language_witness :
    ¬ "S" ∈ productivesOf gVoid
    ∧ removeUnproductives gVoid = ⟨["S"], ["a"], [("S", [["S"]])], "S"⟩ :=
  ⟨by decide, remove_unproductives_empty_language gVoid (by decide) (by decide)⟩

/-! ### C5 (amended): `remove_epsilon` is idempotent when the start is
not nullable -/

/-- C5, amended: for a well-formed grammar whose start is not nullable
(so the first pass introduces no augmented start), a second
`remove_epsilon` changes nothing — the variables, start and every
production set are literally equal.  (When the start is nullable the
claim fails: see the counterexample.) -/
theorem remove_epsilon_idempotent (g : Grammar) (hw : wfG g)
    (hnul : ¬ g.start ∈ nullablesOf g) :
    removeEpsilon (removeEpsilon g) = removeEpsilon g := by
  obtain ⟨hkeys, hnd, hstart, hav, hat, hev, het, _, _, hwf⟩ := hw
  have h1 : removeEpsilon g = { g with rules := reRules g (nullablesOf g) } := by
    unfold removeEpsilon
    rw [if_neg hnul]
  have hkeys' : ∀ v ∈ g.vars, v ∈ dKeys g.rules := by
    rw [hkeys]; exact fun v hv => hv
  have hRkeys : dKeys (reRules g (nullablesOf g)) = g.vars := by
    have h : dKeys (g.vars.foldl
        (fun rs v => dSet rs v ((fun _ b => reStrike (nullablesOf g) b) v
          (dGet rs v ([] : List (List Sym))))) g.rules) = dKeys g.rules :=
      dKeys_foldl_dSetT (fun _ b => reStrike (nullablesOf g) b) hkeys'
    exact (show dKeys (reRules g (nullablesOf g)) = dKeys g.rules from h).trans hkeys
  have hRentry : ∀ e ∈ reRules g (nullablesOf g),
      e.1 ∈ g.vars ∧ e.2 = reStrike (nullablesOf g) (dGet g.rules e.1 []) := by
    intro e he
    have he' : e ∈ g.vars.foldl
        (fun rs v => dSet rs v ((fun _ b => reStrike (nullablesOf g) b) v (dGet rs v [])))
        g.rules := he
    rcases mem_foldl_dSetT_entry hnd (fun _ b => reStrike (nullablesOf g) b) he'
      with ⟨hm, hv⟩ | ⟨hm, hni⟩
    · exact ⟨hm, hv⟩
    · refine absurd ?_ hni
      rw [← hkeys]
      exact List.mem_map.2 ⟨e, hm, rfl⟩
  have hclean : ∀ e ∈ reRules g (nullablesOf g), ∀ q ∈ e.2,
      ¬ q = [] ∧ ¬ q = ["&"] ∧ ∀ s ∈ q, s ∈ g.vars ∨ s ∈ g.terminals := by
    intro e he q hq
    obtain ⟨hv, hval⟩ := hRentry e he
    rw [hval] at hq
    obtain ⟨hneAmp, hsrc⟩ := mem_reStrike hq
    rcases dGet_cases g.rules e.1 ([] : List (List Sym)) with hget | ⟨e0, he0, hkey0, hget⟩
    · rw [hget] at hsrc
      rcases hsrc with h | ⟨p, hp, _⟩
      · simp at h
      · simp at hp
    · rw [hget] at hsrc
      have hwf0 := hwf e0 he0
      rcases hsrc with hqm | ⟨p, hp, hcut⟩
      · rcases hwf0 q hqm with h | ⟨hne, hsym⟩
        · exact absurd h hneAmp
        · exact ⟨hne, hneAmp, hsym⟩
      · rcases hwf0 p hp with h | ⟨hne, hsym⟩
        · subst h
          obtain ⟨hqne, hqlen, hqsym⟩ := powerSet_mem hcut
          exfalso
          cases q with
          | nil => exact hqne rfl
          | cons s q' =>
            have hs : s = "&" := by
              have := (hqsym s (by simp)).2
              simpa using this
            have hq' : q' = [] := by
              have hlen : q'.length + 1 ≤ 1 := by
                simpa using hqlen
              have : q'.length = 0 := by omega
              exact List.length_eq_zero.1 this
            exact hneAmp (by rw [hs, hq'])
        · obtain ⟨hqne, _, hqsym⟩ := powerSet_mem hcut
          refine ⟨hqne, hneAmp, ?_⟩
          intro s hs
          exact hsym s (hqsym s hs).2
  have hnull2 : nullablesOf { g with rules := reRules g (nullablesOf g) } = ["&"] := by
    show closureLoop (reRules g (nullablesOf g))
      ((reRules g (nullablesOf g)).length + 1) (osetAdd [] "&") = ["&"]
    have hseed : osetAdd ([] : List Sym) "&" = ["&"] := rfl
    rw [hseed]
    refine nullables_trivial ?_
    intro e he p hp hall
    obtain ⟨hne, _, hsym⟩ := hclean e he p hp
    cases p with
    | nil => exact hne rfl
    | cons s p' =>
      have hsamp : s = "&" := by simpa using hall s (by simp)
      rcases hsym s (by simp) with h | h
      · exact hav (hsamp ▸ h)
      · exact hat (hsamp ▸ h)
  have hs2 : ¬ ({ g with rules := reRules g (nullablesOf g) } : Grammar).start
      ∈ nullablesOf { g with rules := reRules g (nullablesOf g) } := by
    rw [hnull2]
    show ¬ g.start ∈ (["&"] : List Sym)
    simp only [List.mem_singleton]
    intro h
    exact hav (h ▸ hstart)
  have hre : reRules { g with rules := reRules g (nullablesOf g) } ["&"]
      = reRules g (nullablesOf g) := by
    unfold reRules
    refine foldl_id ?_
    intro v hv
    have hv' : v ∈ g.vars := hv
    have hvk : v ∈ dKeys (reRules g (nullablesOf g)) := by
      rw [hRkeys]; exact hv'
    have hgetp : ∀ q ∈ dGet (reRules g (nullablesOf g)) v ([] : List (List Sym)),
        ¬ q = [] ∧ ¬ q = ["&"] ∧ ∀ s ∈ q, s ∈ g.vars ∨ s ∈ g.terminals := by
      rcases dGet_cases (reRules g (nullablesOf g)) v ([] : List (List Sym))
        with h | ⟨e, he, hk, h⟩
      · rw [h]; intro q hq; simp at hq
      · rw [h]; exact fun q hq => hclean e he q hq
    have hstrike : reStrike ["&"] (dGet (reRules g (nullablesOf g)) v [])
        = dGet (reRules g (nullablesOf g)) v [] := by
      refine reStrike_id ?_ ?_
      · intro h
        exact ((hgetp _ h).2.1) rfl
      · intro p hpm
        obtain ⟨hne, _, hsym⟩ := hgetp p hpm
        refine ⟨?_, ?_, hne⟩
        · intro s hs hmem
          simp only [List.mem_singleton] at hmem
          rcases hsym s hs with h | h
          · exact hav (hmem ▸ h)
          · exact hat (hmem ▸ h)
        · intro s hs h
          rcases hsym s hs with hh | hh
          · exact hev (h ▸ hh)
          · exact het (h ▸ hh)
    show dSet (reRules g (nullablesOf g)) v
        (reStrike ["&"] (dGet (reRules g (nullablesOf g)) v []))
      = reRules g (nullablesOf g)
    rw [hstrike]
    exact dSet_val_id (by rw [hRkeys]; exact hnd) hvk
  have h2 : removeEpsilon { g with rules := reRules g (nullablesOf g) }
      = { g with rules := reRules g (nullablesOf g) } := by
    unfold removeEpsilon
    rw [if_neg hs2, hnull2, hre]
  rw [h1, h2]

/-- The witness of C5's amended claim: Scenario C's grammar has a
non-nullable start, and repeating `remove_epsilon` on it is a no-op. -/
theorem remove_epsilon_idempotent_witness :
    wfG gScenC ∧ ¬ gScenC.start ∈ nullablesOf gScenC
    ∧ removeEpsilon (removeEpsilon gScenC) = removeEpsilon gScenC :=
  ⟨by decide, by decide, remove_epsilon_idempotent gScenC (by decide) (by decide)⟩

/-! ### C9 (amended): `parse` halts on every table that carries a ranking
certificate -/

/-- A mapped `osetAdd` fold only grows the accumulator. -/
theorem subset_foldl_osetAdd_map {α γ : Type} [DecidableEq α] (f : γ → α)
    (l : List γ) (init : List α) :
    init ⊆ l.foldl (fun acc v => osetAdd acc (f v)) init := by
  induction l generalizing init with
  | nil => exact fun a ha => ha
  | cons y l ih =>
    intro a ha
    simp only [List.foldl_cons]
    exact ih _ (subset_osetAdd _ _ ha)

/-- Every image of a list member lands in the mapped `osetAdd` fold. -/
theorem mem_foldl_osetAdd_map {α γ : Type} [DecidableEq α] (f : γ → α)
    {l : List γ} (init : List α) {x : γ} (hx : x ∈ l) :
    f x ∈ l.foldl (fun acc v => osetAdd acc (f v)) init := by
  induction l generalizing init with
  | nil => simp at hx
  | cons y l ih =>
    simp only [List.foldl_cons]
    rcases List.mem_cons.1 hx with rfl | hx
    · exact subset_foldl_osetAdd_map f l _ (mem_osetAdd_iff.2 (Or.inr rfl))
    · exact ih _ hx

/-- The first component of every table key is a `PredictiveParser` variable. -/
theorem mem_parseVars {table : List ((Sym × Sym) × List Sym)}
    {e : (Sym × Sym) × List Sym} (he : e ∈ table) :
    e.1.1 ∈ parseVars table :=
  mem_foldl_osetAdd_map (fun v => v.1.1) [] he

/-- Pushing an all-nullable production: the measure adds up. -/
theorem nweight_append_allN (rank : Sym → Nat) (N V : List Sym) (a b : List Sym)
    (ha : ∀ s ∈ a, s ∈ N) :
    nweight rank N V (a ++ b) = nweight rank N V a + nweight rank N V b := by
  induction a with
  | nil => simp [nweight]
  | cons x xs ih =>
    have hx : x ∈ N := ha x (by simp)
    have h1 : nweight rank N V ((x :: xs) ++ b)
        = if x ∈ N then rank x + nweight rank N V (xs ++ b)
          else if x ∈ V then rank x else 0 := rfl
    have h2 : nweight rank N V (x :: xs)
        = if x ∈ N then rank x + nweight rank N V xs
          else if x ∈ V then rank x else 0 := rfl
    rw [h1, h2, if_pos hx, if_pos hx, ih (fun s hs => ha s (by simp [hs]))]
    omega

/-- Pushing a production that is not entirely nullable: the measure stops
inside it, so the remaining stack does not count. -/
theorem nweight_append_stop (rank : Sym → Nat) (N V : List Sym) (a b : List Sym)
    (ha : ¬ ∀ s ∈ a, s ∈ N) :
    nweight rank N V (a ++ b) = nweight rank N V a := by
  induction a with
  | nil => exact absurd (by simp) ha
  | cons x xs ih =>
    have h1 : nweight rank N V ((x :: xs) ++ b)
        = if x ∈ N then rank x + nweight rank N V (xs ++ b)
          else if x ∈ V then rank x else 0 := rfl
    have h2 : nweight rank N V (x :: xs)
        = if x ∈ N then rank x + nweight rank N V xs
          else if x ∈ V then rank x else 0 := rfl
    rw [h1, h2]
    by_cases hx : x ∈ N
    · have hxs : ¬ ∀ s ∈ xs, s ∈ N := by
        intro h
        refine ha ?_
        intro s hs
        rcases List.mem_cons.1 hs with rfl | hs2
        · exact hx
        · exact h s hs2
      rw [if_pos hx, if_pos hx, ih hxs]
    · rw [if_neg hx, if_neg hx]

/-- C9, amended: the parser's termination needs more than the table being
conflict-free and `has_left_recursion`-clean (the counterexample shows
`parse` looping forever on such a table).  What suffices is a
nullable-prefix ranking certificate: a set `N` of nullable variables and a
function `rank` giving every table variable a positive weight, such that
epsilon cells sit only at `N`-variables, every right-hand side made
entirely of `N`-symbols has an `N`-head, and every non-epsilon right-hand
side weighs strictly less than its head under the nullable-prefix measure
(the `N`-prefix counts fully, the first table variable behind it counts
once, and anything behind a non-nullable symbol is untouched before the
next input consumption).  Under such a certificate `parse` halts on every
finite input, with enough fuel; standard LL(1) tables such as that of
`S -> AS | b; A -> a` carry one. -/
theorem parse_always_halts (table : List ((Sym × Sym) × List Sym))
    (rank : Sym → Nat) (N : List Sym)
    (hcert : ∀ e ∈ table, 1 ≤ rank e.1.1 ∧
      (e.2 = ["&"] → e.1.1 ∈ N) ∧
      (¬ e.2 = ["&"] → nweight rank N (parseVars table) e.2 < rank e.1.1
        ∧ ((∀ s ∈ e.2, s ∈ N) → e.1.1 ∈ N)))
    (w : List Sym) :
    ∃ n r, parse table w n = some r := by
  suffices h : ∀ input stack, ∃ n r, parseRun table n stack input = some r by
    exact h (w ++ ["$"]) [(parseVars table).headD "", "$"]
  intro input
  induction input with
  | nil =>
    intro stack
    exact ⟨1, PRes.err, rfl⟩
  | cons s rest ih =>
    have key : ∀ m stack, nweight rank N (parseVars table) stack < m →
        ∃ n r, parseRun table n stack (s :: rest) = some r := by
      intro m
      induction m with
      | zero =>
        intro stack h
        exact absurd h (Nat.not_lt_zero _)
      | succ m ihm =>
        intro stack hmu
        cases stack with
        | nil => exact ⟨1, PRes.err, rfl⟩
        | cons top stail =>
          by_cases hts : top = s
          · by_cases hsd : s = "$"
            · refine ⟨1, if stail.isEmpty then PRes.acc else PRes.err, ?_⟩
              cases h : stail.isEmpty <;> simp [parseRun, hts, hsd, h]
            · obtain ⟨n, r, hn⟩ := ih stail
              refine ⟨n + 1, r, ?_⟩
              have step : parseRun table (n + 1) (top :: stail) (s :: rest)
                  = parseRun table n stail rest := by
                simp [parseRun, hts, hsd]
              rw [step]
              exact hn
          · cases hf : table.find? (fun e => e.1 = (top, s)) with
            | none =>
              refine ⟨1, PRes.rej, ?_⟩
              simp [parseRun, hts, hf]
            | some e =>
              have hem : e ∈ table := List.mem_of_find?_eq_some hf
              have hkey : e.1 = (top, s) := by
                have h := List.find?_some hf
                simpa using h
              have htop : top ∈ parseVars table := by
                have h := mem_parseVars hem
                rw [hkey] at h
                exact h
              obtain ⟨hrank1, hampN, hexp⟩ := hcert e hem
              have hr1 : 1 ≤ rank top := by
                rw [hkey] at hrank1
                exact hrank1
              have h2 : nweight rank N (parseVars table) (top :: stail)
                  = if top ∈ N
                    then rank top + nweight rank N (parseVars table) stail
                    else if top ∈ parseVars table then rank top else 0 := rfl
              by_cases heps : e.2 = ["&"]
              · have htopN : top ∈ N := by
                  have hh := hampN heps
                  rw [hkey] at hh
                  exact hh
                have hmu2 : rank top + nweight rank N (parseVars table) stail
                    < m + 1 := by
                  rw [h2, if_pos htopN] at hmu
                  exact hmu
                have hlt : nweight rank N (parseVars table) stail < m := by omega
                obtain ⟨n, r, hn⟩ := ihm stail hlt
                refine ⟨n + 1, r, ?_⟩
                have step : parseRun table (n + 1) (top :: stail) (s :: rest)
                    = parseRun table n stail (s :: rest) := by
                  simp [parseRun, hts, hf, heps]
                rw [step]
                exact hn
              · obtain ⟨hwlt0, hallimp0⟩ := hexp heps
                have hwlt : nweight rank N (parseVars table) e.2 < rank top := by
                  rw [hkey] at hwlt0
                  exact hwlt0
                have hlt : nweight rank N (parseVars table) (e.2 ++ stail) < m := by
                  by_cases hall : ∀ x ∈ e.2, x ∈ N
                  · have htopN : top ∈ N := by
                      have hh := hallimp0 hall
                      rw [hkey] at hh
                      exact hh
                    have happ := nweight_append_allN rank N (parseVars table)
                      e.2 stail hall
                    have hmu2 : rank top + nweight rank N (parseVars table) stail
                        < m + 1 := by
                      rw [h2, if_pos htopN] at hmu
                      exact hmu
                    omega
                  · have happ := nweight_append_stop rank N (parseVars table)
                      e.2 stail hall
                    have hge : rank top
                        ≤ nweight rank N (parseVars table) (top :: stail) := by
                      rw [h2]
                      by_cases htopN : top ∈ N
                      · rw [if_pos htopN]
                        omega
                      · rw [if_neg htopN, if_pos htop]
                    omega
                obtain ⟨n, r, hn⟩ := ihm (e.2 ++ stail) hlt
                refine ⟨n + 1, r, ?_⟩
                have step : parseRun table (n + 1) (top :: stail) (s :: rest)
                    = parseRun table n (e.2 ++ stail) (s :: rest) := by
                  simp [parseRun, hts, hf, heps]
                rw [step]
                exact hn
    intro stack
    exact key (nweight rank N (parseVars table) stack + 1) stack (Nat.lt_succ_self _)

/-- The witness of C9's amended claim: the table of `S -> AS | b; A -> a`,
which the spec's own termination claim covers and which no all-variable
prefix measure certifies, carries the nullable-prefix certificate with
`N = {}` and ranks `S > A`, so `parse` halts on `ab`. -/
theorem parse_always_halts_witness :
    (∀ e ∈ tAS, 1 ≤ rkAS e.1.1 ∧
      (e.2 = ["&"] → e.1.1 ∈ ([] : List Sym)) ∧
      (¬ e.2 = ["&"] → nweight rkAS [] (parseVars tAS) e.2 < rkAS e.1.1
        ∧ ((∀ s ∈ e.2, s ∈ ([] : List Sym)) → e.1.1 ∈ ([] : List Sym))))
    ∧ ∃ n r, parse tAS ["a", "b"] n = some r :=
  ⟨by decide, parse_always_halts tAS rkAS [] (by decide) ["a", "b"]⟩

/-! ### C3 (amended): shape invariants along the `convert_to_cnf` pipeline -/

/-- The production shape stages 1–4 of the pipeline maintain, keyed by the
owning variable `k`: the epsilon production lives only at the start `S`;
everything else is a nonempty string of declared symbols that is not a unit
production. -/
def preKProd (V T : List Sym) (S k : Sym) (p : List Sym) : Prop :=
  (p = ["&"] → k = S) ∧
  (¬ p = ["&"] →
    ¬ p = [] ∧ (∀ s ∈ p, s ∈ V ∨ s ∈ T) ∧ (1 < p.length ∨ ¬ p.headD "" ∈ V))

/-- A body after `replace_terminals`, keyed by its owning variable: the
start's epsilon production, a lone terminal, or a sequence of at least two
declared or minted (`W`) variables. -/
def rtKProd (V T W : List Sym) (S k : Sym) (p : List Sym) : Prop :=
  (p = ["&"] → k = S) ∧
  (¬ p = ["&"] →
    (p.length = 1 ∧ p.headD "" ∈ T) ∨ (2 ≤ p.length ∧ ∀ s ∈ p, s ∈ V ∨ s ∈ W))

/-- A body after `reduce_size`, keyed by its owning variable: the start's
epsilon production or the Chomsky shapes. -/
def rsKProd (V T W : List Sym) (S k : Sym) (p : List Sym) : Prop :=
  (p = ["&"] → k = S) ∧
  (¬ p = ["&"] →
    (p.length = 1 ∧ p.headD "" ∈ T) ∨ (p.length = 2 ∧ ∀ s ∈ p, s ∈ V ∨ s ∈ W))

/-- The invariant `replace_terminals` maintains on its mutable state: every
variable's self-rules keep the stage-4 keyed shape (a minted isolator that
collides with a declared variable overwrites its rules with a lone-terminal
production, which has that shape too), and every body already written to
`new_rules` has the target shape. -/
def rtInv (g : Grammar) (S : Sym) (st : RTSt) : Prop :=
  (∀ v : Sym, ∀ p ∈ dGet st.selfRules v [], preKProd g.vars g.terminals S v p) ∧
  (∀ e ∈ st.newRules, ∀ p ∈ e.2, rtKProd g.vars g.terminals st.toAddVar S e.1 p)

/-- The invariant `reduce_size` maintains on its mutable state: every body
written to `new_rules` has a Chomsky shape over the input symbols and the
chain variables created so far, with epsilon only at the start. -/
def rsInv (g : Grammar) (S : Sym) (st : RSSt) : Prop :=
  ∀ e ∈ st.newRules, ∀ p ∈ e.2, rsKProd g.vars g.terminals st.toAddVar S e.1 p

/-- An entry of a key-indexed `dSet` fold is an initial entry or carries the
step value of its key. -/
theorem mem_foldl_dSetF {κ β : Type} [DecidableEq κ] {F : κ → β} {l : List κ}
    {init : List (κ × β)} {e : κ × β}
    (he : e ∈ l.foldl (fun d k => dSet d k (F k)) init) :
    e ∈ init ∨ (e.1 ∈ l ∧ e.2 = F e.1) := by
  induction l generalizing init with
  | nil => exact Or.inl he
  | cons k l ih =>
    simp only [List.foldl_cons] at he
    rcases ih he with h | ⟨hm, hv⟩
    · rcases mem_dSet h with ⟨hm, _⟩ | rfl
      · exact Or.inl hm
      · exact Or.inr ⟨by simp, rfl⟩
    · exact Or.inr ⟨by simp [hm], hv⟩

/-- The entries of `remove_epsilon`'s strike fold, when keys are exact. -/
theorem reRules_entry {g : Grammar} (hkeys : dKeys g.rules = g.vars)
    (hnd : g.vars.Nodup) :
    ∀ e ∈ reRules g (nullablesOf g),
      e.1 ∈ g.vars ∧ e.2 = reStrike (nullablesOf g) (dGet g.rules e.1 []) := by
  intro e he
  have he' : e ∈ g.vars.foldl
      (fun rs v => dSet rs v ((fun _ b => reStrike (nullablesOf g) b) v (dGet rs v [])))
      g.rules := he
  rcases mem_foldl_dSetT_entry hnd (fun _ b => reStrike (nullablesOf g) b) he'
    with ⟨hm, hv⟩ | ⟨hm, hni⟩
  · exact ⟨hm, hv⟩
  · refine absurd ?_ hni
    rw [← hkeys]
    exact List.mem_map.2 ⟨e, hm, rfl⟩

/-- Stage 1 of the pipeline: every production left by the strike fold is
nonempty, is not the epsilon production, and mentions only declared
symbols. -/
theorem reRules_shape {g : Grammar} (hw : wfG g) :
    ∀ e ∈ reRules g (nullablesOf g), ∀ q ∈ e.2,
      ¬ q = [] ∧ ¬ q = ["&"] ∧ ∀ s ∈ q, s ∈ g.vars ∨ s ∈ g.terminals := by
  obtain ⟨hkeys, hnd, hstart, hav, hat, hev, het, _, _, hwf⟩ := hw
  intro e he q hq
  obtain ⟨hv, hval⟩ := reRules_entry hkeys hnd e he
  rw [hval] at hq
  obtain ⟨hneAmp, hsrc⟩ := mem_reStrike hq
  rcases dGet_cases g.rules e.1 ([] : List (List Sym)) with hget | ⟨e0, he0, hkey0, hget⟩
  · rw [hget] at hsrc
    rcases hsrc with h | ⟨p, hp, _⟩
    · simp at h
    · simp at hp
  · rw [hget] at hsrc
    have hwf0 := hwf e0 he0
    rcases hsrc with hqm | ⟨p, hp, hcut⟩
    · rcases hwf0 q hqm with h | ⟨hne, hsym⟩
      · exact absurd h hneAmp
      · exact ⟨hne, hneAmp, hsym⟩
    · rcases hwf0 p hp with h | ⟨hne, hsym⟩
      · subst h
        obtain ⟨hqne, hqlen, hqsym⟩ := powerSet_mem hcut
        exfalso
        cases q with
        | nil => exact hqne rfl
        | cons s q' =>
          have hs : s = "&" := by
            have := (hqsym s (by simp)).2
            simpa using this
          have hq' : q' = [] := by
            have hlen : q'.length + 1 ≤ 1 := by
              simpa using hqlen
            have : q'.length = 0 := by omega
            exact List.length_eq_zero.1 this
          exact hneAmp (by rw [hs, hq'])
      · obtain ⟨hqne, _, hqsym⟩ := powerSet_mem hcut
        refine ⟨hqne, hneAmp, ?_⟩
        intro s hs
        exact hsym s (hqsym s hs).2

/-- The generic membership fact behind `ruPool`: anything the conditional
double fold collects is an initial element or a non-unit production of some
visited contender. -/
theorem mem_ruPool_aux {g : Grammar} {vis L : List Sym}
    {acc : List (List Sym)} {p : List Sym}
    (hp : p ∈ L.foldl
      (fun acc contender =>
        if contender ∈ vis then
          (dGet g.rules contender []).foldl
            (fun acc p =>
              if p.length > 1 ∨ ¬ p.headD "" ∈ g.vars then osetAdd acc p else acc)
            acc
        else acc)
      acc) :
    p ∈ acc ∨ ∃ c, c ∈ vis ∧ p ∈ dGet g.rules c []
      ∧ (p.length > 1 ∨ ¬ p.headD "" ∈ g.vars) := by
  induction L generalizing acc with
  | nil => exact Or.inl hp
  | cons c L ih =>
    simp only [List.foldl_cons] at hp
    rcases ih hp with h | h
    · by_cases hcv : c ∈ vis
      · rw [if_pos hcv] at h
        rcases mem_foldl_osetAdd_cond_inv
          (C := fun q : List Sym => q.length > 1 ∨ ¬ q.headD "" ∈ g.vars) h
          with h2 | ⟨hm, hC⟩
        · exact Or.inl h2
        · exact Or.inr ⟨c, hcv, hm, hC⟩
      · rw [if_neg hcv] at h
        exact Or.inl h
    · exact Or.inr h

/-- A production pooled by `remove_unit` is a non-unit production of some
unit-reachable variable of the input grammar. -/
theorem mem_ruPool_src {g : Grammar} {var : Sym} {p : List Sym}
    (hp : p ∈ ruPool g var) :
    ∃ c, c ∈ bfsVisited (unitEdges g) (2 * g.vars.length + 2) [var] [var]
      ∧ p ∈ dGet g.rules c [] ∧ (p.length > 1 ∨ ¬ p.headD "" ∈ g.vars) := by
  have hp' : p ∈ g.vars.foldl
      (fun acc contender =>
        if contender ∈ bfsVisited (unitEdges g) (2 * g.vars.length + 2) [var] [var] then
          (dGet g.rules contender []).foldl
            (fun acc p =>
              if p.length > 1 ∨ ¬ p.headD "" ∈ g.vars then osetAdd acc p else acc)
            acc
        else acc)
      [] := hp
  rcases mem_ruPool_aux hp' with h | h
  · simp at h
  · exact h

/-- The augmented-start name starts with the `❬` marker. -/
theorem augName_head (s : Sym) : (augName s).data.head? = some '❬' := by
  show ((("❬" ++ "'") ++ s) ++ "❭").data.head? = some '❬'
  rw [String.data_append, String.data_append, String.data_append]
  rfl

/-- The augmented-start name is never the epsilon marker. -/
theorem augName_ne_amp (s : Sym) : ¬ augName s = "&" := by
  intro h
  have hh : (augName s).data.head? = ("&" : String).data.head? := by rw [h]
  rw [augName_head] at hh
  exact absurd hh (by decide)

/-- A plain `osetAdd` fold only grows the accumulator. -/
theorem subset_foldl_osetAdd (l : List Sym) (init : List Sym) :
    init ⊆ l.foldl osetAdd init := by
  induction l generalizing init with
  | nil => exact fun a ha => ha
  | cons y l ih =>
    intro a ha
    simp only [List.foldl_cons]
    exact ih _ (subset_osetAdd _ _ ha)

/-- A plain `osetAdd` fold contains every folded element. -/
theorem mem_foldl_osetAdd {l : List Sym} (init : List Sym) {x : Sym}
    (hx : x ∈ l) : x ∈ l.foldl osetAdd init := by
  induction l generalizing init with
  | nil => simp at hx
  | cons y l ih =>
    simp only [List.foldl_cons]
    rcases List.mem_cons.1 hx with rfl | hx
    · exact subset_foldl_osetAdd l _ (mem_osetAdd_iff.2 (Or.inr rfl))
    · exact ih _ hx

/-- `rtKProd` is monotone in the minted-variable set. -/
theorem rtKProd_mono {V T W W' : List Sym} {S k : Sym} (hW : W ⊆ W')
    {p : List Sym} (hp : rtKProd V T W S k p) : rtKProd V T W' S k p := by
  refine ⟨hp.1, fun hne => ?_⟩
  rcases hp.2 hne with h | ⟨hl, hs⟩
  · exact Or.inl h
  · exact Or.inr ⟨hl, fun s hsm => (hs s hsm).imp id (fun h => hW h)⟩

/-- `rsKProd` is monotone in the minted-variable set. -/
theorem rsKProd_mono {V T W W' : List Sym} {S k : Sym} (hW : W ⊆ W')
    {p : List Sym} (hp : rsKProd V T W S k p) : rsKProd V T W' S k p := by
  refine ⟨hp.1, fun hne => ?_⟩
  rcases hp.2 hne with h | ⟨hl, hs⟩
  · exact Or.inl h
  · exact Or.inr ⟨hl, fun s hsm => (hs s hsm).imp id (fun h => hW h)⟩

/-- A plain `osetAdd` fold adds nothing that was not folded in. -/
theorem mem_foldl_osetAdd_inv {l init : List Sym} {x : Sym}
    (hx : x ∈ l.foldl osetAdd init) : x ∈ init ∨ x ∈ l := by
  induction l generalizing init with
  | nil => exact Or.inl hx
  | cons y l ih =>
    simp only [List.foldl_cons] at hx
    rcases ih hx with h | h
    · rcases mem_osetAdd_iff.1 h with h2 | rfl
      · exact Or.inl h2
      · exact Or.inr (by simp)
    · exact Or.inr (by simp [h])

/-- `osetAdd` keeps a list duplicate-free. -/
theorem osetAdd_nodup {l : List Sym} {x : Sym} (h : l.Nodup) :
    (osetAdd l x).Nodup := by
  unfold osetAdd
  split
  case isTrue => exact h
  case isFalse hx => simp [List.nodup_append, h, hx]

/-- Reading a dictionary with duplicate-free keys at a held entry's key
gives that entry's value. -/
theorem dGet_eq_of_mem_nodup {κ β : Type} [DecidableEq κ] {d : List (κ × β)}
    (hnd : (dKeys d).Nodup) {e : κ × β} (he : e ∈ d) (dflt : β) :
    dGet d e.1 dflt = e.2 := by
  induction d with
  | nil => simp at he
  | cons e0 d ih =>
    have hnd2 : (e0.1 :: dKeys d).Nodup := hnd
    have hh := List.nodup_cons.1 hnd2
    rcases List.mem_cons.1 he with rfl | he2
    · unfold dGet
      rw [List.find?_cons_of_pos _ (by simp)]
    · have hne : ¬ e0.1 = e.1 := by
        intro hh2
        exact hh.1 (hh2 ▸ List.mem_map.2 ⟨e, he2, rfl⟩)
      unfold dGet
      rw [List.find?_cons_of_neg _ (by simpa using hne)]
      exact ih hh.2 he2

/-- Keys of a tabulated rule list. -/
theorem dKeys_map_pair {l : List Sym} {F : Sym → List (List Sym)} :
    dKeys (l.map (fun v => (v, F v))) = l := by
  unfold dKeys
  rw [List.map_map]
  exact List.map_id l

/-! #### Soundness of the fixed-point pass: a member of the closure is a
seed or the head of a production whose whole body is in the closure. -/

/-- The inner fold of `closureStep` only appends. -/
theorem closureInner_subset (e1 : Sym) :
    ∀ (bodies : List (List Sym)) (s : List Sym),
      s ⊆ bodies.foldl
        (fun s prod => if (∀ p ∈ prod, p ∈ s) ∧ e1 ∉ s then s ++ [e1] else s) s := by
  intro bodies
  induction bodies with
  | nil => exact fun s a ha => ha
  | cons b bodies ih =>
    intro s a ha
    simp only [List.foldl_cons]
    refine ih _ ?_
    split
    · exact List.mem_append.2 (Or.inl ha)
    · exact ha

/-- Soundness of the inner fold of `closureStep`. -/
theorem closureInner_sound (e1 : Sym) :
    ∀ (bodies : List (List Sym)) (s : List Sym),
      ∀ v ∈ bodies.foldl
        (fun s prod => if (∀ p ∈ prod, p ∈ s) ∧ e1 ∉ s then s ++ [e1] else s) s,
      v ∈ s ∨ (v = e1 ∧ ∃ prod ∈ bodies, ∀ x ∈ prod,
        x ∈ bodies.foldl
          (fun s prod => if (∀ p ∈ prod, p ∈ s) ∧ e1 ∉ s then s ++ [e1] else s) s) := by
  intro bodies
  induction bodies with
  | nil => exact fun s v hv => Or.inl hv
  | cons b bodies ih =>
    intro s v hv
    simp only [List.foldl_cons] at hv ⊢
    rcases ih _ v hv with h | ⟨rfl, prod, hprod, hall⟩
    · by_cases hc : (∀ p ∈ b, p ∈ s) ∧ e1 ∉ s
      · rw [if_pos hc] at h
        rcases List.mem_append.1 h with h2 | h2
        · exact Or.inl h2
        · refine Or.inr ⟨by simpa using h2, b, by simp, ?_⟩
          intro x hx
          refine closureInner_subset e1 bodies _ ?_
          rw [if_pos hc]
          exact List.mem_append.2 (Or.inl (hc.1 x hx))
      · rw [if_neg hc] at h
        exact Or.inl h
    · exact Or.inr ⟨rfl, prod, by simp [hprod], hall⟩

/-- `closureStep` only appends (generalized over the entry list). -/
theorem closureOuter_subset :
    ∀ (l : List (Sym × List (List Sym))) (s : List Sym),
      s ⊆ l.foldl
        (fun s e =>
          e.2.foldl
            (fun s prod => if (∀ p ∈ prod, p ∈ s) ∧ e.1 ∉ s then s ++ [e.1] else s)
            s) s := by
  intro l
  induction l with
  | nil => exact fun s a ha => ha
  | cons e l ih =>
    intro s a ha
    simp only [List.foldl_cons]
    exact ih _ (closureInner_subset e.1 e.2 s ha)

/-- Soundness of one `closureStep` pass. -/
theorem closureStep_sound (rules : List (Sym × List (List Sym))) (s : List Sym) :
    ∀ v ∈ closureStep rules s,
      v ∈ s ∨ ∃ e ∈ rules, e.1 = v ∧ ∃ prod ∈ e.2,
        ∀ x ∈ prod, x ∈ closureStep rules s := by
  suffices h : ∀ (l : List (Sym × List (List Sym))) (s : List Sym),
      ∀ v ∈ l.foldl
        (fun s e =>
          e.2.foldl
            (fun s prod => if (∀ p ∈ prod, p ∈ s) ∧ e.1 ∉ s then s ++ [e.1] else s)
            s) s,
      v ∈ s ∨ ∃ e ∈ l, e.1 = v ∧ ∃ prod ∈ e.2,
        ∀ x ∈ prod, x ∈ l.foldl
          (fun s e =>
            e.2.foldl
              (fun s prod => if (∀ p ∈ prod, p ∈ s) ∧ e.1 ∉ s then s ++ [e.1] else s)
              s) s by
    intro v hv
    exact h rules s v hv
  intro l
  induction l with
  | nil => exact fun s v hv => Or.inl hv
  | cons e l ih =>
    intro s v hv
    simp only [List.foldl_cons] at hv ⊢
    rcases ih _ v hv with h | ⟨e2, he2, hk, prod, hprod, hall⟩
    · rcases closureInner_sound e.1 e.2 s v h with h2 | ⟨rfl, prod, hprod, hall⟩
      · exact Or.inl h2
      · refine Or.inr ⟨e, by simp, rfl, prod, hprod, ?_⟩
        intro x hx
        exact closureOuter_subset l _ (hall x hx)
    · exact Or.inr ⟨e2, by simp [he2], hk, prod, hprod, hall⟩

/-- Soundness of the fixed-point loop: every member of the result is a seed
or has a production whose body sits entirely inside the result. -/
theorem closureLoop_sound (rules : List (Sym × List (List Sym))) :
    ∀ (fuel : Nat) (s : List Sym), ∀ v ∈ closureLoop rules fuel s,
      v ∈ s ∨ ∃ e ∈ rules, e.1 = v ∧ ∃ prod ∈ e.2,
        ∀ x ∈ prod, x ∈ closureLoop rules fuel s := by
  intro fuel
  induction fuel with
  | zero => exact fun s v hv => Or.inl hv
  | succ fuel ih =>
    intro s v
    have hunf : closureLoop rules (fuel + 1) s
        = if (closureStep rules s).length = s.length then closureStep rules s
          else closureLoop rules fuel (closureStep rules s) := rfl
    rw [hunf]
    by_cases hlen : (closureStep rules s).length = s.length
    · rw [if_pos hlen]
      exact closureStep_sound rules s v
    · rw [if_neg hlen]
      intro hv
      rcases ih (closureStep rules s) v hv with h | ⟨e, he, hk, prod, hprod, hall⟩
      · rcases closureStep_sound rules s v h with h2 | ⟨e, he, hk, prod, hprod, hall⟩
        · exact Or.inl h2
        · refine Or.inr ⟨e, he, hk, prod, hprod, fun x hx => ?_⟩
          exact closureLoop_subset rules fuel (closureStep rules s) (hall x hx)
      · exact Or.inr ⟨e, he, hk, prod, hprod, hall⟩

/-! #### The worklist search: growth, soundness and closedness -/

/-- The inner fold of one `bfs` iteration: mark-and-push every unvisited
successor. -/
def bfsFold (succs vis rest : List Sym) : List Sym × List Sym :=
  succs.foldl (fun vq u => if u ∈ vq.1 then vq else (vq.1 ++ [u], u :: vq.2))
    (vis, rest)

/-- Unfolding `bfsFold` one successor at a time. -/
theorem bfsFold_cons (u : Sym) (succs vis rest : List Sym) :
    bfsFold (u :: succs) vis rest
      = if u ∈ vis then bfsFold succs vis rest
        else bfsFold succs (vis ++ [u]) (u :: rest) := by
  have h : bfsFold (u :: succs) vis rest
      = succs.foldl (fun vq u => if u ∈ vq.1 then vq else (vq.1 ++ [u], u :: vq.2))
          (if u ∈ vis then (vis, rest) else (vis ++ [u], u :: rest)) := rfl
  rw [h]
  by_cases hu : u ∈ vis
  · rw [if_pos hu, if_pos hu]
    rfl
  · rw [if_neg hu, if_neg hu]
    rfl

/-- One `bfs` iteration unfolded to `bfsFold`. -/
theorem bfsVisited_succ (edges : List (Sym × List Sym)) (fuel : Nat)
    (vis : List Sym) (v : Sym) (rest : List Sym) :
    bfsVisited edges (fuel + 1) vis (v :: rest)
      = bfsVisited edges fuel (bfsFold (dGet edges v []) vis rest).1
          (bfsFold (dGet edges v []) vis rest).2 := rfl

/-- Everything the inner fold of one `bfs` iteration does, in one bundle:
the visited list only grows, every successor ends visited, duplicate
freedom and the visited universe are kept, queue entries are old or newly
visited, the old queue survives, new visits are queued, and the two lists
grow by the same count. -/
theorem bfs_inner :
    ∀ (succs vis rest : List Sym),
      (∀ x ∈ vis, x ∈ (bfsFold succs vis rest).1)
      ∧ (∀ u ∈ succs, u ∈ (bfsFold succs vis rest).1)
      ∧ (vis.Nodup → (bfsFold succs vis rest).1.Nodup)
      ∧ (∀ x ∈ (bfsFold succs vis rest).1, x ∈ vis ∨ x ∈ succs)
      ∧ (∀ x ∈ (bfsFold succs vis rest).2, x ∈ rest ∨ x ∈ (bfsFold succs vis rest).1)
      ∧ (∀ x ∈ rest, x ∈ (bfsFold succs vis rest).2)
      ∧ (∀ x ∈ (bfsFold succs vis rest).1, x ∈ vis ∨ x ∈ (bfsFold succs vis rest).2)
      ∧ (∃ d, (bfsFold succs vis rest).1.length = vis.length + d
          ∧ (bfsFold succs vis rest).2.length = rest.length + d) := by
  intro succs
  induction succs with
  | nil =>
    intro vis rest
    exact ⟨fun x hx => hx, by simp, fun h => h, fun x hx => Or.inl hx,
      fun x hx => Or.inl hx, fun x hx => hx, fun x hx => Or.inl hx, 0, rfl, rfl⟩
  | cons u succs ih =>
    intro vis rest
    rw [bfsFold_cons]
    by_cases hu : u ∈ vis
    · rw [if_pos hu]
      obtain ⟨h1, h2, h3, h4, h5, h6, h7, h8⟩ := ih vis rest
      refine ⟨h1, ?_, h3, ?_, h5, h6, h7, h8⟩
      · intro u' hu'
        rcases List.mem_cons.1 hu' with rfl | hu2
        · exact h1 u' hu
        · exact h2 u' hu2
      · intro x hx
        rcases h4 x hx with h | h
        · exact Or.inl h
        · exact Or.inr (by simp [h])
    · rw [if_neg hu]
      obtain ⟨h1, h2, h3, h4, h5, h6, h7, h8⟩ := ih (vis ++ [u]) (u :: rest)
      refine ⟨?_, ?_, ?_, ?_, ?_, ?_, ?_, ?_⟩
      · intro x hx
        exact h1 x (List.mem_append.2 (Or.inl hx))
      · intro u' hu'
        rcases List.mem_cons.1 hu' with rfl | hu2
        · exact h1 u' (List.mem_append.2 (Or.inr (by simp)))
        · exact h2 u' hu2
      · intro hnd
        exact h3 (by simp [List.nodup_append, hnd, hu])
      · intro x hx
        rcases h4 x hx with h | h
        · rcases List.mem_append.1 h with h2 | h2
          · exact Or.inl h2
          · exact Or.inr (by simp at h2; simp [h2])
        · exact Or.inr (by simp [h])
      · intro x hx
        rcases h5 x hx with h | h
        · rcases List.mem_cons.1 h with rfl | h2
          · exact Or.inr (h1 x (List.mem_append.2 (Or.inr (by simp))))
          · exact Or.inl h2
        · exact Or.inr h
      · intro x hx
        exact h6 x (by simp [hx])
      · intro x hx
        rcases h7 x hx with h | h
        · rcases List.mem_append.1 h with h2 | h2
          · exact Or.inl h2
          · refine Or.inr (h6 x ?_)
            simp at h2
            simp [h2]
        · exact Or.inr h
      · obtain ⟨d, hd1, hd2⟩ := h8
        refine ⟨d + 1, ?_, ?_⟩
        · rw [hd1]
          simp only [List.length_append, List.length_singleton]
          omega
        · rw [hd2]
          simp only [List.length_cons]
          omega

/-- The worklist search only grows the visited list. -/
theorem bfs_superset (edges : List (Sym × List Sym)) :
    ∀ (fuel : Nat) (vis q : List Sym), ∀ x ∈ vis, x ∈ bfsVisited edges fuel vis q := by
  intro fuel
  induction fuel with
  | zero => exact fun vis q x hx => hx
  | succ fuel ih =>
    intro vis q x hx
    cases q with
    | nil => exact hx
    | cons v rest =>
      rw [bfsVisited_succ]
      exact ih _ _ x ((bfs_inner (dGet edges v []) vis rest).1 x hx)

/-- Soundness of the worklist search: every visited vertex is reachable
from the source along the edge dictionary. -/
theorem bfs_sound (edges : List (Sym × List Sym)) (src : Sym) :
    ∀ (fuel : Nat) (vis q : List Sym),
      (∀ x ∈ vis, Relation.ReflTransGen (fun a b => b ∈ dGet edges a []) src x) →
      (∀ x ∈ q, x ∈ vis) →
      ∀ v ∈ bfsVisited edges fuel vis q,
        Relation.ReflTransGen (fun a b => b ∈ dGet edges a []) src v := by
  intro fuel
  induction fuel with
  | zero => exact fun vis q hvis _ v hv => hvis v hv
  | succ fuel ih =>
    intro vis q hvis hq v hv
    cases q with
    | nil => exact hvis v hv
    | cons v0 rest =>
      rw [bfsVisited_succ] at hv
      obtain ⟨h1, h2, h3, h4, h5, h6, h7, h8⟩ := bfs_inner (dGet edges v0 []) vis rest
      refine ih _ _ ?_ ?_ v hv
      · intro x hx
        rcases h4 x hx with h | h
        · exact hvis x h
        · exact (hvis v0 (hq v0 (by simp))).tail h
      · intro x hx
        rcases h5 x hx with h | h
        · exact h1 x (hq x (by simp [h]))
        · exact h

/-- Closedness of the worklist search: with fuel past the potential
`2|U| + |q|`, the visited list is closed under the edge dictionary. -/
theorem bfs_closed {edges : List (Sym × List Sym)} {U : List Sym}
    (hU : ∀ a : Sym, ∀ u ∈ dGet edges a [], u ∈ U) :
    ∀ (fuel : Nat) (vis q : List Sym),
      vis.Nodup → (∀ x ∈ vis, x ∈ U) → (∀ x ∈ q, x ∈ vis) →
      (∀ v ∈ vis, v ∈ q ∨ ∀ u ∈ dGet edges v [], u ∈ vis) →
      2 * U.length + q.length + 1 ≤ fuel + 2 * vis.length →
      ∀ v ∈ bfsVisited edges fuel vis q, ∀ u ∈ dGet edges v [],
        u ∈ bfsVisited edges fuel vis q := by
  intro fuel
  induction fuel with
  | zero =>
    intro vis q hnd hsub hq hcl hpot
    have hlen : vis.length ≤ U.length :=
      (List.subperm_of_subset hnd hsub).length_le
    exact absurd hpot (by omega)
  | succ fuel ih =>
    intro vis q hnd hsub hq hcl hpot
    cases q with
    | nil =>
      intro v hv u hu
      rcases hcl v hv with h | h
      · simp at h
      · exact h u hu
    | cons v0 rest =>
      rw [bfsVisited_succ]
      obtain ⟨h1, h2, h3, h4, h5, h6, h7, h8⟩ := bfs_inner (dGet edges v0 []) vis rest
      refine ih _ _ (h3 hnd) ?_ ?_ ?_ ?_
      · intro x hx
        rcases h4 x hx with h | h
        · exact hsub x h
        · exact hU v0 x h
      · intro x hx
        rcases h5 x hx with h | h
        · exact h1 x (hq x (by simp [h]))
        · exact h
      · intro w hw
        rcases h7 w hw with h | h
        · rcases hcl w h with hh | hh
          · rcases List.mem_cons.1 hh with rfl | hh2
            · exact Or.inr (fun u hu => h2 u hu)
            · exact Or.inl (h6 w hh2)
          · exact Or.inr (fun u hu => h1 u (hh u hu))
        · exact Or.inl h
      · obtain ⟨d, hd1, hd2⟩ := h8
        rw [hd1, hd2]
        simp only [List.length_cons] at hpot
        omega

/-! #### The edge dictionaries: initial values, soundness, completeness -/

/-- The freshly initialised edge dictionary holds only empty lists. -/
theorem initEdges_empty {L : List Sym} {a u : Sym}
    (hu : u ∈ dGet (L.foldl (fun d v => dSet d v ([] : List Sym)) []) a []) :
    False := by
  rcases dGet_cases (L.foldl (fun d v => dSet d v ([] : List Sym)) []) a []
    with h | ⟨e, he, _, h⟩
  · rw [h] at hu
    simp at hu
  · have he2 : e ∈ L.foldl
        (fun d k => dSet d k ((fun _ => ([] : List Sym)) k)) [] := he
    rcases mem_foldl_dSetF he2 with h0 | ⟨_, hval⟩
    · simp at h0
    · rw [h, hval] at hu
      simp at hu

/-- Soundness of `unit_edges`' inner fold over one entry's bodies. -/
theorem unitInner_sound (g1vars : List Sym) (e1 : Sym) :
    ∀ (bodies : List (List Sym)) (d : List (Sym × List Sym)) (a u : Sym),
      u ∈ dGet (bodies.foldl
        (fun d body =>
          if body.length = 1 ∧ body.headD "" ∈ g1vars then
            dSet d e1 (osetAdd (dGet d e1 []) (body.headD ""))
          else d) d) a [] →
      u ∈ dGet d a [] ∨ ∃ body ∈ bodies, body.length = 1
        ∧ body.headD "" ∈ g1vars ∧ a = e1 ∧ u = body.headD "" := by
  intro bodies
  induction bodies with
  | nil => exact fun d a u hu => Or.inl hu
  | cons b bodies ih =>
    intro d a u hu
    simp only [List.foldl_cons] at hu
    rcases ih _ a u hu with h | ⟨body, hb, hc1, hc2, hc3, hc4⟩
    · by_cases hc : b.length = 1 ∧ b.headD "" ∈ g1vars
      · rw [if_pos hc] at h
        by_cases ha : a = e1
        · subst ha
          rw [dGet_dSet_self] at h
          rcases mem_osetAdd_iff.1 h with h2 | rfl
          · exact Or.inl h2
          · exact Or.inr ⟨b, by simp, hc.1, hc.2, rfl, rfl⟩
        · rw [dGet_dSet_ne ha] at h
          exact Or.inl h
      · rw [if_neg hc] at h
        exact Or.inl h
    · exact Or.inr ⟨body, by simp [hb], hc1, hc2, hc3, hc4⟩

/-- Soundness of `unit_edges`: every edge comes from a unit production. -/
theorem unitEdges_sound {h : Grammar} {a u : Sym}
    (hu : u ∈ dGet (unitEdges h) a []) :
    ∃ e ∈ h.rules, e.1 = a ∧ ∃ body ∈ e.2,
      body.length = 1 ∧ body.headD "" ∈ h.vars ∧ u = body.headD "" := by
  suffices haux : ∀ (rules : List (Sym × List (List Sym)))
      (d : List (Sym × List Sym)) (a u : Sym),
      u ∈ dGet (rules.foldl
        (fun d e =>
          e.2.foldl
            (fun d body =>
              if body.length = 1 ∧ body.headD "" ∈ h.vars then
                dSet d e.1 (osetAdd (dGet d e.1 []) (body.headD ""))
              else d) d) d) a [] →
      u ∈ dGet d a [] ∨ ∃ e ∈ rules, e.1 = a ∧ ∃ body ∈ e.2,
        body.length = 1 ∧ body.headD "" ∈ h.vars ∧ u = body.headD "" by
    have hu' : u ∈ dGet (h.rules.foldl
        (fun d e =>
          e.2.foldl
            (fun d body =>
              if body.length = 1 ∧ body.headD "" ∈ h.vars then
                dSet d e.1 (osetAdd (dGet d e.1 []) (body.headD ""))
              else d) d)
        (h.vars.foldl (fun d v => dSet d v []) [])) a [] := hu
    rcases haux h.rules _ a u hu' with h0 | hres
    · exact absurd h0 (fun hh => initEdges_empty hh)
    · exact hres
  intro rules
  induction rules with
  | nil => exact fun d a u hu2 => Or.inl hu2
  | cons e rules ih =>
    intro d a u hu2
    simp only [List.foldl_cons] at hu2
    rcases ih _ a u hu2 with h2 | ⟨e2, he2, hk, body, hb, hres⟩
    · rcases unitInner_sound h.vars e.1 e.2 d a u h2 with h3 | ⟨body, hb, hc1, hc2, hc3, hc4⟩
      · exact Or.inl h3
      · exact Or.inr ⟨e, by simp, hc3.symm, body, hb, hc1, hc2, hc4⟩
    · exact Or.inr ⟨e2, by simp [he2], hk, body, hb, hres⟩

/-- Soundness of `unreach_edges`' per-symbol fold: targets are declared
variables. -/
theorem unreachSym_sound (gvars : List Sym) (e1 : Sym) :
    ∀ (body : List Sym) (d : List (Sym × List Sym)) (a u : Sym),
      u ∈ dGet (body.foldl
        (fun d s => if s ∈ gvars then dSet d e1 (osetAdd (dGet d e1 []) s) else d)
        d) a [] →
      u ∈ dGet d a [] ∨ u ∈ gvars := by
  intro body
  induction body with
  | nil => exact fun d a u hu => Or.inl hu
  | cons x body ih =>
    intro d a u hu
    simp only [List.foldl_cons] at hu
    rcases ih _ a u hu with h | h
    · by_cases hx : x ∈ gvars
      · rw [if_pos hx] at h
        by_cases ha : a = e1
        · subst ha
          rw [dGet_dSet_self] at h
          rcases mem_osetAdd_iff.1 h with h2 | rfl
          · exact Or.inl h2
          · exact Or.inr hx
        · rw [dGet_dSet_ne ha] at h
          exact Or.inl h
      · rw [if_neg hx] at h
        exact Or.inl h
    · exact Or.inr h

/-- Soundness of `unreach_edges`' per-body fold. -/
theorem unreachBody_sound (gvars : List Sym) (e1 : Sym) :
    ∀ (bodies : List (List Sym)) (d : List (Sym × List Sym)) (a u : Sym),
      u ∈ dGet (bodies.foldl
        (fun d body =>
          body.foldl
            (fun d s => if s ∈ gvars then dSet d e1 (osetAdd (dGet d e1 []) s) else d)
            d) d) a [] →
      u ∈ dGet d a [] ∨ u ∈ gvars := by
  intro bodies
  induction bodies with
  | nil => exact fun d a u hu => Or.inl hu
  | cons b bodies ih =>
    intro d a u hu
    simp only [List.foldl_cons] at hu
    rcases ih _ a u hu with h | h
    · exact unreachSym_sound gvars e1 b d a u h
    · exact Or.inr h

/-- Soundness of `unreach_edges`: every edge target is a declared
variable. -/
theorem unreachEdges_sound {h : Grammar} {a u : Sym}
    (hu : u ∈ dGet (unreachEdges h) a []) : u ∈ h.vars := by
  suffices haux : ∀ (rules : List (Sym × List (List Sym)))
      (d : List (Sym × List Sym)) (a u : Sym),
      u ∈ dGet (rules.foldl
        (fun d e =>
          e.2.foldl
            (fun d body =>
              body.foldl
                (fun d s =>
                  if s ∈ h.vars then dSet d e.1 (osetAdd (dGet d e.1 []) s) else d)
                d)
            d) d) a [] →
      u ∈ dGet d a [] ∨ u ∈ h.vars by
    have hu' : u ∈ dGet (h.rules.foldl
        (fun d e =>
          e.2.foldl
            (fun d body =>
              body.foldl
                (fun d s =>
                  if s ∈ h.vars then dSet d e.1 (osetAdd (dGet d e.1 []) s) else d)
                d)
            d)
        (h.vars.foldl (fun d v => dSet d v []) [])) a [] := hu
    rcases haux h.rules _ a u hu' with h0 | hres
    · exact absurd h0 (fun hh => initEdges_empty hh)
    · exact hres
  intro rules
  induction rules with
  | nil => exact fun d a u hu2 => Or.inl hu2
  | cons e rules ih =>
    intro d a u hu2
    simp only [List.foldl_cons] at hu2
    rcases ih _ a u hu2 with h2 | h2
    · exact unreachBody_sound h.vars e.1 e.2 d a u h2
    · exact Or.inr h2

/-- Per-key growth of one conditional edge write. -/
theorem dGet_mono_symStep (gvars : List Sym) (e1 : Sym)
    (d : List (Sym × List Sym)) (s : Sym) (k : Sym) :
    ∀ x ∈ dGet d k [],
      x ∈ dGet (if s ∈ gvars then dSet d e1 (osetAdd (dGet d e1 []) s) else d) k [] := by
  intro x hx
  split
  · by_cases hk : k = e1
    · subst hk
      rw [dGet_dSet_self]
      exact subset_osetAdd _ _ hx
    · rw [dGet_dSet_ne hk]
      exact hx
  · exact hx

/-- Per-key growth of the per-symbol fold. -/
theorem dGet_mono_symFold (gvars : List Sym) (e1 : Sym) :
    ∀ (body : List Sym) (d : List (Sym × List Sym)) (k : Sym),
      ∀ x ∈ dGet d k [],
        x ∈ dGet (body.foldl
          (fun d s => if s ∈ gvars then dSet d e1 (osetAdd (dGet d e1 []) s) else d)
          d) k [] := by
  intro body
  induction body with
  | nil => exact fun d k x hx => hx
  | cons s body ih =>
    intro d k x hx
    simp only [List.foldl_cons]
    exact ih _ k x (dGet_mono_symStep gvars e1 d s k x hx)

/-- Per-key growth of the per-body fold. -/
theorem dGet_mono_bodyFold (gvars : List Sym) (e1 : Sym) :
    ∀ (bodies : List (List Sym)) (d : List (Sym × List Sym)) (k : Sym),
      ∀ x ∈ dGet d k [],
        x ∈ dGet (bodies.foldl
          (fun d body =>
            body.foldl
              (fun d s => if s ∈ gvars then dSet d e1 (osetAdd (dGet d e1 []) s) else d)
              d)
          d) k [] := by
  intro bodies
  induction bodies with
  | nil => exact fun d k x hx => hx
  | cons b bodies ih =>
    intro d k x hx
    simp only [List.foldl_cons]
    exact ih _ k x (dGet_mono_symFold gvars e1 b d k x hx)

/-- A declared symbol of a processed body is recorded as an edge. -/
theorem unreach_sym_present (gvars : List Sym) (e1 : Sym) :
    ∀ (body : List Sym) (d : List (Sym × List Sym)) (s : Sym),
      s ∈ body → s ∈ gvars →
      s ∈ dGet (body.foldl
        (fun d s => if s ∈ gvars then dSet d e1 (osetAdd (dGet d e1 []) s) else d)
        d) e1 [] := by
  intro body
  induction body with
  | nil => intro d s hs; simp at hs
  | cons x body ih =>
    intro d s hs hsv
    simp only [List.foldl_cons]
    rcases List.mem_cons.1 hs with rfl | hs2
    · refine dGet_mono_symFold gvars e1 body _ e1 s ?_
      rw [if_pos hsv, dGet_dSet_self]
      exact mem_osetAdd_iff.2 (Or.inr rfl)
    · exact ih _ s hs2 hsv

/-- A declared symbol of a listed body is recorded after the per-body
fold. -/
theorem unreach_body_present (gvars : List Sym) (e1 : Sym) :
    ∀ (bodies : List (List Sym)) (d : List (Sym × List Sym)) (body : List Sym)
      (s : Sym), body ∈ bodies → s ∈ body → s ∈ gvars →
      s ∈ dGet (bodies.foldl
        (fun d body =>
          body.foldl
            (fun d s => if s ∈ gvars then dSet d e1 (osetAdd (dGet d e1 []) s) else d)
            d) d) e1 [] := by
  intro bodies
  induction bodies with
  | nil =>
    intro d body s hb
    simp at hb
  | cons b bodies ih =>
    intro d body s hb hs hsv
    simp only [List.foldl_cons]
    rcases List.mem_cons.1 hb with rfl | hb2
    · exact dGet_mono_bodyFold gvars e1 bodies _ e1 s
        (unreach_sym_present gvars e1 body d s hs hsv)
    · exact ih _ body s hb2 hs hsv

/-- Per-key growth of the whole per-rule fold of `unreach_edges`. -/
theorem dGet_mono_ruleFold (gvars : List Sym) :
    ∀ (rules : List (Sym × List (List Sym))) (d : List (Sym × List Sym))
      (k x : Sym), x ∈ dGet d k [] →
      x ∈ dGet (rules.foldl
        (fun d e =>
          e.2.foldl
            (fun d body =>
              body.foldl
                (fun d s =>
                  if s ∈ gvars then dSet d e.1 (osetAdd (dGet d e.1 []) s) else d)
                d)
            d) d) k [] := by
  intro rules
  induction rules with
  | nil => exact fun d k x hx => hx
  | cons e0 rules ih =>
    intro d k x hx
    simp only [List.foldl_cons]
    exact ih _ k x (dGet_mono_bodyFold gvars e0.1 e0.2 d k x hx)

/-- Completeness of `unreach_edges`: every declared symbol occurring in a
body of `e` is an edge target of `e`'s head. -/
theorem unreachEdges_complete {h : Grammar} {e : Sym × List (List Sym)}
    (he : e ∈ h.rules) {body : List Sym} (hb : body ∈ e.2) {s : Sym}
    (hs : s ∈ body) (hsv : s ∈ h.vars) :
    s ∈ dGet (unreachEdges h) e.1 [] := by
  suffices haux : ∀ (rules : List (Sym × List (List Sym)))
      (d : List (Sym × List Sym)),
      e ∈ rules →
      s ∈ dGet (rules.foldl
        (fun d e =>
          e.2.foldl
            (fun d body =>
              body.foldl
                (fun d s =>
                  if s ∈ h.vars then dSet d e.1 (osetAdd (dGet d e.1 []) s) else d)
                d)
            d) d) e.1 [] by
    exact haux h.rules _ he
  intro rules
  induction rules with
  | nil =>
    intro d hmem
    simp at hmem
  | cons e0 rules ih =>
    intro d hmem
    simp only [List.foldl_cons]
    rcases List.mem_cons.1 hmem with rfl | hmem2
    · exact dGet_mono_ruleFold h.vars rules _ e.1 s
        (unreach_body_present h.vars e.1 e.2 d body s hb hs hsv)
    · exact ih _ hmem2

/-- Stage 2, shape part: every non-epsilon production of `remove_unit`'s
output is a nonempty non-unit string of the input's symbols. -/
theorem removeUnit_shape {h : Grammar}
    (hin : ∀ e ∈ h.rules, ∀ q ∈ e.2, ¬ q = ["&"] →
      ¬ q = [] ∧ ∀ s ∈ q, s ∈ h.vars ∨ s ∈ h.terminals) :
    ∀ e ∈ (removeUnit h).rules, ∀ p ∈ e.2, ¬ p = ["&"] →
      ¬ p = [] ∧ (∀ s ∈ p, s ∈ h.vars ∨ s ∈ h.terminals)
        ∧ (1 < p.length ∨ ¬ p.headD "" ∈ h.vars) := by
  intro e he p hp hpe
  rcases List.mem_map.1 he with ⟨v, hv, heq⟩
  rw [← heq] at hp
  obtain ⟨c, _, hpc, hcond⟩ := mem_ruPool_src hp
  rcases dGet_cases h.rules c ([] : List (List Sym)) with hget | ⟨e0, he0, hkey0, hget⟩
  · rw [hget] at hpc
    simp at hpc
  · rw [hget] at hpc
    obtain ⟨h1, h2⟩ := hin e0 he0 p hpc hpe
    exact ⟨h1, h2, hcond⟩

/-- Stage 2, epsilon part: when the input's epsilon production sits only at
the start and no unit production mentions the start, the pooled epsilon
production sits only at the start too. -/
theorem removeUnit_eps {h : Grammar}
    (hin : ∀ e ∈ h.rules, ∀ q ∈ e.2, q = ["&"] → e.1 = h.start)
    (hnoIn : ∀ a : Sym, ¬ h.start ∈ dGet (unitEdges h) a []) :
    ∀ e ∈ (removeUnit h).rules, ∀ p ∈ e.2, p = ["&"] → e.1 = h.start := by
  intro e he p hp hpe
  subst hpe
  rcases List.mem_map.1 he with ⟨v, hv, heq⟩
  rw [← heq] at hp ⊢
  obtain ⟨c, hcvis, hpc, _⟩ := mem_ruPool_src hp
  have hc : c = h.start := by
    rcases dGet_cases h.rules c ([] : List (List Sym)) with hget | ⟨e0, he0, hk0, hget⟩
    · rw [hget] at hpc
      simp at hpc
    · rw [hget] at hpc
      rw [← hk0]
      exact hin e0 he0 _ hpc rfl
  rw [hc] at hcvis
  have hrtg := bfs_sound (unitEdges h) v (2 * h.vars.length + 2) [v] [v]
    (fun x hx => by
      rcases List.mem_singleton.1 hx with rfl
      exact Relation.ReflTransGen.refl)
    (fun x hx => hx) h.start hcvis
  rcases Relation.ReflTransGen.cases_tail hrtg with hend | ⟨mid, _, hstep⟩
  · exact hend.symm
  · exact absurd hstep (hnoIn mid)

/-- Stage 3: every production surviving `remove_unproductives` (when the
start stays productive) was a production of the same key of the input, and
is made of productive symbols. -/
theorem removeUnproductives_entry {h : Grammar}
    (hstartp : (rupRules2 h).any (fun e => e.1 = h.start) = true) :
    ∀ e ∈ (removeUnproductives h).rules, ∀ p ∈ e.2,
      (∃ e0 ∈ h.rules, e0.1 = e.1 ∧ p ∈ e0.2) ∧ ∀ s ∈ p, s ∈ productivesOf h := by
  intro e he p hp
  have hif : ¬ ¬ (rupRules2 h).any (fun e => e.1 = h.start) = true :=
    fun hneg => hneg hstartp
  rw [show removeUnproductives h
      = { h with vars := h.vars.filter (fun v => ¬ v ∈ rupToRemove h)
                 rules := rupRules2 h } from by
    unfold removeUnproductives
    rw [if_neg hif]] at he
  have he2 : e ∈ rupRules2 h := he
  have he3 : e ∈ rupNewRules h := (mem_foldl_dDel.1 he2).1
  have he4 : e ∈ h.vars.foldl
      (fun d k => dSet d k ((fun v => rupKeep (productivesOf h) (dGet h.rules v [])) k))
      ([] : List (Sym × List (List Sym))) := he3
  rcases mem_foldl_dSetF he4 with h0 | ⟨_, hval⟩
  · simp at h0
  · rw [hval] at hp
    rcases mem_foldl_osetAdd_cond_inv
      (C := fun q : List Sym => ∀ s ∈ q, s ∈ productivesOf h) hp with h0 | ⟨hm, hprod⟩
    · simp at h0
    · refine ⟨?_, hprod⟩
      rcases dGet_cases h.rules e.1 ([] : List (List Sym)) with hget | ⟨e0, he0, hk0, hget⟩
      · rw [hget] at hm
        simp at hm
      · rw [hget] at hm
        exact ⟨e0, he0, hk0, hm⟩

/-- A productive variable keeps at least one production, so
`remove_unproductives` does not delete it. -/
theorem productive_var_survives {h : Grammar}
    (hnd : (dKeys h.rules).Nodup) {s : Sym}
    (hs : s ∈ h.vars) (hsnt : ¬ s ∈ h.terminals) (hsamp : ¬ s = "&")
    (hsp : s ∈ productivesOf h) :
    ¬ s ∈ rupToRemove h := by
  intro hrem
  rcases closureLoop_sound h.rules (h.rules.length + 1)
      (osetAdd (h.terminals.foldl osetAdd []) "&") s hsp
    with hinit | ⟨e, he, hk, prod, hprod, hall⟩
  · rcases mem_osetAdd_iff.1 hinit with h0 | h0
    · rcases mem_foldl_osetAdd_inv h0 with h1 | h1
      · simp at h1
      · exact hsnt h1
    · exact hsamp h0
  · have hget : dGet h.rules s [] = e.2 := by
      rw [← hk]
      exact dGet_eq_of_mem_nodup hnd he []
    have hkeep : prod ∈ rupKeep (productivesOf h) (dGet h.rules s []) := by
      rw [hget]
      exact mem_foldl_osetAdd_cond
        (C := fun q : List Sym => ∀ x ∈ q, x ∈ productivesOf h)
        (Or.inr ⟨hprod, hall⟩)
    have hval : dGet (rupNewRules h) s []
        = rupKeep (productivesOf h) (dGet h.rules s []) :=
      dGet_foldl_dSet (fun v => rupKeep (productivesOf h) (dGet h.rules v []))
        (Or.inr hs)
    have hne : ¬ (dGet (rupNewRules h) s []).length = 0 := by
      rw [hval]
      intro hlen
      rw [List.length_eq_zero.1 hlen] at hkeep
      simp at hkeep
    rcases mem_foldl_osetAdd_cond_inv
      (C := fun v => (dGet (rupNewRules h) v []).length = 0) hrem with h0 | ⟨_, hc⟩
    · simp at h0
    · exact hne hc

/-- Stage 4: a kept entry of `remove_unreachables` is an input entry whose
key the start reaches. -/
theorem removeUnreachables_entry {h : Grammar}
    (hkeys : ∀ e ∈ h.rules, e.1 ∈ h.vars) :
    ∀ e ∈ (removeUnreachables h).rules, e ∈ h.rules ∧ e.1 ∈ urVisited h := by
  intro e he
  have h2 := mem_foldl_dDel.1 he
  refine ⟨h2.1, ?_⟩
  by_contra hvis
  exact h2.2 (List.mem_filter.2 ⟨hkeys e h2.1, by simpa using hvis⟩)

/-- The replacement pair of one position of `replace_terminals`: the
(possibly extended) state and the isolating variable. -/
def rtRepl (g0vars : List Sym) (st : RTSt) (symbol : Sym) : RTSt × Sym :=
  match varToTerminal g0vars st symbol with
  | some v => (st, v)
  | none => rtCreate st symbol

/-- One position of `replace_terminals`' per-production loop, as a named
step function. -/
def rtStep (g0vars terminals : List Sym) (sc : RTSt × List Sym) (i : Nat) :
    RTSt × List Sym :=
  if sc.2.getD i "" ∈ terminals then
    ((rtRepl g0vars sc.1 (sc.2.getD i "")).1,
     sc.2.mapIdx (fun j c =>
       if j ≥ i ∧ c = sc.2.getD i "" then (rtRepl g0vars sc.1 (sc.2.getD i "")).2
       else c))
  else sc

/-- `rtProd` is the fold of `rtStep` over the position range. -/
theorem rtProd_eq (g0vars terminals : List Sym) (st : RTSt) (p : List Sym) :
    rtProd g0vars terminals st p
      = if p.length ≥ 2 then
          (List.range p.length).foldl (rtStep g0vars terminals) (st, p)
        else (st, p) := rfl

/-- `var_to_terminal` only returns declared or previously minted
variables. -/
theorem varToTerminal_mem {g0vars : List Sym} {st : RTSt} {sym v : Sym}
    (h : varToTerminal g0vars st sym = some v) :
    v ∈ g0vars ∨ v ∈ st.toAddVar := by
  unfold varToTerminal at h
  split at h
  case h_1 v' heq =>
    cases h
    exact Or.inl (List.mem_of_find?_eq_some heq)
  case h_2 heq =>
    exact Or.inr (List.mem_of_find?_eq_some h)

/-- The replacement step preserves the keyed state invariant, only grows the
minted set, and returns a declared or minted replacement variable. -/
theorem rtRepl_spec {g : Grammar} {S : Sym}
    (hdisj : ∀ v ∈ g.vars, ¬ v ∈ g.terminals)
    (hampT : ¬ "&" ∈ g.terminals)
    {st : RTSt} (hinv : rtInv g S st) {symbol : Sym} (hsymT : symbol ∈ g.terminals) :
    rtInv g S (rtRepl g.vars st symbol).1
    ∧ st.toAddVar ⊆ (rtRepl g.vars st symbol).1.toAddVar
    ∧ ((rtRepl g.vars st symbol).2 ∈ g.vars
        ∨ (rtRepl g.vars st symbol).2 ∈ (rtRepl g.vars st symbol).1.toAddVar) := by
  obtain ⟨hself, hnewr⟩ := hinv
  unfold rtRepl
  cases hvt : varToTerminal g.vars st symbol with
  | some v =>
    refine ⟨⟨hself, hnewr⟩, fun a ha => ha, ?_⟩
    rcases varToTerminal_mem hvt with h | h
    · exact Or.inl h
    · exact Or.inr h
  | none =>
    refine ⟨⟨?_, ?_⟩, ?_, ?_⟩
    · intro v p hp
      have hp' : p ∈ dGet (dSet st.selfRules (rtName (st.newVId + 1)) [[symbol]])
          v [] := hp
      by_cases hv : v = rtName (st.newVId + 1)
      · subst hv
        rw [dGet_dSet_self] at hp'
        simp only [List.mem_singleton] at hp'
        subst hp'
        refine ⟨fun hco => ?_, fun _ => ⟨by simp, ?_, ?_⟩⟩
        · exfalso
          have hsm : symbol = "&" := by simpa using hco
          exact hampT (hsm ▸ hsymT)
        · intro x hx
          simp only [List.mem_singleton] at hx
          subst hx
          exact Or.inr hsymT
        · refine Or.inr ?_
          simp only [List.headD_cons]
          exact fun hmem => hdisj symbol hmem hsymT
      · rw [dGet_dSet_ne hv] at hp'
        exact hself v p hp'
    · intro e he p hp
      have he' : e ∈ dSet st.newRules (rtName (st.newVId + 1)) [[symbol]] := he
      rcases mem_dSet he' with ⟨hm, _⟩ | rfl
      · exact rtKProd_mono (subset_osetAdd _ _) (hnewr e hm p hp)
      · simp only [List.mem_singleton] at hp
        subst hp
        refine ⟨fun hco => ?_, fun _ => Or.inl ⟨rfl, hsymT⟩⟩
        exfalso
        have hsm : symbol = "&" := by simpa using hco
        exact hampT (hsm ▸ hsymT)
    · intro a ha
      exact subset_osetAdd _ _ ha
    · show rtName (st.newVId + 1) ∈ g.vars
        ∨ rtName (st.newVId + 1) ∈ osetAdd st.toAddVar (rtName (st.newVId + 1))
      exact Or.inr (mem_osetAdd_iff.2 (Or.inr rfl))

/-- The body update of one replacement: length preserved, symbols stay
justified, and the variable-only prefix grows by one position. -/
theorem mapIdx_replace_props {V T W W' : List Sym} {body q : List Sym} {i : Nat}
    {symbol r2 : Sym}
    (hq : q = body.mapIdx (fun j c => if j ≥ i ∧ c = symbol then r2 else c))
    (hi : i < body.length)
    (hsymi : body.getD i "" = symbol)
    (hW : W ⊆ W')
    (hr2 : r2 ∈ V ∨ r2 ∈ W')
    (hsym : ∀ s ∈ body, s ∈ V ∨ s ∈ T ∨ s ∈ W)
    (hpre : ∀ j, j < i → body.getD j "" ∈ V ∨ body.getD j "" ∈ W) :
    q.length = body.length
    ∧ (∀ s ∈ q, s ∈ V ∨ s ∈ T ∨ s ∈ W')
    ∧ (∀ j, j < i + 1 → q.getD j "" ∈ V ∨ q.getD j "" ∈ W') := by
  subst hq
  refine ⟨List.length_mapIdx, ?_, ?_⟩
  · intro s hs
    rcases List.mem_iff_getElem.1 hs with ⟨j, hj, hsj⟩
    have hj' : j < body.length := by
      rw [List.length_mapIdx] at hj
      exact hj
    rw [List.getElem_mapIdx] at hsj
    by_cases hcond : j ≥ i ∧ body[j] = symbol
    · rw [if_pos hcond] at hsj
      subst hsj
      rcases hr2 with h | h
      · exact Or.inl h
      · exact Or.inr (Or.inr h)
    · rw [if_neg hcond] at hsj
      subst hsj
      rcases hsym _ (List.getElem_mem hj') with h | h | h
      · exact Or.inl h
      · exact Or.inr (Or.inl h)
      · exact Or.inr (Or.inr (hW h))
  · intro j hj
    have hjb : j < body.length := by omega
    have hjq : j < (body.mapIdx fun j c =>
        if j ≥ i ∧ c = symbol then r2 else c).length := by
      rw [List.length_mapIdx]
      exact hjb
    rw [List.getD_eq_getElem _ _ hjq, List.getElem_mapIdx]
    by_cases hji : j < i
    · have hcond : ¬ (j ≥ i ∧ body[j] = symbol) := by
        intro hc
        exact absurd hc.1 (by omega)
      rw [if_neg hcond]
      have hh := hpre j hji
      rw [List.getD_eq_getElem _ _ hjb] at hh
      rcases hh with h | h
      · exact Or.inl h
      · exact Or.inr (hW h)
    · have hjeq : j = i := by omega
      subst hjeq
      have hbv : body[j] = symbol := by
        rw [← hsymi, List.getD_eq_getElem _ _ hjb]
      rw [if_pos ⟨Nat.le_refl _, hbv⟩]
      exact hr2

/-- One step of `replace_terminals`' per-production loop preserves the
state invariant and extends the variable-only prefix of the body. -/
theorem rtStep_spec {g : Grammar} {S : Sym}
    (hdisj : ∀ v ∈ g.vars, ¬ v ∈ g.terminals)
    (hampT : ¬ "&" ∈ g.terminals)
    {sc : RTSt × List Sym} {i : Nat} (hi : i < sc.2.length)
    (hinv : rtInv g S sc.1)
    (hsym : ∀ s ∈ sc.2, s ∈ g.vars ∨ s ∈ g.terminals ∨ s ∈ sc.1.toAddVar)
    (hpre : ∀ j, j < i → sc.2.getD j "" ∈ g.vars ∨ sc.2.getD j "" ∈ sc.1.toAddVar) :
    rtInv g S (rtStep g.vars g.terminals sc i).1
    ∧ sc.1.toAddVar ⊆ (rtStep g.vars g.terminals sc i).1.toAddVar
    ∧ (rtStep g.vars g.terminals sc i).2.length = sc.2.length
    ∧ (∀ s ∈ (rtStep g.vars g.terminals sc i).2,
        s ∈ g.vars ∨ s ∈ g.terminals ∨ s ∈ (rtStep g.vars g.terminals sc i).1.toAddVar)
    ∧ (∀ j, j < i + 1 →
        (rtStep g.vars g.terminals sc i).2.getD j "" ∈ g.vars
        ∨ (rtStep g.vars g.terminals sc i).2.getD j ""
            ∈ (rtStep g.vars g.terminals sc i).1.toAddVar) := by
  by_cases hterm : sc.2.getD i "" ∈ g.terminals
  case neg =>
    have hstep : rtStep g.vars g.terminals sc i = sc := by
      unfold rtStep
      rw [if_neg hterm]
    rw [hstep]
    refine ⟨hinv, fun a ha => ha, rfl, hsym, ?_⟩
    intro j hj
    by_cases hji : j < i
    · exact hpre j hji
    · have hje : j = i := by omega
      rw [hje]
      have hmem : sc.2.getD i "" ∈ sc.2 := by
        rw [List.getD_eq_getElem _ _ hi]
        exact List.getElem_mem hi
      rcases hsym _ hmem with h | h | h
      · exact Or.inl h
      · exact absurd h hterm
      · exact Or.inr h
  case pos =>
    have hstep : rtStep g.vars g.terminals sc i
        = ((rtRepl g.vars sc.1 (sc.2.getD i "")).1,
           sc.2.mapIdx (fun j c =>
             if j ≥ i ∧ c = sc.2.getD i "" then (rtRepl g.vars sc.1 (sc.2.getD i "")).2
             else c)) := by
      unfold rtStep
      rw [if_pos hterm]
    obtain ⟨hinv', hmono, hr2⟩ := rtRepl_spec hdisj hampT hinv hterm
    obtain ⟨hlen, hsyms, hprefix⟩ := mapIdx_replace_props rfl hi rfl hmono hr2 hsym hpre
    rw [hstep]
    exact ⟨hinv', hmono, hlen, hsyms, hprefix⟩

/-- The per-production loop of `replace_terminals`: after processing
positions `i, …, i+k-1` the invariant holds and the whole processed prefix
is declared or minted variables. -/
theorem rtLoop_spec {g : Grammar} {S : Sym}
    (hdisj : ∀ v ∈ g.vars, ¬ v ∈ g.terminals)
    (hampT : ¬ "&" ∈ g.terminals) :
    ∀ (k i : Nat) (sc : RTSt × List Sym),
      rtInv g S sc.1 →
      i + k = sc.2.length →
      (∀ s ∈ sc.2, s ∈ g.vars ∨ s ∈ g.terminals ∨ s ∈ sc.1.toAddVar) →
      (∀ j, j < i → sc.2.getD j "" ∈ g.vars ∨ sc.2.getD j "" ∈ sc.1.toAddVar) →
      rtInv g S ((List.range' i k).foldl (rtStep g.vars g.terminals) sc).1
      ∧ sc.1.toAddVar
          ⊆ ((List.range' i k).foldl (rtStep g.vars g.terminals) sc).1.toAddVar
      ∧ ((List.range' i k).foldl (rtStep g.vars g.terminals) sc).2.length
          = sc.2.length
      ∧ (∀ s ∈ ((List.range' i k).foldl (rtStep g.vars g.terminals) sc).2,
          s ∈ g.vars ∨ s ∈ g.terminals
            ∨ s ∈ ((List.range' i k).foldl (rtStep g.vars g.terminals) sc).1.toAddVar)
      ∧ (∀ j, j < i + k →
          ((List.range' i k).foldl (rtStep g.vars g.terminals) sc).2.getD j ""
            ∈ g.vars
          ∨ ((List.range' i k).foldl (rtStep g.vars g.terminals) sc).2.getD j ""
              ∈ ((List.range' i k).foldl (rtStep g.vars g.terminals) sc).1.toAddVar) := by
  intro k
  induction k with
  | zero =>
    intro i sc hinv hlen hsym hpre
    exact ⟨hinv, fun a ha => ha, rfl, hsym, by simpa using hpre⟩
  | succ k ih =>
    intro i sc hinv hlen hsym hpre
    have hi : i < sc.2.length := by omega
    rw [List.range'_succ i k 1]
    simp only [List.foldl_cons]
    obtain ⟨hinv', hmono, hlen', hsym', hpre'⟩ :=
      rtStep_spec hdisj hampT hi hinv hsym hpre
    have hlen2 : (i + 1) + k = (rtStep g.vars g.terminals sc i).2.length := by
      rw [hlen']
      omega
    obtain ⟨hinv2, hmono2, hlen3, hsym2, hpre2⟩ :=
      ih (i + 1) (rtStep g.vars g.terminals sc i) hinv' hlen2 hsym' hpre'
    refine ⟨hinv2, fun a ha => hmono2 (hmono ha), by rw [hlen3, hlen'], hsym2, ?_⟩
    intro j hj
    exact hpre2 j (by omega)

/-- `replace_terminals` on one production: the state invariant is kept, the
minted set grows, epsilon bodies come only from epsilon inputs, and every
other resulting body has the target shape. -/
theorem rtProd_spec {g : Grammar} {S : Sym}
    (hdisj : ∀ v ∈ g.vars, ¬ v ∈ g.terminals)
    (hampT : ¬ "&" ∈ g.terminals)
    {st : RTSt} (hinv : rtInv g S st) {p : List Sym}
    (hstruct : p = ["&"] ∨ (¬ p = [] ∧ (∀ s ∈ p, s ∈ g.vars ∨ s ∈ g.terminals)
      ∧ (1 < p.length ∨ ¬ p.headD "" ∈ g.vars))) :
    rtInv g S (rtProd g.vars g.terminals st p).1
    ∧ st.toAddVar ⊆ (rtProd g.vars g.terminals st p).1.toAddVar
    ∧ ((rtProd g.vars g.terminals st p).2 = ["&"] → p = ["&"])
    ∧ (¬ (rtProd g.vars g.terminals st p).2 = ["&"] →
        ((rtProd g.vars g.terminals st p).2.length = 1
          ∧ (rtProd g.vars g.terminals st p).2.headD "" ∈ g.terminals)
        ∨ (2 ≤ (rtProd g.vars g.terminals st p).2.length
          ∧ ∀ s ∈ (rtProd g.vars g.terminals st p).2,
              s ∈ g.vars ∨ s ∈ (rtProd g.vars g.terminals st p).1.toAddVar)) := by
  rw [rtProd_eq]
  rcases hstruct with rfl | ⟨hne, hsyms, hhd⟩
  · rw [if_neg (by decide : ¬ (["&"] : List Sym).length ≥ 2)]
    exact ⟨⟨hinv.1, hinv.2⟩, fun a ha => ha, fun _ => rfl, fun hne => absurd rfl hne⟩
  · by_cases h2 : p.length ≥ 2
    · rw [if_pos h2, List.range_eq_range' p.length]
      have hsym0 : ∀ s ∈ (st, p).2, s ∈ g.vars ∨ s ∈ g.terminals
          ∨ s ∈ (st, p).1.toAddVar := by
        intro s hs
        rcases hsyms s hs with h | h
        · exact Or.inl h
        · exact Or.inr (Or.inl h)
      obtain ⟨hinv', hmono, hlen, hsyml, hpre⟩ := rtLoop_spec hdisj hampT p.length 0
        (st, p) hinv (by simp) hsym0 (by intro j hj; omega)
      refine ⟨hinv', hmono, ?_, ?_⟩
      · intro hamp
        have h1' : ((List.range' 0 p.length).foldl (rtStep g.vars g.terminals)
            (st, p)).2.length = p.length := hlen
        rw [hamp] at h1'
        exfalso
        simp at h1'
        omega
      · intro _
        refine Or.inr ⟨?_, ?_⟩
        · have h1' : ((List.range' 0 p.length).foldl (rtStep g.vars g.terminals)
              (st, p)).2.length = p.length := hlen
          rw [h1']
          exact h2
        · intro s hs
          rcases List.mem_iff_getElem.1 hs with ⟨j, hj, hsj⟩
          have hj2 : j < 0 + p.length := by
            have h1' : ((List.range' 0 p.length).foldl (rtStep g.vars g.terminals)
                (st, p)).2.length = p.length := hlen
            have hj' : j < p.length := by
              rw [h1'] at hj
              exact hj
            omega
          have hh := hpre j hj2
          rw [List.getD_eq_getElem _ _ hj] at hh
          rw [← hsj]
          exact hh
    · rw [if_neg h2]
      refine ⟨⟨hinv.1, hinv.2⟩, fun a ha => ha, fun h => h, ?_⟩
      intro _
      refine Or.inl ?_
      cases p with
      | nil => exact absurd rfl hne
      | cons s t =>
        have hlen1 : t.length = 0 := by
          simp only [List.length_cons] at h2
          omega
        have ht : t = [] := List.length_eq_zero.1 hlen1
        subst ht
        refine ⟨rfl, ?_⟩
        rcases hsyms s (by simp) with h | h
        · rcases hhd with hh | hh
          · simp at hh
          · exact absurd h hh
        · exact h

/-- One production of `replace_terminals`' per-variable loop, named. -/
def rtPStep (g : Grammar) (sa : RTSt × List (List Sym)) (p : List Sym) :
    RTSt × List (List Sym) :=
  ((rtProd g.vars g.terminals sa.1 p).1,
   osetAdd sa.2 (rtProd g.vars g.terminals sa.1 p).2)

/-- One variable of `replace_terminals`' main loop, named. -/
def rtVStep (g : Grammar) (st : RTSt) (v : Sym) : RTSt :=
  { ((dGet st.selfRules v []).foldl (rtPStep g) (st, [])).1 with
    newRules :=
      dSet ((dGet st.selfRules v []).foldl (rtPStep g) (st, [])).1.newRules v
        ((dGet st.selfRules v []).foldl (rtPStep g) (st, [])).2 }

/-- `rtState` is the fold of the named variable step. -/
theorem rtState_eq (g : Grammar) :
    rtState g = g.vars.foldl (rtVStep g) ⟨0, [], g.rules, []⟩ := rfl

/-- The per-variable loop of `replace_terminals`: the invariant is kept and
every accumulated body has the keyed target shape for its variable. -/
theorem rtInner_spec {g : Grammar} {S v : Sym}
    (hdisj : ∀ u ∈ g.vars, ¬ u ∈ g.terminals)
    (hampT : ¬ "&" ∈ g.terminals) :
    ∀ (prods : List (List Sym)),
      (∀ p ∈ prods, (p = ["&"] → v = S) ∧ (¬ p = ["&"] →
        ¬ p = [] ∧ (∀ s ∈ p, s ∈ g.vars ∨ s ∈ g.terminals)
          ∧ (1 < p.length ∨ ¬ p.headD "" ∈ g.vars))) →
    ∀ (sa : RTSt × List (List Sym)), rtInv g S sa.1 →
    (∀ q ∈ sa.2, (q = ["&"] → v = S) ∧ (¬ q = ["&"] →
      (q.length = 1 ∧ q.headD "" ∈ g.terminals)
        ∨ (2 ≤ q.length ∧ ∀ s ∈ q, s ∈ g.vars ∨ s ∈ sa.1.toAddVar))) →
    rtInv g S (prods.foldl (rtPStep g) sa).1
    ∧ sa.1.toAddVar ⊆ (prods.foldl (rtPStep g) sa).1.toAddVar
    ∧ (∀ q ∈ (prods.foldl (rtPStep g) sa).2,
        (q = ["&"] → v = S) ∧ (¬ q = ["&"] →
          (q.length = 1 ∧ q.headD "" ∈ g.terminals)
            ∨ (2 ≤ q.length ∧ ∀ s ∈ q,
                s ∈ g.vars ∨ s ∈ (prods.foldl (rtPStep g) sa).1.toAddVar))) := by
  intro prods
  induction prods with
  | nil =>
    intro _ sa hinv hacc
    exact ⟨hinv, fun a ha => ha, hacc⟩
  | cons p prods ih =>
    intro hps sa hinv hacc
    simp only [List.foldl_cons]
    obtain ⟨hpe, hpstruct⟩ := hps p (by simp)
    have hstruct : p = ["&"] ∨ (¬ p = [] ∧ (∀ s ∈ p, s ∈ g.vars ∨ s ∈ g.terminals)
        ∧ (1 < p.length ∨ ¬ p.headD "" ∈ g.vars)) := by
      by_cases hamp : p = ["&"]
      · exact Or.inl hamp
      · exact Or.inr (hpstruct hamp)
    obtain ⟨hinv', hmono, heps, hshape⟩ := rtProd_spec hdisj hampT hinv hstruct
    have hacc' : ∀ q ∈ (rtPStep g sa p).2, (q = ["&"] → v = S) ∧ (¬ q = ["&"] →
        (q.length = 1 ∧ q.headD "" ∈ g.terminals)
          ∨ (2 ≤ q.length ∧ ∀ s ∈ q,
              s ∈ g.vars ∨ s ∈ (rtPStep g sa p).1.toAddVar)) := by
      intro q hq
      have hq' : q ∈ osetAdd sa.2 (rtProd g.vars g.terminals sa.1 p).2 := hq
      rcases mem_osetAdd_iff.1 hq' with h | rfl
      · obtain ⟨he1, he2⟩ := hacc q h
        refine ⟨he1, fun hne => ?_⟩
        rcases he2 hne with hl | ⟨hl, hs⟩
        · exact Or.inl hl
        · exact Or.inr ⟨hl, fun s hsm => (hs s hsm).imp id (fun hh => hmono hh)⟩
      · exact ⟨fun hamp => hpe (heps hamp), fun hne => hshape hne⟩
    obtain ⟨hinv2, hmono2, hacc2⟩ :=
      ih (fun q hq => hps q (by simp [hq])) (rtPStep g sa p) hinv' hacc'
    exact ⟨hinv2, fun a ha => hmono2 (hmono ha), hacc2⟩

/-- One variable step of `replace_terminals` preserves the invariant. -/
theorem rtVStep_spec {g : Grammar} {S : Sym}
    (hdisj : ∀ u ∈ g.vars, ¬ u ∈ g.terminals)
    (hampT : ¬ "&" ∈ g.terminals)
    {st : RTSt} {v : Sym} (hinv : rtInv g S st) :
    rtInv g S (rtVStep g st v) := by
  have hprods : ∀ p ∈ dGet st.selfRules v [],
      (p = ["&"] → v = S) ∧ (¬ p = ["&"] →
        ¬ p = [] ∧ (∀ s ∈ p, s ∈ g.vars ∨ s ∈ g.terminals)
          ∧ (1 < p.length ∨ ¬ p.headD "" ∈ g.vars)) := by
    intro p hp
    have hh := hinv.1 v p hp
    exact ⟨hh.1, hh.2⟩
  obtain ⟨hinv', hmono, hacc⟩ := rtInner_spec hdisj hampT
    (dGet st.selfRules v []) hprods (st, []) hinv (by simp)
  refine ⟨hinv'.1, ?_⟩
  intro e he p hp
  have he' : e ∈ dSet ((dGet st.selfRules v []).foldl (rtPStep g) (st, [])).1.newRules v
      ((dGet st.selfRules v []).foldl (rtPStep g) (st, [])).2 := he
  rcases mem_dSet he' with ⟨hm, _⟩ | rfl
  · exact hinv'.2 e hm p hp
  · exact hacc p hp

/-- The state after `replace_terminals`' main loop satisfies the invariant. -/
theorem rtState_spec {g : Grammar} {S : Sym}
    (hin : ∀ e ∈ g.rules, ∀ p ∈ e.2, preKProd g.vars g.terminals S e.1 p)
    (hdisj : ∀ u ∈ g.vars, ¬ u ∈ g.terminals)
    (hampT : ¬ "&" ∈ g.terminals) :
    rtInv g S (rtState g) := by
  rw [rtState_eq]
  suffices h : ∀ (L : List Sym) (st : RTSt), rtInv g S st →
      rtInv g S (L.foldl (rtVStep g) st) by
    refine h g.vars _ ⟨?_, by simp⟩
    intro v p hp
    have hp' : p ∈ dGet g.rules v [] := hp
    rcases dGet_cases g.rules v ([] : List (List Sym)) with hget | ⟨e0, he0, hk0, hget⟩
    · rw [hget] at hp'
      simp at hp'
    · rw [hget] at hp'
      have hh := hin e0 he0 p hp'
      rw [hk0] at hh
      exact hh
  intro L
  induction L with
  | nil => exact fun st hinv => hinv
  | cons v L ih =>
    intro st hinv
    simp only [List.foldl_cons]
    exact ih _ (rtVStep_spec hdisj hampT hinv)

/-- Stage 5: every production of `replace_terminals`' output is the keyed
epsilon (only at `S`), a lone terminal, or a sequence of at least two
declared (or minted) variables. -/
theorem replaceTerminals_keyed {g : Grammar} {S : Sym}
    (hin : ∀ e ∈ g.rules, ∀ p ∈ e.2, preKProd g.vars g.terminals S e.1 p)
    (hdisj : ∀ u ∈ g.vars, ¬ u ∈ g.terminals)
    (hampT : ¬ "&" ∈ g.terminals) :
    ∀ e ∈ (replaceTerminals g).rules, ∀ p ∈ e.2,
      (p = ["&"] → e.1 = S) ∧
      (¬ p = ["&"] →
        (p.length = 1 ∧ p.headD "" ∈ (replaceTerminals g).terminals)
        ∨ (2 ≤ p.length ∧ ∀ s ∈ p, s ∈ (replaceTerminals g).vars)) := by
  intro e he p hp
  have he' : e ∈ (rtState g).newRules := he
  obtain ⟨h1, h2⟩ := (rtState_spec hin hdisj hampT).2 e he' p hp
  refine ⟨h1, fun hne => ?_⟩
  rcases h2 hne with ⟨hl, hh⟩ | ⟨hl, hs⟩
  · exact Or.inl ⟨hl, hh⟩
  · refine Or.inr ⟨hl, ?_⟩
    intro s hs2
    show s ∈ (rtState g).toAddVar.foldl osetAdd g.vars
    rcases hs s hs2 with h | h
    · exact subset_foldl_osetAdd _ _ h
    · exact mem_foldl_osetAdd _ h

/-- One chain link of `reduce_size`, named. -/
def rsCStep (numberV : Nat) (prod : List Sym) (sn : RSSt × Sym) (i : Nat) :
    RSSt × Sym :=
  ({ sn.1 with
      toAddVar := osetAdd sn.1.toAddVar (cName numberV sn.1.newVId)
      newRules := dSet sn.1.newRules (cName numberV sn.1.newVId)
        [[prod.getD i "", sn.2]]
      newVId := sn.1.newVId + 1 }, cName numberV sn.1.newVId)

/-- `rsChain` is the fold of the named link step from the seeded state. -/
theorem rsChain_eq (numberV : Nat) (prod : List Sym) (st : RSSt) :
    rsChain numberV prod st
      = (List.range' 1 (prod.length - 3)).reverse.foldl (rsCStep numberV prod)
          ({ st with
              toAddVar := osetAdd st.toAddVar (cName numberV st.newVId)
              newVId := st.newVId + 1
              newRules := dSet st.newRules (cName numberV st.newVId)
                [[prod.getD (prod.length - 2) "", prod.getD (prod.length - 1) ""]] },
           cName numberV st.newVId) := rfl

/-- One chain link preserves the `reduce_size` invariant. -/
theorem rsCStep_spec {g : Grammar} {S : Sym} {numberV : Nat} {prod : List Sym}
    (hsyms : ∀ s ∈ prod, s ∈ g.vars) {sn : RSSt × Sym} {i : Nat}
    (hi : i < prod.length) (hinv : rsInv g S sn.1) (hsn : sn.2 ∈ sn.1.toAddVar) :
    rsInv g S (rsCStep numberV prod sn i).1
    ∧ sn.1.toAddVar ⊆ (rsCStep numberV prod sn i).1.toAddVar
    ∧ (rsCStep numberV prod sn i).2 ∈ (rsCStep numberV prod sn i).1.toAddVar := by
  refine ⟨?_, subset_osetAdd _ _, mem_osetAdd_iff.2 (Or.inr rfl)⟩
  intro e he p hp
  have he' : e ∈ dSet sn.1.newRules (cName numberV sn.1.newVId)
      [[prod.getD i "", sn.2]] := he
  rcases mem_dSet he' with ⟨hm, _⟩ | rfl
  · exact rsKProd_mono (subset_osetAdd _ _) (hinv e hm p hp)
  · simp only [List.mem_singleton] at hp
    subst hp
    refine ⟨fun hco => by simp at hco, fun _ => Or.inr ⟨rfl, ?_⟩⟩
    intro s hs
    rcases List.mem_cons.1 hs with rfl | hs2
    · refine Or.inl (hsyms _ ?_)
      rw [List.getD_eq_getElem _ _ hi]
      exact List.getElem_mem hi
    · rcases List.mem_cons.1 hs2 with rfl | hs3
      · exact Or.inr (subset_osetAdd _ _ hsn)
      · simp at hs3

/-- The chain loop of `reduce_size` over any in-range index list. -/
theorem rsCLoop_spec {g : Grammar} {S : Sym} {numberV : Nat} {prod : List Sym}
    (hsyms : ∀ s ∈ prod, s ∈ g.vars) :
    ∀ (l : List Nat), (∀ i ∈ l, i < prod.length) →
    ∀ sn : RSSt × Sym, rsInv g S sn.1 → sn.2 ∈ sn.1.toAddVar →
    rsInv g S (l.foldl (rsCStep numberV prod) sn).1
    ∧ sn.1.toAddVar ⊆ (l.foldl (rsCStep numberV prod) sn).1.toAddVar
    ∧ (l.foldl (rsCStep numberV prod) sn).2
        ∈ (l.foldl (rsCStep numberV prod) sn).1.toAddVar := by
  intro l
  induction l with
  | nil => exact fun _ sn hinv hsn => ⟨hinv, fun a ha => ha, hsn⟩
  | cons i l ih =>
    intro hil sn hinv hsn
    simp only [List.foldl_cons]
    obtain ⟨hinv', hmono, hsn'⟩ :=
      rsCStep_spec hsyms (hil i (by simp)) hinv hsn
    obtain ⟨hinv2, hmono2, hsn2⟩ :=
      ih (fun j hj => hil j (by simp [hj])) (rsCStep numberV prod sn i) hinv' hsn'
    exact ⟨hinv2, fun a ha => hmono2 (hmono ha), hsn2⟩

/-- `rsChain` preserves the invariant and returns a minted chain
variable. -/
theorem rsChain_spec {g : Grammar} {S : Sym} {numberV : Nat} {prod : List Sym}
    {st : RSSt}
    (hsyms : ∀ s ∈ prod, s ∈ g.vars) (hlen : 2 < prod.length)
    (hinv : rsInv g S st) :
    rsInv g S (rsChain numberV prod st).1
    ∧ st.toAddVar ⊆ (rsChain numberV prod st).1.toAddVar
    ∧ (rsChain numberV prod st).2 ∈ (rsChain numberV prod st).1.toAddVar := by
  rw [rsChain_eq]
  have hinv1 : rsInv g S
      { st with
          toAddVar := osetAdd st.toAddVar (cName numberV st.newVId)
          newVId := st.newVId + 1
          newRules := dSet st.newRules (cName numberV st.newVId)
            [[prod.getD (prod.length - 2) "", prod.getD (prod.length - 1) ""]] } := by
    intro e he p hp
    have he' : e ∈ dSet st.newRules (cName numberV st.newVId)
        [[prod.getD (prod.length - 2) "", prod.getD (prod.length - 1) ""]] := he
    rcases mem_dSet he' with ⟨hm, _⟩ | rfl
    · exact rsKProd_mono (subset_osetAdd _ _) (hinv e hm p hp)
    · simp only [List.mem_singleton] at hp
      subst hp
      refine ⟨fun hco => by simp at hco, fun _ => Or.inr ⟨rfl, ?_⟩⟩
      intro s hs
      have h2l : prod.length - 2 < prod.length := by omega
      have h1l : prod.length - 1 < prod.length := by omega
      rcases List.mem_cons.1 hs with rfl | hs2
      · refine Or.inl (hsyms _ ?_)
        rw [List.getD_eq_getElem _ _ h2l]
        exact List.getElem_mem h2l
      · rcases List.mem_cons.1 hs2 with rfl | hs3
        · refine Or.inl (hsyms _ ?_)
          rw [List.getD_eq_getElem _ _ h1l]
          exact List.getElem_mem h1l
        · simp at hs3
  have hil : ∀ i ∈ (List.range' 1 (prod.length - 3)).reverse, i < prod.length := by
    intro i hi
    have hi2 : i ∈ List.range' 1 (prod.length - 3) := List.mem_reverse.1 hi
    have := List.mem_range'_1.1 hi2
    omega
  obtain ⟨hinv2, hmono2, hsn2⟩ := rsCLoop_spec hsyms
    ((List.range' 1 (prod.length - 3)).reverse) hil
    ({ st with
        toAddVar := osetAdd st.toAddVar (cName numberV st.newVId)
        newVId := st.newVId + 1
        newRules := dSet st.newRules (cName numberV st.newVId)
          [[prod.getD (prod.length - 2) "", prod.getD (prod.length - 1) ""]] },
     cName numberV st.newVId) hinv1 (mem_osetAdd_iff.2 (Or.inr rfl))
  exact ⟨hinv2, fun a ha => hmono2 (subset_osetAdd _ _ ha), hsn2⟩

/-- One production of `reduce_size`'s per-variable loop, named. -/
def rsPStep (vi : Nat) (v : Sym) (st : RSSt) (prod : List Sym) : RSSt :=
  if prod.length > 2 then
    { (rsChain vi prod st).1 with
        newRules := dSet (rsChain vi prod st).1.newRules v
          (osetUpdate (dGet (rsChain vi prod st).1.newRules v [])
            [[prod.getD 0 "", (rsChain vi prod st).2]]) }
  else
    { st with newRules := dSet st.newRules v (osetAdd (dGet st.newRules v []) prod) }

/-- One variable of `reduce_size`'s main loop, named. -/
def rsVStep (g : Grammar) (st : RSSt) (ve : Nat × Sym) : RSSt :=
  (dGet g.rules ve.2 []).foldl (rsPStep ve.1 ve.2)
    { st with newVId := 0, newRules := dSet st.newRules ve.2 [] }

/-- `rsState` is the fold of the named variable step. -/
theorem rsState_eq (g : Grammar) :
    rsState g = g.vars.enum.foldl (rsVStep g) ⟨0, [], []⟩ := rfl

/-- One production step of `reduce_size` preserves the invariant. -/
theorem rsPStep_spec {g : Grammar} {S : Sym} {vi : Nat} {v : Sym} {st : RSSt}
    {prod : List Sym}
    (hprod : (prod = ["&"] → v = S) ∧ (¬ prod = ["&"] →
      (prod.length = 1 ∧ prod.headD "" ∈ g.terminals)
        ∨ (2 ≤ prod.length ∧ ∀ s ∈ prod, s ∈ g.vars)))
    (hinv : rsInv g S st) :
    rsInv g S (rsPStep vi v st prod)
    ∧ st.toAddVar ⊆ (rsPStep vi v st prod).toAddVar := by
  unfold rsPStep
  by_cases h2 : prod.length > 2
  · rw [if_pos h2]
    have hneAmp : ¬ prod = ["&"] := by
      intro hh
      rw [hh] at h2
      simp at h2
    have hsyms : ∀ s ∈ prod, s ∈ g.vars := by
      rcases hprod.2 hneAmp with ⟨h1, _⟩ | ⟨_, h⟩
      · omega
      · exact h
    obtain ⟨hinvC, hmonoC, hmemC⟩ := rsChain_spec hsyms h2 hinv
    refine ⟨?_, fun a ha => hmonoC ha⟩
    intro e he p hp
    have he' : e ∈ dSet (rsChain vi prod st).1.newRules v
        (osetUpdate (dGet (rsChain vi prod st).1.newRules v [])
          [[prod.getD 0 "", (rsChain vi prod st).2]]) := he
    rcases mem_dSet he' with ⟨hm, _⟩ | rfl
    · exact hinvC e hm p hp
    · rcases mem_osetUpdate_iff.1 hp with hpm | hpm
      · rcases dGet_cases (rsChain vi prod st).1.newRules v ([] : List (List Sym))
          with hget | ⟨e0, he0, hk0, hget⟩
        · rw [hget] at hpm
          simp at hpm
        · rw [hget] at hpm
          have hh := hinvC e0 he0 p hpm
          rw [hk0] at hh
          exact hh
      · simp only [List.mem_singleton] at hpm
        subst hpm
        refine ⟨fun hco => by simp at hco, fun _ => Or.inr ⟨rfl, ?_⟩⟩
        intro s hs
        have h0l : 0 < prod.length := by omega
        rcases List.mem_cons.1 hs with rfl | hs2
        · refine Or.inl (hsyms _ ?_)
          rw [List.getD_eq_getElem _ _ h0l]
          exact List.getElem_mem h0l
        · rcases List.mem_cons.1 hs2 with rfl | hs3
          · exact Or.inr hmemC
          · simp at hs3
  · rw [if_neg h2]
    refine ⟨?_, fun a ha => ha⟩
    intro e he p hp
    have he' : e ∈ dSet st.newRules v (osetAdd (dGet st.newRules v []) prod) := he
    rcases mem_dSet he' with ⟨hm, _⟩ | rfl
    · exact hinv e hm p hp
    · rcases mem_osetAdd_iff.1 hp with hpm | rfl
      · rcases dGet_cases st.newRules v ([] : List (List Sym))
          with hget | ⟨e0, he0, hk0, hget⟩
        · rw [hget] at hpm
          simp at hpm
        · rw [hget] at hpm
          have hh := hinv e0 he0 p hpm
          rw [hk0] at hh
          exact hh
      · refine ⟨hprod.1, fun hne => ?_⟩
        rcases hprod.2 hne with ⟨h1, hterm⟩ | ⟨hge, hall⟩
        · exact Or.inl ⟨h1, hterm⟩
        · refine Or.inr ⟨by omega, ?_⟩
          intro s hs
          exact Or.inl (hall s hs)

/-- One variable step of `reduce_size` preserves the invariant. -/
theorem rsVStep_spec {g : Grammar} {S : Sym}
    (hin : ∀ e ∈ g.rules, ∀ p ∈ e.2, (p = ["&"] → e.1 = S) ∧ (¬ p = ["&"] →
      (p.length = 1 ∧ p.headD "" ∈ g.terminals)
        ∨ (2 ≤ p.length ∧ ∀ s ∈ p, s ∈ g.vars)))
    {st : RSSt} {ve : Nat × Sym} (hinv : rsInv g S st) :
    rsInv g S (rsVStep g st ve) := by
  unfold rsVStep
  have hprods : ∀ p ∈ dGet g.rules ve.2 [], (p = ["&"] → ve.2 = S) ∧ (¬ p = ["&"] →
      (p.length = 1 ∧ p.headD "" ∈ g.terminals)
        ∨ (2 ≤ p.length ∧ ∀ s ∈ p, s ∈ g.vars)) := by
    rcases dGet_cases g.rules ve.2 ([] : List (List Sym))
      with hget | ⟨e0, he0, hk0, hget⟩
    · rw [hget]
      intro p hp
      simp at hp
    · rw [hget]
      intro p hp
      have hh := hin e0 he0 p hp
      rw [hk0] at hh
      exact hh
  have hinv0 : rsInv g S
      { st with newVId := 0, newRules := dSet st.newRules ve.2 [] } := by
    intro e he p hp
    have he' : e ∈ dSet st.newRules ve.2 ([] : List (List Sym)) := he
    rcases mem_dSet he' with ⟨hm, _⟩ | rfl
    · exact hinv e hm p hp
    · simp at hp
  suffices h : ∀ (prods : List (List Sym)),
      (∀ p ∈ prods, (p = ["&"] → ve.2 = S) ∧ (¬ p = ["&"] →
        (p.length = 1 ∧ p.headD "" ∈ g.terminals)
          ∨ (2 ≤ p.length ∧ ∀ s ∈ p, s ∈ g.vars))) →
      ∀ st0 : RSSt, rsInv g S st0 →
      rsInv g S (prods.foldl (rsPStep ve.1 ve.2) st0) by
    exact h _ hprods _ hinv0
  intro prods
  induction prods with
  | nil => exact fun _ st0 h0 => h0
  | cons p prods ih =>
    intro hps st0 hst0
    simp only [List.foldl_cons]
    exact ih (fun q hq => hps q (by simp [hq])) _ (rsPStep_spec (hps p (by simp)) hst0).1

/-- The state after `reduce_size`'s main loop satisfies the invariant. -/
theorem rsState_spec {g : Grammar} {S : Sym}
    (hin : ∀ e ∈ g.rules, ∀ p ∈ e.2, (p = ["&"] → e.1 = S) ∧ (¬ p = ["&"] →
      (p.length = 1 ∧ p.headD "" ∈ g.terminals)
        ∨ (2 ≤ p.length ∧ ∀ s ∈ p, s ∈ g.vars))) :
    rsInv g S (rsState g) := by
  rw [rsState_eq]
  suffices h : ∀ (L : List (Nat × Sym)) (st : RSSt), rsInv g S st →
      rsInv g S (L.foldl (rsVStep g) st) by
    refine h g.vars.enum _ ?_
    intro e he p hp
    simp at he
  intro L
  induction L with
  | nil => exact fun st hinv => hinv
  | cons ve L ih =>
    intro st hinv
    simp only [List.foldl_cons]
    exact ih _ (rsVStep_spec hin hinv)

/-- Stage 6: every production of `reduce_size`'s output is the keyed
epsilon (only at `S`) or has a Chomsky shape. -/
theorem reduceSize_keyed {g : Grammar} {S : Sym}
    (hin : ∀ e ∈ g.rules, ∀ p ∈ e.2, (p = ["&"] → e.1 = S) ∧ (¬ p = ["&"] →
      (p.length = 1 ∧ p.headD "" ∈ g.terminals)
        ∨ (2 ≤ p.length ∧ ∀ s ∈ p, s ∈ g.vars))) :
    ∀ e ∈ (reduceSize g).rules, ∀ p ∈ e.2,
      (p = ["&"] → e.1 = S) ∧
      (¬ p = ["&"] →
        (p.length = 1 ∧ p.headD "" ∈ (reduceSize g).terminals)
        ∨ (p.length = 2 ∧ ∀ s ∈ p, s ∈ (reduceSize g).vars)) := by
  intro e he p hp
  have he' : e ∈ (rsState g).newRules := he
  obtain ⟨h1, h2⟩ := rsState_spec hin e he' p hp
  refine ⟨h1, fun hne => ?_⟩
  rcases h2 hne with ⟨hl, hh⟩ | ⟨hl, hs⟩
  · exact Or.inl ⟨hl, hh⟩
  · refine Or.inr ⟨hl, ?_⟩
    intro s hs2
    show s ∈ (rsState g).toAddVar.foldl osetAdd g.vars
    rcases hs s hs2 with h | h
    · exact subset_foldl_osetAdd _ _ h
    · exact mem_foldl_osetAdd _ h

/-- Stages 3-6 of the pipeline: from the keyed stage-2 invariant (epsilon
only at the start, every other production a nonempty non-unit string of
declared symbols), with exact duplicate-free rule keys, a declared start
that stays productive through the unproductive trimming, disjoint symbol
classes and no `&` among the symbols, the final grammar is CNF-shaped. -/
theorem pipelineTail_shaped (h2 : Grammar)
    (hin2 : ∀ e ∈ h2.rules, ∀ p ∈ e.2, preKProd h2.vars h2.terminals h2.start e.1 p)
    (hnd2 : (dKeys h2.rules).Nodup)
    (hstart2 : h2.start ∈ h2.vars)
    (hdisj2 : ∀ v ∈ h2.vars, ¬ v ∈ h2.terminals)
    (hampv2 : ¬ "&" ∈ h2.vars)
    (hampt2 : ¬ "&" ∈ h2.terminals)
    (hstartp2 : (rupRules2 h2).any (fun e => e.1 = h2.start) = true) :
    cnfShaped (reduceSize (replaceTerminals (removeUnreachables
      (removeUnproductives h2)))) := by
  have hif : ¬ ¬ (rupRules2 h2).any (fun e => e.1 = h2.start) = true :=
    fun hneg => hneg hstartp2
  have heq3 : removeUnproductives h2
      = { h2 with vars := h2.vars.filter (fun v => ¬ v ∈ rupToRemove h2)
                  rules := rupRules2 h2 } := by
    unfold removeUnproductives
    rw [if_neg hif]
  have hv3 : (removeUnproductives h2).vars
      = h2.vars.filter (fun v => ¬ v ∈ rupToRemove h2) := by rw [heq3]
  have ht3 : (removeUnproductives h2).terminals = h2.terminals := by rw [heq3]
  have hst3 : (removeUnproductives h2).start = h2.start := by rw [heq3]
  have hr3 : (removeUnproductives h2).rules = rupRules2 h2 := by rw [heq3]
  have hstrem : ¬ h2.start ∈ rupToRemove h2 := by
    rcases List.any_eq_true.1 hstartp2 with ⟨e, he, hk⟩
    simp only [decide_eq_true_eq] at hk
    have hh := (mem_foldl_dDel.1 he).2
    rw [hk] at hh
    exact hh
  have hstart3 : (removeUnproductives h2).start ∈ (removeUnproductives h2).vars := by
    rw [hst3, hv3]
    exact List.mem_filter.2 ⟨hstart2, by simpa using hstrem⟩
  have hsurv : ∀ s, s ∈ h2.vars → s ∈ productivesOf h2 →
      s ∈ (removeUnproductives h2).vars := by
    intro s hs hsp
    rw [hv3]
    refine List.mem_filter.2 ⟨hs, ?_⟩
    have hnt : ¬ s ∈ h2.terminals := hdisj2 s hs
    have hsamp : ¬ s = "&" := fun hh => hampv2 (hh ▸ hs)
    simpa using productive_var_survives hnd2 hs hnt hsamp hsp
  have hentry3 := removeUnproductives_entry (h := h2) hstartp2
  have hkeys3 : ∀ e ∈ (removeUnproductives h2).rules,
      e.1 ∈ (removeUnproductives h2).vars := by
    intro e he
    rw [hr3] at he
    have h1 := mem_foldl_dDel.1 he
    have h2m : e ∈ rupNewRules h2 := h1.1
    have h3m : e ∈ h2.vars.foldl
        (fun d k => dSet d k
          ((fun v => rupKeep (productivesOf h2) (dGet h2.rules v [])) k))
        ([] : List (Sym × List (List Sym))) := h2m
    rcases mem_foldl_dSetF h3m with h0 | ⟨hkm, _⟩
    · simp at h0
    · rw [hv3]
      exact List.mem_filter.2 ⟨hkm, by simpa using h1.2⟩
  have hentry4 := removeUnreachables_entry (h := removeUnproductives h2) hkeys3
  have hclosed0 : ∀ v ∈ bfsVisited (unreachEdges (removeUnproductives h2))
      (2 * (removeUnproductives h2).vars.length + 2)
      [(removeUnproductives h2).start] [(removeUnproductives h2).start],
      ∀ u ∈ dGet (unreachEdges (removeUnproductives h2)) v [],
        u ∈ bfsVisited (unreachEdges (removeUnproductives h2))
          (2 * (removeUnproductives h2).vars.length + 2)
          [(removeUnproductives h2).start] [(removeUnproductives h2).start] := by
    refine bfs_closed (fun a u hu => unreachEdges_sound hu) _ _ _
      (by simp) ?_ (fun x hx => hx) (fun v hv => Or.inl hv) ?_
    · intro x hx
      rcases List.mem_singleton.1 hx with rfl
      exact hstart3
    · simp only [List.length_singleton]
      omega
  have hclosed : ∀ v ∈ urVisited (removeUnproductives h2),
      ∀ u ∈ dGet (unreachEdges (removeUnproductives h2)) v [],
        u ∈ urVisited (removeUnproductives h2) := hclosed0
  have hv4sub : ∀ x ∈ (removeUnreachables (removeUnproductives h2)).vars,
      x ∈ h2.vars := by
    intro x hx
    have hx2 : x ∈ (removeUnproductives h2).vars.filter
        (fun v => v ∈ urVisited (removeUnproductives h2)) := hx
    have hx3 := (List.mem_filter.1 hx2).1
    rw [hv3] at hx3
    exact (List.mem_filter.1 hx3).1
  have hst4 : (removeUnreachables (removeUnproductives h2)).start = h2.start := hst3
  have ht4 : (removeUnreachables (removeUnproductives h2)).terminals
      = h2.terminals := ht3
  have hin4 : ∀ e ∈ (removeUnreachables (removeUnproductives h2)).rules, ∀ p ∈ e.2,
      preKProd (removeUnreachables (removeUnproductives h2)).vars
        (removeUnreachables (removeUnproductives h2)).terminals
        (removeUnreachables (removeUnproductives h2)).start e.1 p := by
    intro e he p hp
    obtain ⟨he3, hvis⟩ := hentry4 e he
    obtain ⟨⟨e0, he0, hk0, hp0⟩, hprodv⟩ := hentry3 e he3 p hp
    have hk := hin2 e0 he0 p hp0
    rw [hk0] at hk
    refine ⟨fun hco => ?_, fun hne => ?_⟩
    · rw [hst4]
      exact hk.1 hco
    · obtain ⟨hnp, hsyms, hhead⟩ := hk.2 hne
      refine ⟨hnp, ?_, ?_⟩
      · intro s hs
        rcases hsyms s hs with hv | hts
        · refine Or.inl ?_
          have hs3 : s ∈ (removeUnproductives h2).vars := hsurv s hv (hprodv s hs)
          have hedge : s ∈ dGet (unreachEdges (removeUnproductives h2)) e.1 [] :=
            unreachEdges_complete he3 hp hs hs3
          have hs4 : s ∈ urVisited (removeUnproductives h2) := hclosed e.1 hvis s hedge
          show s ∈ (removeUnproductives h2).vars.filter
            (fun v => v ∈ urVisited (removeUnproductives h2))
          exact List.mem_filter.2 ⟨hs3, by simpa using hs4⟩
        · refine Or.inr ?_
          rw [ht4]
          exact hts
      · rcases hhead with hl | hnv
        · exact Or.inl hl
        · exact Or.inr (fun hmem => hnv (hv4sub _ hmem))
  have hdisj4 : ∀ v ∈ (removeUnreachables (removeUnproductives h2)).vars,
      ¬ v ∈ (removeUnreachables (removeUnproductives h2)).terminals := by
    intro v hv
    rw [ht4]
    exact hdisj2 v (hv4sub v hv)
  have hampt4 : ¬ "&" ∈ (removeUnreachables (removeUnproductives h2)).terminals := by
    rw [ht4]
    exact hampt2
  have hk5 := replaceTerminals_keyed hin4 hdisj4 hampt4
  have hk6 := reduceSize_keyed
    (S := (removeUnreachables (removeUnproductives h2)).start) hk5
  intro v hv p hp
  have hp' : p ∈ dGet (reduceSize (replaceTerminals (removeUnreachables
      (removeUnproductives h2)))).rules v [] := hp
  rcases dGet_cases (reduceSize (replaceTerminals (removeUnreachables
      (removeUnproductives h2)))).rules v ([] : List (List Sym))
    with hget | ⟨e0, he0, hk0, hget⟩
  · rw [hget] at hp'
    simp at hp'
  · rw [hget] at hp'
    obtain ⟨h1, h2e⟩ := hk6 e0 he0 p hp'
    by_cases hamp : p = ["&"]
    · refine Or.inr (Or.inr ⟨?_, hamp⟩)
      have hv0 : v = (removeUnreachables (removeUnproductives h2)).start := by
        rw [← hk0]
        exact h1 hamp
      exact hv0
    · rcases h2e hamp with ⟨hl, hh⟩ | ⟨hl, hh⟩
      · exact Or.inl ⟨hl, hh⟩
      · exact Or.inr (Or.inl ⟨hl, hh⟩)

/-- C3, amended: `convert_to_cnf` does not always produce a grammar in
Chomsky normal form (the empty-language placeholder `S -> S` is the
counterexample), but it does on every well-formed grammar whose variables
and terminals are disjoint, whose augmented-start name `❬'S❭` is fresh
whenever the start is nullable, and whose start is still productive after
the epsilon and unit stages: every production of the result is a lone
terminal, a pair of variables, or the start's epsilon production. -/
theorem convert_to_cnf_shaped (g : Grammar) (hw : wfG g)
    (hdisj : ∀ v ∈ g.vars, ¬ v ∈ g.terminals)
    (hfresh : g.start ∈ nullablesOf g →
      ¬ augName g.start ∈ g.vars ∧ ¬ augName g.start ∈ g.terminals)
    (hstartp : (rupRules2 (removeUnit (removeEpsilon g))).any
        (fun e => e.1 = (removeUnit (removeEpsilon g)).start) = true) :
    cnfShaped (convertToCnf g) := by
  have hwfull := hw
  obtain ⟨hkeys, hnd, hstart, hav, hat, hev, het, hdv, hdt, hwf⟩ := hwfull
  by_cases hnul : g.start ∈ nullablesOf g
  case pos =>
    obtain ⟨hfv, hft⟩ := hfresh hnul
    have heq1 : removeEpsilon g
        = { vars := osetAdd g.vars (augName g.start)
            terminals := g.terminals
            rules := dSet (reRules g (nullablesOf g)) (augName g.start)
              [[g.start], ["&"]]
            start := augName g.start } := by
      unfold removeEpsilon
      rw [if_pos hnul]
    have hv1 : (removeEpsilon g).vars = osetAdd g.vars (augName g.start) := by
      rw [heq1]
    have ht1 : (removeEpsilon g).terminals = g.terminals := by rw [heq1]
    have hst1 : (removeEpsilon g).start = augName g.start := by rw [heq1]
    have hr1 : (removeEpsilon g).rules
        = dSet (reRules g (nullablesOf g)) (augName g.start)
            [[g.start], ["&"]] := by
      rw [heq1]
    have hnd1 : (removeEpsilon g).vars.Nodup := by
      rw [hv1]
      exact osetAdd_nodup hnd
    have hstart1 : (removeEpsilon g).start ∈ (removeEpsilon g).vars := by
      rw [hv1, hst1]
      exact mem_osetAdd_iff.2 (Or.inr rfl)
    have hmem1 : ∀ v ∈ (removeEpsilon g).vars, v ∈ g.vars ∨ v = augName g.start := by
      intro v hv
      rw [hv1] at hv
      exact mem_osetAdd_iff.1 hv
    have hdisj1 : ∀ v ∈ (removeEpsilon g).vars,
        ¬ v ∈ (removeEpsilon g).terminals := by
      intro v hv
      rw [ht1]
      rcases hmem1 v hv with h | rfl
      · exact hdisj v h
      · exact hft
    have hampv1 : ¬ "&" ∈ (removeEpsilon g).vars := by
      intro hmem
      rcases hmem1 _ hmem with h | h
      · exact hav h
      · exact augName_ne_amp g.start h.symm
    have hampt1 : ¬ "&" ∈ (removeEpsilon g).terminals := by
      rw [ht1]
      exact hat
    have hI1 : ∀ e ∈ (removeEpsilon g).rules, ∀ q ∈ e.2,
        (q = ["&"] → e.1 = (removeEpsilon g).start)
        ∧ (¬ q = ["&"] → ¬ q = []
            ∧ ∀ s ∈ q, s ∈ (removeEpsilon g).vars
              ∨ s ∈ (removeEpsilon g).terminals) := by
      intro e he q hq
      rw [hr1] at he
      rcases mem_dSet he with ⟨hm, _⟩ | rfl
      · obtain ⟨hne0, hneAmp, hsyms⟩ := reRules_shape hw e hm q hq
        refine ⟨fun hco => absurd hco hneAmp, fun _ => ⟨hne0, ?_⟩⟩
        intro s hs
        rcases hsyms s hs with h | h
        · exact Or.inl (by rw [hv1]; exact subset_osetAdd _ _ h)
        · exact Or.inr (by rw [ht1]; exact h)
      · rcases List.mem_cons.1 hq with rfl | hq2
        · refine ⟨fun hco => ?_, fun _ => ⟨by simp, ?_⟩⟩
          · exfalso
            have hsm : g.start = "&" := by simpa using hco
            exact hav (hsm ▸ hstart)
          · intro s hs
            simp only [List.mem_singleton] at hs
            subst hs
            refine Or.inl ?_
            rw [hv1]
            exact subset_osetAdd _ _ hstart
        · rcases List.mem_cons.1 hq2 with rfl | hq3
          · refine ⟨fun _ => ?_, fun hne => absurd rfl hne⟩
            rw [hst1]
          · simp at hq3
    have hnoIn1 : ∀ a : Sym,
        ¬ (removeEpsilon g).start ∈ dGet (unitEdges (removeEpsilon g)) a [] := by
      intro a hmem
      obtain ⟨e, he, _, body, hb, hlen1, hhv, hu⟩ := unitEdges_sound hmem
      have hx : body.headD "" ∈ body := by
        cases body with
        | nil => simp at hlen1
        | cons x t =>
          simp only [List.headD_cons]
          exact List.mem_cons_self x t
      rw [hr1] at he
      rcases mem_dSet he with ⟨hm, _⟩ | rfl
      · obtain ⟨_, _, hsyms⟩ := reRules_shape hw e hm body hb
        rw [hst1] at hu
        rcases hsyms _ hx with h | h
        · rw [← hu] at h
          exact hfv h
        · rw [← hu] at h
          exact hft h
      · rcases List.mem_cons.1 hb with rfl | hb2
        · rw [hst1] at hu
          simp only [List.headD_cons] at hu
          exact hfv (by rw [hu]; exact hstart)
        · rcases List.mem_cons.1 hb2 with rfl | hb3
          · simp only [List.headD_cons] at hhv
            exact hampv1 hhv
          · simp at hb3
    have hshape2 := removeUnit_shape (h := removeEpsilon g)
      (fun e he q hq hne => (hI1 e he q hq).2 hne)
    have heps2 := removeUnit_eps (h := removeEpsilon g)
      (fun e he q hq hco => (hI1 e he q hq).1 hco) hnoIn1
    have hin2 : ∀ e ∈ (removeUnit (removeEpsilon g)).rules, ∀ p ∈ e.2,
        preKProd (removeUnit (removeEpsilon g)).vars
          (removeUnit (removeEpsilon g)).terminals
          (removeUnit (removeEpsilon g)).start e.1 p := by
      intro e he p hp
      refine ⟨fun hco => heps2 e he p hp hco, fun hne => ?_⟩
      obtain ⟨h1, h2, h3⟩ := hshape2 e he p hp hne
      exact ⟨h1, h2, h3⟩
    have hnd2 : (dKeys (removeUnit (removeEpsilon g)).rules).Nodup := by
      have hh : dKeys ((removeEpsilon g).vars.map
          (fun var => (var, ruPool (removeEpsilon g) var)))
          = (removeEpsilon g).vars := dKeys_map_pair
      show (dKeys ((removeEpsilon g).vars.map
        (fun var => (var, ruPool (removeEpsilon g) var)))).Nodup
      rw [hh]
      exact hnd1
    exact pipelineTail_shaped (removeUnit (removeEpsilon g)) hin2 hnd2
      hstart1 hdisj1 hampv1 hampt1 hstartp
  case neg =>
    have heq1 : removeEpsilon g = { g with rules := reRules g (nullablesOf g) } := by
      unfold removeEpsilon
      rw [if_neg hnul]
    have hv1 : (removeEpsilon g).vars = g.vars := by rw [heq1]
    have ht1 : (removeEpsilon g).terminals = g.terminals := by rw [heq1]
    have hst1 : (removeEpsilon g).start = g.start := by rw [heq1]
    have hr1 : (removeEpsilon g).rules = reRules g (nullablesOf g) := by rw [heq1]
    have hI1 : ∀ e ∈ (removeEpsilon g).rules, ∀ q ∈ e.2,
        ¬ q = ["&"] ∧ (¬ q = []
          ∧ ∀ s ∈ q, s ∈ (removeEpsilon g).vars
            ∨ s ∈ (removeEpsilon g).terminals) := by
      intro e he q hq
      rw [hr1] at he
      obtain ⟨hne0, hneAmp, hsyms⟩ := reRules_shape hw e he q hq
      refine ⟨hneAmp, hne0, ?_⟩
      intro s hs
      rw [hv1, ht1]
      exact hsyms s hs
    have hshape2 := removeUnit_shape (h := removeEpsilon g)
      (fun e he q hq _ => (hI1 e he q hq).2)
    have heps2 : ∀ e ∈ (removeUnit (removeEpsilon g)).rules, ∀ p ∈ e.2,
        ¬ p = ["&"] := by
      intro e he p hp hco
      subst hco
      rcases List.mem_map.1 he with ⟨v, hv, heqe⟩
      rw [← heqe] at hp
      obtain ⟨c, _, hpc, _⟩ := mem_ruPool_src hp
      rcases dGet_cases (removeEpsilon g).rules c ([] : List (List Sym))
        with hget | ⟨e0, he0, _, hget⟩
      · rw [hget] at hpc
        simp at hpc
      · rw [hget] at hpc
        exact (hI1 e0 he0 _ hpc).1 rfl
    have hin2 : ∀ e ∈ (removeUnit (removeEpsilon g)).rules, ∀ p ∈ e.2,
        preKProd (removeUnit (removeEpsilon g)).vars
          (removeUnit (removeEpsilon g)).terminals
          (removeUnit (removeEpsilon g)).start e.1 p := by
      intro e he p hp
      refine ⟨fun hco => absurd hco (heps2 e he p hp), fun hne => ?_⟩
      obtain ⟨h1, h2, h3⟩ := hshape2 e he p hp hne
      exact ⟨h1, h2, h3⟩
    have hnd2 : (dKeys (removeUnit (removeEpsilon g)).rules).Nodup := by
      have hh : dKeys ((removeEpsilon g).vars.map
          (fun var => (var, ruPool (removeEpsilon g) var)))
          = (removeEpsilon g).vars := dKeys_map_pair
      show (dKeys ((removeEpsilon g).vars.map
        (fun var => (var, ruPool (removeEpsilon g) var)))).Nodup
      rw [hh, hv1]
      exact hnd
    have hstart1 : (removeEpsilon g).start ∈ (removeEpsilon g).vars := by
      rw [hst1, hv1]
      exact hstart
    have hdisj1 : ∀ v ∈ (removeEpsilon g).vars,
        ¬ v ∈ (removeEpsilon g).terminals := by
      intro v hv
      rw [hv1] at hv
      rw [ht1]
      exact hdisj v hv
    have hampv1 : ¬ "&" ∈ (removeEpsilon g).vars := by
      rw [hv1]
      exact hav
    have hampt1 : ¬ "&" ∈ (removeEpsilon g).terminals := by
      rw [ht1]
      exact hat
    exact pipelineTail_shaped (removeUnit (removeEpsilon g)) hin2 hnd2
      hstart1 hdisj1 hampv1 hampt1 hstartp

/-- The witness of C3's amended claim: the nullable-start grammar
`S -> a | &` satisfies every hypothesis — the augmented-start name is fresh
and the start stays productive — and its `convert_to_cnf` image is
CNF-shaped, with the allowed epsilon at the new start. -/
theorem convert_to_cnf_shaped_witness :
    wfG gNulS ∧ gNulS.start ∈ nullablesOf gNulS ∧ cnfShaped (convertToCnf gNulS) :=
  ⟨by decide, by decide,
    convert_to_cnf_shaped gNulS (by decide) (by decide) (by decide) (by decide)⟩

end Cfg

